import Mathlib

/-!
Taxi-Clustering-Go: grid-partitioned DBSCAN.

A shallow embedding of `Templates_And_Draft_Version/mapDraft.go`: the partition loop of
`main`, `DBscan`, `rangeQuery` and `calculateDistance`.

Modelling conventions.

* `float64` coordinates and `eps` are exact rationals (`ℚ`); rounding, infinities and
  NaN are outside the model.  The Go test `calculateDistance(p1, p2) <= eps`, whose left
  side is a square root, is the decidable test `0 ≤ eps ∧ d² ≤ eps²` on the squared
  distance (`withinEps`); `withinEps_iff_sqrt` relates it to the real square root.
  The theorems about `DBscan` and the partition loop use the tests `withinEps` and
  `insideExpanded` only as predicates on the points (`withinEps` a symmetric one), through
  hypotheses on their outcome, so they hold for whatever the tests compute.  What holds
  in exact arithmetic only (the halo lemmas `coord_le_of_withinEps` and
  `insideExpanded_of_withinEps`) settles nothing about the rounded program.  The one
  metric fact used for a run of `main` is that two points less than `1/5000` apart in
  each coordinate pass the test with `eps = 3/10000` (`withinEps_of_unitSquare_eq`):
  their distance is below `0.000283`, a margin of more than 5 %.
* Go `int` is the 64-bit two's complement integer: a value is an `Int` between `minInt` and
  `maxInt`, and the additions `nclusters++` and `nclusters + offset` wrap (`wrapInt`).
  A theorem that runs `DBscan` takes the Go typing facts `offset ≤ maxInt` and
  `len(coords) ≤ maxInt` as hypotheses.
* A `*LabelledGPScoord` pointing into the slice `*coords` is the index of that entry;
  writing `.Label` through the pointer is `setLabel` at that index.
* The `seedSet` loop (`for q := 0; q < len(seedSet); q++` with `append` inside the body)
  is a work list: the entries not yet visited, `seedSet[q:]`, new entries added at the end.
  The loop is run with fuel `len(*coords)²`; running out of fuel is `none`.
  `seedLoop_isSome` shows that this fuel is enough whenever the cluster label is not `0`,
  and `DBscan_sound` that every run with a non-negative offset returns.
* The `fmt.Printf` of `DBscan` and the worker pool of `main` are not modelled.
-/

namespace TaxiClustering

/-! ## Data model -/

/-- Go `type GPScoord struct { lat, long float64 }`. -/
structure GPScoord where
  lat : ℚ
  long : ℚ
deriving DecidableEq

/-- Go `type LabelledGPScoord struct { GPScoord; ID int; Label int }`. -/
structure LabelledGPScoord extends GPScoord where
  ID : Int
  Label : Int
deriving DecidableEq

/-- Go `const N int = 4`. -/
def N : Nat := 4

/-- Go `const MinPts int = 5`. -/
def MinPts : Int := 5

/-- Go `const eps float64 = 0.0003`. -/
def epsConst : ℚ := 3 / 10000

/-- The largest Go `int`, `math.MaxInt64`. -/
def maxInt : Int := 9223372036854775807

/-- The smallest Go `int`, `math.MinInt64`. -/
def minInt : Int := -9223372036854775808

/-- The value that Go `int` arithmetic gives to the exact result `x` of an addition: `x`
wrapped to 64 bits two's complement. -/
def wrapInt (x : Int) : Int :=
  (x + 9223372036854775808) % 18446744073709551616 - 9223372036854775808

/-! ## Distance and range query -/

/-- The radicand of `calculateDistance`: the squared planar distance of two points. -/
def calculateDistanceSq (p1 p2 : LabelledGPScoord) : ℚ :=
  (p1.lat - p2.lat) * (p1.lat - p2.lat) + (p1.long - p2.long) * (p1.long - p2.long)

/-- The test `calculateDistance(p1, p2) <= eps` of `rangeQuery`. -/
def withinEps (p1 p2 : LabelledGPScoord) (eps : ℚ) : Bool :=
  decide (0 ≤ eps ∧ calculateDistanceSq p1 p2 ≤ eps * eps)

/-- Go `rangeQuery(db, p, eps)`: the entries of `db` within `eps` of `p`, as indices into
`db`, in increasing order. -/
def rangeQuery (db : List LabelledGPScoord) (p : LabelledGPScoord) (eps : ℚ) : List Nat :=
  (List.range db.length).filter fun i =>
    match db[i]? with
    | some c => withinEps p c eps
    | none => false

/-! ## DBSCAN -/

/-- The assignment `(*coords)[i].Label = l`. -/
def setLabel : List LabelledGPScoord → Nat → Int → List LabelledGPScoord
  | [], _, _ => []
  | c :: cs, 0, l => { c with Label := l } :: cs
  | c :: cs, i + 1, l => c :: setLabel cs i l

/-- One iteration of the `seedSet` loop of `DBscan`, at the entry `q` of the work list whose
later entries are `rest`; `label` is `nclusters + offset`.  The result is the slice and the
entries still to visit. -/
def seedStep (minPts : Int) (eps : ℚ) (label : Int) (coords : List LabelledGPScoord)
    (q : Nat) (rest : List Nat) : Option (List LabelledGPScoord × List Nat) :=
  match coords[q]? with
  | none => none
  | some c =>
    -- if seedSet[q].Label == -1 { seedSet[q].Label = nclusters + offset }
    let coords1 := if c.Label = -1 then setLabel coords q label else coords
    match coords1[q]? with
    | none => none
    | some c1 =>
      -- if seedSet[q].Label != 0 { continue }
      if c1.Label ≠ 0 then some (coords1, rest)
      else
        -- seedSet[q].Label = nclusters + offset
        let coords2 := setLabel coords1 q label
        -- seedNeighbours := rangeQuery(*coords, *seedSet[q], eps)
        let seedNeighbours := rangeQuery coords2 { c1 with Label := label } eps
        if (seedNeighbours.length : Int) ≥ minPts then
          some (coords2, rest ++ seedNeighbours)
        else some (coords2, rest)

/-- The `seedSet` loop of `DBscan`: `seedStep` until the work list is empty. -/
def seedLoop (minPts : Int) (eps : ℚ) (label : Int) :
    Nat → List LabelledGPScoord → List Nat → Option (List LabelledGPScoord)
  | _, coords, [] => some coords
  | 0, _, _ :: _ => none
  | fuel + 1, coords, q :: rest =>
    match seedStep minPts eps label coords q rest with
    | none => none
    | some (coords1, rest1) => seedLoop minPts eps label fuel coords1 rest1

/-- One iteration of the outer loop of `DBscan`, at index `p`, on the slice and `nclusters`. -/
def scanStep (minPts : Int) (eps : ℚ) (offset : Int) (st : List LabelledGPScoord × Int)
    (p : Nat) : Option (List LabelledGPScoord × Int) :=
  match st.1[p]? with
  | none => none
  | some c =>
    -- if (*coords)[p].Label != 0 { continue }
    if c.Label ≠ 0 then some st
    else
      let neighbours := rangeQuery st.1 c eps
      if (neighbours.length : Int) < minPts then
        some (setLabel st.1 p (-1), st.2)
      else
        -- nclusters++
        let nclusters := wrapInt (st.2 + 1)
        -- (*coords)[p].Label = nclusters + offset
        let label := wrapInt (nclusters + offset)
        let coords1 := setLabel st.1 p label
        match seedLoop minPts eps label (coords1.length * coords1.length)
            coords1 neighbours with
        | none => none
        | some coords2 => some (coords2, nclusters)

/-- Go `DBscan(coords, MinPts, eps, offset)`: the labelled slice and the returned `nclusters`;
`none` when the `seedSet` loop does not finish. -/
def DBscan (coords : List LabelledGPScoord) (minPts : Int) (eps : ℚ) (offset : Int) :
    Option (List LabelledGPScoord × Int) :=
  (List.range coords.length).foldlM (scanStep minPts eps offset) (coords, 0)

/-- The coordinates and identifier of an entry: the fields `DBscan` never writes. -/
def frame (c : LabelledGPScoord) : GPScoord × Int := (c.toGPScoord, c.ID)

/-- The number of entries still unclassified (label `0`). -/
def countZero (cs : List LabelledGPScoord) : Nat := cs.countP fun c => decide (c.Label = 0)

/-- A point is a core point of `db` when its `rangeQuery` has at least `minPts` entries. -/
def isCore (db : List LabelledGPScoord) (minPts : Int) (eps : ℚ) (p : LabelledGPScoord) : Prop :=
  minPts ≤ ((rangeQuery db p eps).length : Int)

/-- A label that is a cluster label in the tests of `DBscan`: neither `0` nor `-1`. -/
def Clustered (l : Int) : Prop := l ≠ 0 ∧ l ≠ -1

instance (l : Int) : Decidable (Clustered l) :=
  inferInstanceAs (Decidable (l ≠ 0 ∧ l ≠ -1))

/-- The label changes of the per-point state machine as `DBscan` tests them: none, `0 → -1`,
`0 → cluster`, `-1 → cluster`, a cluster label being any label other than `0` and `-1`. -/
def LabelTrans (old new : Int) : Prop :=
  new = old ∨ (old = 0 ∧ new = -1) ∨ ((old = 0 ∨ old = -1) ∧ Clustered new)

/-- The label changes of the per-point state machine with cluster labels `> 0`: none,
`0 → -1`, `0 → cluster`, `-1 → cluster`. -/
def LabelTransPos (old new : Int) : Prop :=
  new = old ∨ (old = 0 ∧ new = -1) ∨ ((old = 0 ∨ old = -1) ∧ 0 < new)

/-- Slice `b` comes from slice `a` by label changes of the state machine only: the same
coordinates and identifiers at every index, and labels related by `LabelTrans`. -/
def Evolves (a b : List LabelledGPScoord) : Prop :=
  a.map frame = b.map frame ∧
    ∀ (i : Nat) (c c' : LabelledGPScoord), a[i]? = some c → b[i]? = some c' →
      LabelTrans c.Label c'.Label

/-- The entries of `db` that a list of pointers into `db` refers to. -/
def deref (db : List LabelledGPScoord) (idxs : List Nat) : List LabelledGPScoord :=
  idxs.filterMap fun i => db[i]?

/-- The invariant of the outer scan of `DBscan`, run from `coords0` with an `offset` between
`0` and `maxInt`, when it is about to visit index `p` with slice `cs` and counter `n`: only
labels have changed, each label has followed the state machine (a noise label was given to a
non-core point by the scan, a cluster label is `k + offset` in `int` arithmetic for one of
the cluster numbers `k = 1 .. n`), every entry before `p` is labelled, and each cluster
number has the core point that started it. -/
structure Sound (coords0 : List LabelledGPScoord) (minPts : Int) (eps : ℚ) (offset : Int)
    (p : Nat) (cs : List LabelledGPScoord) (n : Int) : Prop where
  off_nonneg : 0 ≤ offset
  off_le : offset ≤ maxInt
  len_le : (coords0.length : Int) ≤ maxInt
  index_le : p ≤ coords0.length
  frame_eq : cs.map frame = coords0.map frame
  count_nonneg : 0 ≤ n
  count_le : n ≤ p
  trans : ∀ (i : Nat) (c0 c : LabelledGPScoord), coords0[i]? = some c0 → cs[i]? = some c →
    c.Label = c0.Label ∨
    (c0.Label = 0 ∧ c.Label = -1 ∧ ¬ isCore coords0 minPts eps c0 ∧ i < p) ∨
    ((c0.Label = 0 ∨ c0.Label = -1) ∧
      ∃ k : Int, 1 ≤ k ∧ k ≤ n ∧ c.Label = wrapInt (k + offset))
  visited : ∀ (i : Nat) (c : LabelledGPScoord), i < p → cs[i]? = some c → c.Label ≠ 0
  seeds : ∀ k : Int, 1 ≤ k → k ≤ n → ∃ (i : Nat) (c0 c : LabelledGPScoord),
    coords0[i]? = some c0 ∧ c0.Label = 0 ∧
    isCore coords0 minPts eps c0 ∧ cs[i]? = some c ∧ c.Label = wrapInt (k + offset)

/-! ## Grid partition -/

/-- The test of the partition loop of `main`: is `pt` inside cell `(i, j)` of the `n × n`
grid over the box `minPt .. maxPt`, the cell being expanded by `eps` on all four sides. -/
def insideExpanded (minPt maxPt : GPScoord) (eps : ℚ) (n i j : Nat)
    (pt : LabelledGPScoord) : Bool :=
  let incx := (maxPt.long - minPt.long) / (n : ℚ)
  let incy := (maxPt.lat - minPt.lat) / (n : ℚ)
  decide (pt.long ≥ minPt.long + (i : ℚ) * incx - eps) &&
    decide (pt.long < minPt.long + ((i + 1 : Nat) : ℚ) * incx + eps) &&
    decide (pt.lat ≥ minPt.lat + (j : ℚ) * incy - eps) &&
    decide (pt.lat < minPt.lat + ((j + 1 : Nat) : ℚ) * incy + eps)

/-- The state of the partition loop: `grid` and the counter `partitionSize`. -/
structure Partition where
  grid : Nat → Nat → List LabelledGPScoord
  partitionSize : Nat

/-- The body of the innermost partition loop, for cell `(i, j)` and point `pt`. -/
def partitionPoint (minPt maxPt : GPScoord) (eps : ℚ) (n i j : Nat) (st : Partition)
    (pt : LabelledGPScoord) : Partition :=
  if insideExpanded minPt maxPt eps n i j pt then
    { grid := fun a b => if a = i ∧ b = j then st.grid i j ++ [pt] else st.grid a b
      partitionSize := st.partitionSize + 1 }
  else st

/-- The partition loop of `main`: `for j { for i { for pt in gps { ... } } }`. -/
def partition (gps : List LabelledGPScoord) (minPt maxPt : GPScoord) (eps : ℚ) (n : Nat) :
    Partition :=
  (List.range n).foldl
    (fun st j => (List.range n).foldl
      (fun st i => gps.foldl (partitionPoint minPt maxPt eps n i j) st) st)
    { grid := fun _ _ => [], partitionSize := 0 }

/-- Go `minPt = GPScoord{-74., 40.7}`, the lower bound that `main` partitions with. -/
def mainMinPt : GPScoord := { lat := -74, long := 407 / 10 }

/-- Go `maxPt = GPScoord{-73.93, 40.8}`, the upper bound that `main` partitions with. -/
def mainMaxPt : GPScoord := { lat := -7393 / 100, long := 408 / 10 }

/-- The number of cells of the `n × n` grid whose expanded bound holds the point `pt`. -/
def cellCount (minPt maxPt : GPScoord) (eps : ℚ) (n : Nat) (pt : LabelledGPScoord) : Nat :=
  ((Finset.range n ×ˢ Finset.range n).filter
    (fun c => insideExpanded minPt maxPt eps n c.1 c.2 pt = true)).card

/-- The offset `i*10000000 + j*1000000` that `main` puts in the job of cell `(i, j)`. -/
def jobOffset (i j : Nat) : Int := (i : Int) * 10000000 + (j : Int) * 1000000

/-- The square of side `1/5000` that holds the point `pt`, in the grid of such squares with
origin at longitude `a` and latitude `b`. -/
def unitSquare (a b : ℚ) (pt : LabelledGPScoord) : Int × Int :=
  (⌊(pt.long - a) * 5000⌋, ⌊(pt.lat - b) * 5000⌋)

/-- A point at `(lat, long)` with the given `ID`, unclassified. -/
def mkPt (lat long : ℚ) (id : Int) : LabelledGPScoord :=
  { lat := lat, long := long, ID := id, Label := 0 }

/-! ## Density structure of a partition -/

/-- The label of the entry at index `i` (`0` when there is no such entry). -/
def labelAt (cs : List LabelledGPScoord) (i : Nat) : Int :=
  match cs[i]? with
  | some c => c.Label
  | none => 0

/-- The entries at indices `i` and `j` of `coords0` are within `eps` of each other. -/
def Adj (coords0 : List LabelledGPScoord) (eps : ℚ) (i j : Nat) : Prop :=
  ∃ ci cj, coords0[i]? = some ci ∧ coords0[j]? = some cj ∧ withinEps ci cj eps = true

/-- The entry at index `i` of `coords0` is a core point. -/
def CoreIdx (coords0 : List LabelledGPScoord) (minPts : Int) (eps : ℚ) (i : Nat) : Prop :=
  ∃ ci, coords0[i]? = some ci ∧ isCore coords0 minPts eps ci

/-- Two core points within `eps` of each other. -/
def CoreAdj (coords0 : List LabelledGPScoord) (minPts : Int) (eps : ℚ) (i j : Nat) : Prop :=
  CoreIdx coords0 minPts eps i ∧ CoreIdx coords0 minPts eps j ∧ Adj coords0 eps i j

/-- The density invariant of the outer scan of `DBscan`, between two iterations, for a run
from the all-unclassified slice `coords0`: a noise label is on a non-core point; the
neighbours of a clustered core point are clustered, the core ones with the same label; a
clustered point is a core point or a neighbour of a core point with the same label; and two
core points with the same cluster label are joined by a chain of neighbouring core points. -/
structure Dense (coords0 : List LabelledGPScoord) (minPts : Int) (eps : ℚ)
    (cs : List LabelledGPScoord) : Prop where
  frame_eq : cs.map frame = coords0.map frame
  noise_noncore : ∀ i : Nat, labelAt cs i = -1 → ¬ CoreIdx coords0 minPts eps i
  closed : ∀ q j : Nat, CoreIdx coords0 minPts eps q → Clustered (labelAt cs q) →
    Adj coords0 eps q j →
    Clustered (labelAt cs j) ∧ (CoreIdx coords0 minPts eps j → labelAt cs j = labelAt cs q)
  sound : ∀ i : Nat, Clustered (labelAt cs i) → CoreIdx coords0 minPts eps i ∨
    ∃ q : Nat, CoreIdx coords0 minPts eps q ∧ Adj coords0 eps q i ∧ labelAt cs q = labelAt cs i
  connected : ∀ i j : Nat, CoreIdx coords0 minPts eps i → CoreIdx coords0 minPts eps j →
    Clustered (labelAt cs i) → labelAt cs i = labelAt cs j →
    Relation.ReflTransGen (CoreAdj coords0 minPts eps) i j

/-- The density invariant inside the `seedSet` loop of the cluster with label `L`: as `Dense`,
but a neighbour of a core point labelled `L` may still wait in the work list `queue`, and
every pointer of the work list is a neighbour of a core point labelled `L`. -/
structure DenseSeed (coords0 : List LabelledGPScoord) (minPts : Int) (eps : ℚ) (L : Int)
    (cs : List LabelledGPScoord) (queue : List Nat) : Prop where
  frame_eq : cs.map frame = coords0.map frame
  noise_noncore : ∀ i : Nat, labelAt cs i = -1 → ¬ CoreIdx coords0 minPts eps i
  closed : ∀ q j : Nat, CoreIdx coords0 minPts eps q → Clustered (labelAt cs q) →
    Adj coords0 eps q j →
    (Clustered (labelAt cs j) ∧ (CoreIdx coords0 minPts eps j → labelAt cs j = labelAt cs q)) ∨
    (labelAt cs q = L ∧ j ∈ queue ∧
      (CoreIdx coords0 minPts eps j → labelAt cs j = 0 ∨ labelAt cs j = L))
  sound : ∀ i : Nat, Clustered (labelAt cs i) → CoreIdx coords0 minPts eps i ∨
    ∃ q : Nat, CoreIdx coords0 minPts eps q ∧ Adj coords0 eps q i ∧ labelAt cs q = labelAt cs i
  connected : ∀ i j : Nat, CoreIdx coords0 minPts eps i → CoreIdx coords0 minPts eps j →
    Clustered (labelAt cs i) → labelAt cs i = labelAt cs j →
    Relation.ReflTransGen (CoreAdj coords0 minPts eps) i j
  reached : ∀ j ∈ queue, ∃ q : Nat, CoreIdx coords0 minPts eps q ∧ Adj coords0 eps q j ∧
    labelAt cs q = L

/-! ## Basic facts: `setLabel`, `rangeQuery` -/

theorem length_setLabel (cs : List LabelledGPScoord) (i : Nat) (l : Int) :
    (setLabel cs i l).length = cs.length := by
  induction cs generalizing i with
  | nil => rfl
  | cons c cs ih => cases i <;> simp [setLabel, ih]

theorem getElem?_setLabel (cs : List LabelledGPScoord) (i j : Nat) (l : Int) :
    (setLabel cs i l)[j]? =
      if j = i then (cs[j]?).map (fun c => { c with Label := l }) else cs[j]? := by
  induction cs generalizing i j with
  | nil => simp [setLabel]
  | cons c cs ih =>
    cases i with
    | zero => cases j <;> simp [setLabel]
    | succ i => cases j <;> simp [setLabel, ih]

theorem map_frame_setLabel (cs : List LabelledGPScoord) (i : Nat) (l : Int) :
    (setLabel cs i l).map frame = cs.map frame := by
  induction cs generalizing i with
  | nil => rfl
  | cons c cs ih => cases i <;> simp [setLabel, ih, frame]

theorem withinEps_congr {p p' c c' : LabelledGPScoord} (eps : ℚ)
    (hp : p.toGPScoord = p'.toGPScoord) (hc : c.toGPScoord = c'.toGPScoord) :
    withinEps p c eps = withinEps p' c' eps := by
  have h1 : p.lat = p'.lat := congrArg GPScoord.lat hp
  have h2 : p.long = p'.long := congrArg GPScoord.long hp
  have h3 : c.lat = c'.lat := congrArg GPScoord.lat hc
  have h4 : c.long = c'.long := congrArg GPScoord.long hc
  simp [withinEps, calculateDistanceSq, h1, h2, h3, h4]

theorem frame_getElem? {a b : List LabelledGPScoord} (h : a.map frame = b.map frame) (i : Nat) :
    (a[i]?).map frame = (b[i]?).map frame := by
  rw [← List.getElem?_map, ← List.getElem?_map, h]

theorem length_eq_of_frame {a b : List LabelledGPScoord} (h : a.map frame = b.map frame) :
    a.length = b.length := by
  simpa using congrArg List.length h

theorem rangeQuery_congr {db db' : List LabelledGPScoord} {p p' : LabelledGPScoord} (eps : ℚ)
    (h : db.map frame = db'.map frame) (hp : p.toGPScoord = p'.toGPScoord) :
    rangeQuery db p eps = rangeQuery db' p' eps := by
  unfold rangeQuery
  rw [length_eq_of_frame h]
  apply List.filter_congr
  intro i _
  have hi := frame_getElem? h i
  cases ha : db[i]? with
  | none => 
    rw [ha] at hi
    cases hb : db'[i]? with
    | none => rfl
    | some c' => rw [hb] at hi; simp at hi
  | some c => 
    rw [ha] at hi
    cases hb : db'[i]? with
    | none => rw [hb] at hi; simp at hi
    | some c' => 
      rw [hb] at hi
      simp only [Option.map_some', Option.some.injEq, frame, Prod.mk.injEq] at hi
      exact withinEps_congr eps hp hi.1

theorem mem_rangeQuery {db : List LabelledGPScoord} {p : LabelledGPScoord} {eps : ℚ} {i : Nat} :
    i ∈ rangeQuery db p eps ↔ ∃ c, db[i]? = some c ∧ withinEps p c eps = true := by
  unfold rangeQuery
  rw [List.mem_filter, List.mem_range]
  constructor
  · rintro ⟨hi, h⟩
    cases hc : db[i]? with
    | none => rw [hc] at h; simp at h
    | some c => rw [hc] at h; exact ⟨c, rfl, h⟩
  · rintro ⟨c, hc, h⟩
    refine ⟨?_, ?_⟩
    · exact (List.getElem?_eq_some_iff.mp hc).1
    · rw [hc]; exact h

theorem lt_of_mem_rangeQuery {db : List LabelledGPScoord} {p : LabelledGPScoord} {eps : ℚ}
    {i : Nat} (h : i ∈ rangeQuery db p eps) : i < db.length := by
  unfold rangeQuery at h
  exact List.mem_range.mp (List.mem_filter.mp h).1

theorem rangeQuery_length_le (db : List LabelledGPScoord) (p : LabelledGPScoord) (eps : ℚ) :
    (rangeQuery db p eps).length ≤ db.length := by
  unfold rangeQuery
  calc _ ≤ (List.range db.length).length := List.length_filter_le _ _
    _ = db.length := List.length_range _

theorem rangeQuery_nodup (db : List LabelledGPScoord) (p : LabelledGPScoord) (eps : ℚ) :
    (rangeQuery db p eps).Nodup := 
  (List.nodup_range _).filter _

theorem withinEps_self (p : LabelledGPScoord) {eps : ℚ} (h : 0 ≤ eps) :
    withinEps p p eps = true := by
  simp [withinEps, calculateDistanceSq, h, mul_nonneg]

theorem withinEps_comm (p q : LabelledGPScoord) (eps : ℚ) :
    withinEps p q eps = withinEps q p eps := by
  have : calculateDistanceSq p q = calculateDistanceSq q p := by
    unfold calculateDistanceSq; ring
  simp [withinEps, this]

/-- The test `withinEps` is the comparison of the Euclidean distance, a real square root,
with `eps`. -/
theorem withinEps_iff_sqrt (p q : LabelledGPScoord) (eps : ℚ) :
    withinEps p q eps = true ↔ Real.sqrt ((calculateDistanceSq p q : ℚ) : ℝ) ≤ (eps : ℝ) := by
  rw [Real.sqrt_le_iff]
  simp only [withinEps, decide_eq_true_eq]
  constructor
  · rintro ⟨h1, h2⟩
    refine ⟨by exact_mod_cast h1, ?_⟩
    have : ((calculateDistanceSq p q : ℚ) : ℝ) ≤ ((eps * eps : ℚ) : ℝ) := by exact_mod_cast h2
    rw [pow_two]
    exact_mod_cast this
  · rintro ⟨h1, h2⟩
    refine ⟨by exact_mod_cast h1, ?_⟩
    rw [pow_two] at h2
    exact_mod_cast h2
theorem setLabel_idem (cs : List LabelledGPScoord) (i : Nat) (l : Int) :
    setLabel (setLabel cs i l) i l = setLabel cs i l := by
  induction cs generalizing i with
  | nil => rfl
  | cons c cs ih => cases i <;> simp [setLabel, ih]

theorem getElem?_setLabel_self {cs : List LabelledGPScoord} {i : Nat} {c : LabelledGPScoord}
    (h : cs[i]? = some c) (l : Int) :
    (setLabel cs i l)[i]? = some { c with Label := l } := by
  rw [getElem?_setLabel, if_pos rfl, h]; rfl

theorem getElem?_setLabel_ne (cs : List LabelledGPScoord) {i j : Nat} (h : j ≠ i) (l : Int) :
    (setLabel cs i l)[j]? = cs[j]? := by
  rw [getElem?_setLabel, if_neg h]

/-! ## What one iteration does -/

/-- The three outcomes of one `seedSet` iteration: skip an entry that is already in a cluster,
relabel a noise entry, or label an unclassified entry and extend the work list when it is a
core point. -/
theorem seedStep_spec {minPts : Int} {eps : ℚ} {label : Int} {cs cs' : List LabelledGPScoord}
    {q : Nat} {rest rest' : List Nat}
    (h : seedStep minPts eps label cs q rest = some (cs', rest')) :
    ∃ c, cs[q]? = some c ∧
      ((c.Label ≠ 0 ∧ c.Label ≠ -1 ∧ cs' = cs ∧ rest' = rest) ∨
       (c.Label = -1 ∧ label ≠ 0 ∧ cs' = setLabel cs q label ∧ rest' = rest) ∨
       ((c.Label = 0 ∨ (c.Label = -1 ∧ label = 0)) ∧ cs' = setLabel cs q label ∧
          rest' = if minPts ≤ ((rangeQuery cs c eps).length : Int)
            then rest ++ rangeQuery cs c eps else rest)) := by
  unfold seedStep at h
  cases hc : cs[q]? with
  | none => rw [hc] at h; simp at h
  | some c =>
    refine ⟨c, rfl, ?_⟩
    rw [hc] at h
    simp only at h
    by_cases hm : c.Label = -1
    · rw [if_pos hm, getElem?_setLabel_self hc] at h
      simp only at h
      by_cases hl : label = 0
      · right; right
        rw [if_neg (by simpa using hl), setLabel_idem] at h
        have e : rangeQuery (setLabel cs q label)
              { ({ c with Label := label } : LabelledGPScoord) with Label := label } eps
            = rangeQuery cs c eps := rangeQuery_congr eps (map_frame_setLabel _ _ _) rfl
        rw [e] at h
        refine ⟨Or.inr ⟨hm, hl⟩, ?_⟩
        split_ifs at h with h1 <;> simp at h <;> simp [h1, h.1, h.2]
      · right; left
        rw [if_pos (by simpa using hl)] at h
        simp at h
        exact ⟨hm, hl, h.1.symm, h.2.symm⟩
    · rw [if_neg hm, hc] at h
      simp only at h
      by_cases hz : c.Label = 0
      · right; right
        rw [if_neg (by simpa using hz)] at h
        have e : rangeQuery (setLabel cs q label) { c with Label := label } eps
            = rangeQuery cs c eps := rangeQuery_congr eps (map_frame_setLabel _ _ _) rfl
        rw [e] at h
        refine ⟨Or.inl hz, ?_⟩
        split_ifs at h with h1 <;> simp at h <;> simp [h1, h.1, h.2]
      · left
        rw [if_pos (by simpa using hz)] at h
        simp at h
        exact ⟨hz, hm, h.1.symm, h.2.symm⟩

/-- An iteration of the `seedSet` loop at a valid index has a result. -/
theorem seedStep_isSome (minPts : Int) (eps : ℚ) (label : Int) {cs : List LabelledGPScoord}
    {q : Nat} (rest : List Nat) (hq : q < cs.length) :
    ∃ r, seedStep minPts eps label cs q rest = some r := by
  unfold seedStep
  have hc : cs[q]? = some cs[q] := List.getElem?_eq_getElem hq
  rw [hc]
  simp only
  have h1 : ∃ c1, (if cs[q].Label = -1 then setLabel cs q label else cs)[q]? = some c1 := by
    split_ifs
    · exact ⟨_, getElem?_setLabel_self hc label⟩
    · exact ⟨_, hc⟩
  obtain ⟨c1, hc1⟩ := h1
  rw [hc1]
  simp only
  split_ifs <;> exact ⟨_, rfl⟩

/-- The three outcomes of one iteration of the outer scan: skip a labelled point, label a
sparse point noise, or start cluster `nclusters + 1` and run the `seedSet` loop. -/
theorem scanStep_spec {minPts : Int} {eps : ℚ} {offset : Int}
    {st st' : List LabelledGPScoord × Int} {p : Nat}
    (h : scanStep minPts eps offset st p = some st') :
    ∃ c, st.1[p]? = some c ∧
      ((c.Label ≠ 0 ∧ st' = st) ∨
       (c.Label = 0 ∧ ((rangeQuery st.1 c eps).length : Int) < minPts ∧
          st' = (setLabel st.1 p (-1), st.2)) ∨
       (c.Label = 0 ∧ minPts ≤ ((rangeQuery st.1 c eps).length : Int) ∧
          ∃ out, seedLoop minPts eps (wrapInt (wrapInt (st.2 + 1) + offset))
              (st.1.length * st.1.length)
              (setLabel st.1 p (wrapInt (wrapInt (st.2 + 1) + offset)))
              (rangeQuery st.1 c eps) = some out ∧
            st' = (out, wrapInt (st.2 + 1)))) := by
  unfold scanStep at h
  cases hc : st.1[p]? with
  | none => rw [hc] at h; simp at h
  | some c =>
    refine ⟨c, rfl, ?_⟩
    rw [hc] at h
    simp only at h
    by_cases hz : c.Label = 0
    · rw [if_neg (by simpa using hz)] at h
      by_cases hn : ((rangeQuery st.1 c eps).length : Int) < minPts
      · rw [if_pos hn] at h
        right; left
        simp at h
        exact ⟨hz, hn, h.symm⟩
      · rw [if_neg hn, length_setLabel] at h
        right; right
        refine ⟨hz, by omega, ?_⟩
        cases hs : seedLoop minPts eps (wrapInt (wrapInt (st.2 + 1) + offset))
              (st.1.length * st.1.length)
              (setLabel st.1 p (wrapInt (wrapInt (st.2 + 1) + offset)))
              (rangeQuery st.1 c eps) with
        | none => rw [hs] at h; simp at h
        | some out => 
          rw [hs] at h
          simp at h
          exact ⟨out, rfl, h.symm⟩
    · rw [if_pos (by simpa using hz)] at h
      left
      simp at h
      exact ⟨hz, h.symm⟩

/-! ## Go `int` arithmetic -/

theorem wrapInt_of_range {x : Int} (h1 : minInt ≤ x) (h2 : x ≤ maxInt) : wrapInt x = x := by
  unfold wrapInt; unfold minInt at h1; unfold maxInt at h2; omega

/-- The label of cluster `k`, for `k` and `offset` in the non-negative range of `int`, is
neither `0` nor `-1`, also when the addition wraps. -/
theorem wrapInt_label_clustered {k offset : Int} (h1 : 1 ≤ k) (hk : k ≤ maxInt)
    (hoff : 0 ≤ offset) (hmax : offset ≤ maxInt) : Clustered (wrapInt (k + offset)) := by
  unfold Clustered wrapInt; unfold maxInt at hk hmax; constructor <;> omega

/-- Distinct cluster numbers have distinct labels, also when the addition wraps. -/
theorem wrapInt_label_inj {k k' offset : Int} (h1 : 1 ≤ k) (hk : k ≤ maxInt) (h1' : 1 ≤ k')
    (hk' : k' ≤ maxInt) (h : wrapInt (k + offset) = wrapInt (k' + offset)) : k = k' := by
  unfold wrapInt at h; unfold maxInt at hk hk'; omega

/-! ## Termination of the `seedSet` loop -/

theorem countZero_setLabel {cs : List LabelledGPScoord} {i : Nat} {c : LabelledGPScoord}
    (h : cs[i]? = some c) (l : Int) :
    countZero (setLabel cs i l) + (if c.Label = 0 then 1 else 0)
      = countZero cs + (if l = 0 then 1 else 0) := by
  induction cs generalizing i with
  | nil => simp at h
  | cons d cs ih =>
    cases i with
    | zero =>
      simp only [List.getElem?_cons_zero, Option.some.injEq] at h
      subst h
      simp only [setLabel, countZero, List.countP_cons, decide_eq_true_eq]
      omega
    | succ i =>
      simp only [List.getElem?_cons_succ] at h
      have := ih h
      simp only [setLabel, countZero, List.countP_cons, decide_eq_true_eq] at this ⊢
      omega

theorem countZero_le_length (cs : List LabelledGPScoord) : countZero cs ≤ cs.length :=
  List.countP_le_length _

/-- The `seedSet` loop finishes: when the cluster label is not `0`, every visit either
shortens the work list or labels an unclassified entry, so `length * length` iterations are
enough whatever the work list holds. -/
theorem seedLoop_isSome (minPts : Int) (eps : ℚ) {label : Int} (hl : label ≠ 0) :
    ∀ (fuel : Nat) (cs : List LabelledGPScoord) (queue : List Nat),
      (∀ q ∈ queue, q < cs.length) →
      queue.length + countZero cs * cs.length ≤ fuel →
      ∃ out, seedLoop minPts eps label fuel cs queue = some out := by
  intro fuel
  induction fuel with
  | zero =>
    intro cs queue _ hm
    cases queue with
    | nil => exact ⟨cs, rfl⟩
    | cons q rest => simp at hm
  | succ fuel ih =>
    intro cs queue hv hm
    cases queue with
    | nil => exact ⟨cs, rfl⟩
    | cons q rest =>
      have hq : q < cs.length := hv q (List.mem_cons_self _ _)
      obtain ⟨⟨cs', rest'⟩, hr⟩ := seedStep_isSome minPts eps label rest hq
      simp only [seedLoop, hr]
      obtain ⟨c, hc, hcase⟩ := seedStep_spec hr
      have hvr : ∀ x ∈ rest, x < cs.length := fun x hx => hv x (List.mem_cons_of_mem _ hx)
      simp only [List.length_cons] at hm
      rcases hcase with ⟨_, _, rfl, rfl⟩ | ⟨hm1, _, rfl, rfl⟩ | ⟨hz, rfl, rfl⟩
      · exact ih _ _ hvr (by omega)
      · have hcz := countZero_setLabel hc label
        rw [if_neg (by omega), if_neg hl] at hcz
        apply ih
        · intro x hx; rw [length_setLabel]; exact hvr x hx
        · rw [length_setLabel]
          have : countZero (setLabel cs q label) = countZero cs := by omega
          rw [this]; omega
      · have hz0 : c.Label = 0 := by
          rcases hz with h | ⟨_, h⟩
          · exact h
          · exact absurd h hl
        have hcz := countZero_setLabel hc label
        rw [if_pos hz0, if_neg hl] at hcz
        apply ih
        · intro x hx
          rw [length_setLabel]
          split_ifs at hx
          · rcases List.mem_append.mp hx with hx | hx
            · exact hvr x hx
            · exact lt_of_mem_rangeQuery hx
          · exact hvr x hx
        · rw [length_setLabel]
          have hlen := rangeQuery_length_le cs c eps
          have e : countZero cs = countZero (setLabel cs q label) + 1 := by omega
          rw [e, Nat.add_mul] at hm
          split_ifs
          · rw [List.length_append]; omega
          · omega

/-! ## Loop rules -/

/-- Invariant rule for the `seedSet` loop. -/
theorem seedLoop_inv {minPts : Int} {eps : ℚ} {label : Int}
    (Inv : List LabelledGPScoord → List Nat → Prop)
    (hstep : ∀ cs q rest cs' rest', Inv cs (q :: rest) →
      seedStep minPts eps label cs q rest = some (cs', rest') → Inv cs' rest') :
    ∀ (fuel : Nat) (cs : List LabelledGPScoord) (queue : List Nat) (out : List LabelledGPScoord),
      Inv cs queue → seedLoop minPts eps label fuel cs queue = some out → Inv out [] := by
  intro fuel
  induction fuel with
  | zero =>
    intro cs queue out hI h
    cases queue with
    | nil => simp only [seedLoop, Option.some.injEq] at h; subst h; exact hI
    | cons q rest => simp [seedLoop] at h
  | succ fuel ih =>
    intro cs queue out hI h
    cases queue with
    | nil => simp only [seedLoop, Option.some.injEq] at h; subst h; exact hI
    | cons q rest =>
      simp only [seedLoop] at h
      cases hr : seedStep minPts eps label cs q rest with
      | none => rw [hr] at h; simp at h
      | some r =>
        obtain ⟨cs', rest'⟩ := r
        rw [hr] at h
        exact ih cs' rest' out (hstep _ _ _ _ _ hI hr) h

/-- Total-correctness rule for a loop `for p := 0; p < n; p++` whose body may fail. -/
theorem foldlM_range_rule {σ : Type} (f : σ → Nat → Option σ) (Inv : Nat → σ → Prop)
    (n : Nat) (s0 : σ) (h0 : Inv 0 s0)
    (hstep : ∀ p s, p < n → Inv p s → ∃ s', f s p = some s' ∧ Inv (p + 1) s') :
    ∃ out, (List.range n).foldlM f s0 = some out ∧ Inv n out := by
  induction n with
  | zero => exact ⟨s0, rfl, h0⟩
  | succ n ih =>
    obtain ⟨mid, hmid, hI⟩ := ih fun p s hp => hstep p s (Nat.lt_succ_of_lt hp)
    obtain ⟨s', hs', hI'⟩ := hstep n mid (Nat.lt_succ_self n) hI
    refine ⟨s', ?_, hI'⟩
    rw [List.range_succ, List.foldlM_append, hmid]
    simp [hs']

/-- Partial-correctness rule for the same loop. -/
theorem foldlM_range_inv {σ : Type} (f : σ → Nat → Option σ) (Inv : Nat → σ → Prop)
    (n : Nat) (s0 : σ) (h0 : Inv 0 s0)
    (hstep : ∀ p s s', p < n → Inv p s → f s p = some s' → Inv (p + 1) s')
    {out : σ} (h : (List.range n).foldlM f s0 = some out) : Inv n out := by
  induction n generalizing out with
  | zero => simp at h; subst h; exact h0
  | succ n ih =>
    rw [List.range_succ, List.foldlM_append] at h
    cases hmid : (List.range n).foldlM f s0 with
    | none => rw [hmid] at h; simp at h
    | some mid =>
      rw [hmid] at h
      cases hs : f mid n with
      | none => simp [hs] at h
      | some s' =>
        simp [hs] at h
        subst h
        exact hstep n mid s' (Nat.lt_succ_self n) 
          (ih (fun p s s' hp => hstep p s s' (Nat.lt_succ_of_lt hp)) hmid) hs

/-! ## The scan invariant -/

theorem Sound.init (coords0 : List LabelledGPScoord) (minPts : Int) (eps : ℚ) (offset : Int)
    (hoff : 0 ≤ offset) (hmax : offset ≤ maxInt) (hlen : (coords0.length : Int) ≤ maxInt) :
    Sound coords0 minPts eps offset 0 coords0 0 where
  off_nonneg := hoff
  off_le := hmax
  len_le := hlen
  index_le := Nat.zero_le _
  frame_eq := rfl
  count_nonneg := le_refl _
  count_le := by simp
  trans := by
    intro i c0 c h0 h
    rw [h0] at h
    left
    exact (congrArg LabelledGPScoord.Label (Option.some.inj h)).symm
  visited := by intro i c hi; omega
  seeds := by intro k h1 h2; omega

theorem Sound.length_eq {coords0 : List LabelledGPScoord} {minPts : Int} {eps : ℚ}
    {offset : Int} {p : Nat} {cs : List LabelledGPScoord} {n : Int}
    (h : Sound coords0 minPts eps offset p cs n) : cs.length = coords0.length :=
  length_eq_of_frame h.frame_eq

/-- The counter stays below `maxInt`, so `nclusters++` does not wrap. -/
theorem Sound.count_le_maxInt {coords0 : List LabelledGPScoord} {minPts : Int} {eps : ℚ}
    {offset : Int} {p : Nat} {cs : List LabelledGPScoord} {n : Int}
    (h : Sound coords0 minPts eps offset p cs n) : n ≤ maxInt := by
  have h1 := h.count_le
  have h2 := h.index_le
  have h3 := h.len_le
  omega

/-- The label of each cluster number in use is neither `0` nor `-1`. -/
theorem Sound.clustered_label {coords0 : List LabelledGPScoord} {minPts : Int} {eps : ℚ}
    {offset : Int} {p : Nat} {cs : List LabelledGPScoord} {n : Int}
    (h : Sound coords0 minPts eps offset p cs n) {k : Int} (h1 : 1 ≤ k) (hk : k ≤ n) :
    Clustered (wrapInt (k + offset)) :=
  wrapInt_label_clustered h1 (le_trans hk h.count_le_maxInt) h.off_nonneg h.off_le

/-- An entry of the current slice and the entry of the initial slice at the same index. -/
theorem Sound.initial {coords0 : List LabelledGPScoord} {minPts : Int} {eps : ℚ}
    {offset : Int} {p : Nat} {cs : List LabelledGPScoord} {n : Int}
    (h : Sound coords0 minPts eps offset p cs n) {i : Nat} {c : LabelledGPScoord}
    (hc : cs[i]? = some c) :
    ∃ c0, coords0[i]? = some c0 ∧ c0.toGPScoord = c.toGPScoord ∧ c0.ID = c.ID := by
  have hf := frame_getElem? h.frame_eq i
  rw [hc] at hf
  cases h0 : coords0[i]? with
  | none => rw [h0] at hf; simp at hf
  | some c0 =>
    rw [h0] at hf
    simp only [Option.map_some', Option.some.injEq, frame, Prod.mk.injEq] at hf
    exact ⟨c0, rfl, hf.1.symm, hf.2.symm⟩

/-- The neighbourhood of an entry is the same in the current slice as in the initial one. -/
theorem Sound.rangeQuery_eq {coords0 : List LabelledGPScoord} {minPts : Int} {eps : ℚ}
    {offset : Int} {p : Nat} {cs : List LabelledGPScoord} {n : Int}
    (h : Sound coords0 minPts eps offset p cs n) {c c0 : LabelledGPScoord}
    (hc : c0.toGPScoord = c.toGPScoord) :
    rangeQuery cs c eps = rangeQuery coords0 c0 eps :=
  rangeQuery_congr eps h.frame_eq hc.symm

/-- The index the scan is visiting is an index of the slice. -/
theorem Sound.index_lt {coords0 : List LabelledGPScoord} {minPts : Int} {eps : ℚ}
    {offset : Int} {p : Nat} {cs : List LabelledGPScoord} {n : Int}
    (h : Sound coords0 minPts eps offset p cs n) {c : LabelledGPScoord}
    (hc : cs[p]? = some c) : p < coords0.length := by
  rw [← h.length_eq]
  exact (List.getElem?_eq_some_iff.mp hc).1

/-- The scan skips an entry that is already labelled. -/
theorem Sound.skip {coords0 : List LabelledGPScoord} {minPts : Int} {eps : ℚ}
    {offset : Int} {p : Nat} {cs : List LabelledGPScoord} {n : Int}
    (h : Sound coords0 minPts eps offset p cs n) {c : LabelledGPScoord}
    (hc : cs[p]? = some c) (hz : c.Label ≠ 0) :
    Sound coords0 minPts eps offset (p + 1) cs n where
  off_nonneg := h.off_nonneg
  off_le := h.off_le
  len_le := h.len_le
  index_le := h.index_lt hc
  frame_eq := h.frame_eq
  count_nonneg := h.count_nonneg
  count_le := by have := h.count_le; push_cast; omega
  trans := by
    intro i c0 c' h0 h'
    rcases h.trans i c0 c' h0 h' with h1 | ⟨h1, h2, h3, h4⟩ | h1
    · exact Or.inl h1
    · exact Or.inr (Or.inl ⟨h1, h2, h3, by omega⟩)
    · exact Or.inr (Or.inr h1)
  visited := by
    intro i c' hi h'
    rcases Nat.lt_succ_iff_lt_or_eq.mp hi with hlt | rfl
    · exact h.visited i c' hlt h'
    · rw [hc] at h'; cases h'; exact hz
  seeds := h.seeds

/-- The scan labels a sparse unclassified entry noise. -/
theorem Sound.noise {coords0 : List LabelledGPScoord} {minPts : Int} {eps : ℚ}
    {offset : Int} {p : Nat} {cs : List LabelledGPScoord} {n : Int}
    (h : Sound coords0 minPts eps offset p cs n) {c : LabelledGPScoord}
    (hc : cs[p]? = some c) (hz : c.Label = 0)
    (hn : ((rangeQuery cs c eps).length : Int) < minPts) :
    Sound coords0 minPts eps offset (p + 1) (setLabel cs p (-1)) n where
  off_nonneg := h.off_nonneg
  off_le := h.off_le
  len_le := h.len_le
  index_le := h.index_lt hc
  frame_eq := by rw [map_frame_setLabel]; exact h.frame_eq
  count_nonneg := h.count_nonneg
  count_le := by have := h.count_le; push_cast; omega
  trans := by
    intro i c0 c' h0 h'
    by_cases hi : i = p
    · subst hi
      rw [getElem?_setLabel_self hc] at h'
      cases h'
      obtain ⟨c0', h0', hg, _⟩ := h.initial hc
      rw [h0] at h0'; cases h0'
      have hq := h.rangeQuery_eq hg
      rcases h.trans i c0 c h0 hc with h1 | ⟨_, h2, _, _⟩ | ⟨_, k, hk1, hk2, h2⟩
      · right; left
        refine ⟨by rw [← h1]; exact hz, rfl, ?_, by omega⟩
        unfold isCore
        rw [← hq]; omega
      · omega
      · have := (h.clustered_label hk1 hk2).1
        rw [← h2] at this
        exact absurd hz this
    · rw [getElem?_setLabel_ne _ hi] at h'
      rcases h.trans i c0 c' h0 h' with h1 | ⟨h1, h2, h3, h4⟩ | h1
      · exact Or.inl h1
      · exact Or.inr (Or.inl ⟨h1, h2, h3, by omega⟩)
      · exact Or.inr (Or.inr h1)
  visited := by
    intro i c' hi h'
    by_cases hip : i = p
    · subst hip
      rw [getElem?_setLabel_self hc] at h'
      cases h'; simp
    · rw [getElem?_setLabel_ne _ hip] at h'
      exact h.visited i c' (by omega) h'
  seeds := by
    intro k h1 h2
    obtain ⟨i, c0, c', h0, hz0, hcore, h', hl⟩ := h.seeds k h1 h2
    have hip : i ≠ p := by
      rintro rfl
      rw [hc] at h'; cases h'
      have := (h.clustered_label h1 h2).1
      rw [← hl] at this
      exact this hz
    exact ⟨i, c0, c', h0, hz0, hcore, by rw [getElem?_setLabel_ne _ hip]; exact h', hl⟩

/-- The scan starts cluster `n + 1` at an unclassified core point: `nclusters++` does not wrap
and the point gets the label `nclusters + offset` of `int` arithmetic. -/
theorem Sound.start {coords0 : List LabelledGPScoord} {minPts : Int} {eps : ℚ}
    {offset : Int} {p : Nat} {cs : List LabelledGPScoord} {n : Int}
    (h : Sound coords0 minPts eps offset p cs n) {c : LabelledGPScoord}
    (hc : cs[p]? = some c) (hz : c.Label = 0)
    (hn : minPts ≤ ((rangeQuery cs c eps).length : Int)) :
    wrapInt (n + 1) = n + 1 ∧
    Sound coords0 minPts eps offset (p + 1) (setLabel cs p (wrapInt (n + 1 + offset)))
      (n + 1) := by
  have hplt := h.index_lt hc
  have hnn := h.count_nonneg
  have hnp := h.count_le
  have hlen := h.len_le
  have hn1 : n + 1 ≤ maxInt := by omega
  have hcl : ∀ k : Int, 1 ≤ k → k ≤ n + 1 → Clustered (wrapInt (k + offset)) :=
    fun k h1 hk => wrapInt_label_clustered h1 (by omega) h.off_nonneg h.off_le
  refine ⟨wrapInt_of_range (by unfold minInt; omega) hn1, ?_⟩
  exact {
    off_nonneg := h.off_nonneg
    off_le := h.off_le
    len_le := h.len_le
    index_le := hplt
    frame_eq := by rw [map_frame_setLabel]; exact h.frame_eq
    count_nonneg := by omega
    count_le := by push_cast; omega
    trans := by
      intro i c0 c' h0 h'
      by_cases hi : i = p
      · subst hi
        rw [getElem?_setLabel_self hc] at h'
        cases h'
        rcases h.trans i c0 c h0 hc with h1 | ⟨_, h2, _, _⟩ | ⟨_, k, hk1, hk2, h2⟩
        · right; right
          exact ⟨Or.inl (by rw [← h1]; exact hz), n + 1, by omega, le_refl _, rfl⟩
        · omega
        · have := (h.clustered_label hk1 hk2).1
          rw [← h2] at this
          exact absurd hz this
      · rw [getElem?_setLabel_ne _ hi] at h'
        rcases h.trans i c0 c' h0 h' with h1 | ⟨h1, h2, h3, h4⟩ | ⟨h1, k, hk1, hk2, h2⟩
        · exact Or.inl h1
        · exact Or.inr (Or.inl ⟨h1, h2, h3, by omega⟩)
        · exact Or.inr (Or.inr ⟨h1, k, hk1, by omega, h2⟩)
    visited := by
      intro i c' hi h'
      by_cases hip : i = p
      · subst hip
        rw [getElem?_setLabel_self hc] at h'
        cases h'
        exact (hcl (n + 1) (by omega) (le_refl _)).1
      · rw [getElem?_setLabel_ne _ hip] at h'
        exact h.visited i c' (by omega) h'
    seeds := by
      intro k h1 h2
      rcases (show k ≤ n ∨ k = n + 1 by omega) with hk | rfl
      · obtain ⟨i, c0, c', h0, hz0, hcore, h', hl⟩ := h.seeds k h1 hk
        have hip : i ≠ p := by
          rintro rfl
          rw [hc] at h'; cases h'
          have := (h.clustered_label h1 hk).1
          rw [← hl] at this
          exact this hz
        exact ⟨i, c0, c', h0, hz0, hcore, by rw [getElem?_setLabel_ne _ hip]; exact h', hl⟩
      · obtain ⟨c0, h0, hg, _⟩ := h.initial hc
        have hq := h.rangeQuery_eq hg
        have hz0 : c0.Label = 0 := by
          rcases h.trans p c0 c h0 hc with h1 | ⟨_, h2, _, _⟩ | ⟨_, k, hk1, hk2, h2⟩
          · rw [← h1]; exact hz
          · omega
          · have := (h.clustered_label hk1 hk2).1
            rw [← h2] at this
            exact absurd hz this
        refine ⟨p, c0, _, h0, hz0, ?_, getElem?_setLabel_self hc _, rfl⟩
        unfold isCore; rw [← hq]; exact hn }

/-- The `seedSet` loop writes the current cluster label over an unclassified or noise entry. -/
theorem Sound.write {coords0 : List LabelledGPScoord} {minPts : Int} {eps : ℚ}
    {offset : Int} {p : Nat} {cs : List LabelledGPScoord} {n : Int}
    (h : Sound coords0 minPts eps offset p cs n) (hn : 1 ≤ n) {q : Nat} {c : LabelledGPScoord}
    (hc : cs[q]? = some c) (hz : c.Label = 0 ∨ c.Label = -1) :
    Sound coords0 minPts eps offset p (setLabel cs q (wrapInt (n + offset))) n where
  off_nonneg := h.off_nonneg
  off_le := h.off_le
  len_le := h.len_le
  index_le := h.index_le
  frame_eq := by rw [map_frame_setLabel]; exact h.frame_eq
  count_nonneg := h.count_nonneg
  count_le := h.count_le
  trans := by
    intro i c0 c' h0 h'
    by_cases hi : i = q
    · subst hi
      rw [getElem?_setLabel_self hc] at h'
      cases h'
      right; right
      rcases h.trans i c0 c h0 hc with h1 | ⟨h1, _, _, _⟩ | ⟨_, k, hk1, hk2, h2⟩
      · exact ⟨by rw [← h1]; exact hz, n, hn, le_refl _, rfl⟩
      · exact ⟨Or.inl h1, n, hn, le_refl _, rfl⟩
      · have := h.clustered_label hk1 hk2
        rw [← h2] at this
        rcases hz with e | e
        · exact absurd e this.1
        · exact absurd e this.2
    · rw [getElem?_setLabel_ne _ hi] at h'
      exact h.trans i c0 c' h0 h'
  visited := by
    intro i c' hi h'
    by_cases hiq : i = q
    · subst hiq
      rw [getElem?_setLabel_self hc] at h'
      cases h'
      exact (h.clustered_label hn (le_refl _)).1
    · rw [getElem?_setLabel_ne _ hiq] at h'
      exact h.visited i c' hi h'
  seeds := by
    intro k h1 h2
    obtain ⟨i, c0, c', h0, hz0, hcore, h', hl⟩ := h.seeds k h1 h2
    have hiq : i ≠ q := by
      rintro rfl
      rw [hc] at h'; cases h'
      have := h.clustered_label h1 h2
      rw [← hl] at this
      rcases hz with e | e
      · exact this.1 e
      · exact this.2 e
    exact ⟨i, c0, c', h0, hz0, hcore, by rw [getElem?_setLabel_ne _ hiq]; exact h', hl⟩

/-- One `seedSet` iteration keeps the scan invariant. -/
theorem Sound.of_seedStep {coords0 : List LabelledGPScoord} {minPts : Int} {eps : ℚ}
    {offset : Int} {p : Nat} {cs cs' : List LabelledGPScoord} {n : Int}
    (h : Sound coords0 minPts eps offset p cs n) (hn : 1 ≤ n) {q : Nat} {rest rest' : List Nat}
    (hs : seedStep minPts eps (wrapInt (n + offset)) cs q rest = some (cs', rest')) :
    Sound coords0 minPts eps offset p cs' n := by
  obtain ⟨c, hc, hcase⟩ := seedStep_spec hs
  rcases hcase with ⟨_, _, rfl, _⟩ | ⟨hm, _, rfl, _⟩ | ⟨hz, rfl, _⟩
  · exact h
  · exact h.write hn hc (Or.inr hm)
  · refine h.write hn hc ?_
    rcases hz with hz | ⟨hz, _⟩
    · exact Or.inl hz
    · exact Or.inr hz

/-- The `seedSet` loop keeps the scan invariant. -/
theorem Sound.of_seedLoop {coords0 : List LabelledGPScoord} {minPts : Int} {eps : ℚ}
    {offset : Int} {p : Nat} {cs out : List LabelledGPScoord} {n : Int}
    (h : Sound coords0 minPts eps offset p cs n) (hn : 1 ≤ n) {fuel : Nat} {queue : List Nat}
    (hs : seedLoop minPts eps (wrapInt (n + offset)) fuel cs queue = some out) :
    Sound coords0 minPts eps offset p out n :=
  seedLoop_inv (fun cs _ => Sound coords0 minPts eps offset p cs n)
    (fun _ _ _ _ _ hI hstep => Sound.of_seedStep hI hn hstep) fuel cs queue out h hs

/-- An iteration of the outer scan has a result when the next cluster label is not `0`. -/
theorem scanStep_isSome (minPts : Int) (eps : ℚ) (offset : Int)
    (st : List LabelledGPScoord × Int) {p : Nat} (hp : p < st.1.length)
    (hl : wrapInt (wrapInt (st.2 + 1) + offset) ≠ 0) :
    ∃ st', scanStep minPts eps offset st p = some st' := by
  unfold scanStep
  have hc : st.1[p]? = some st.1[p] := List.getElem?_eq_getElem hp
  rw [hc]
  simp only
  generalize wrapInt (wrapInt (st.2 + 1) + offset) = label at hl
  split_ifs with h1 h2
  · exact ⟨_, rfl⟩
  · exact ⟨_, rfl⟩
  · have hz : st.1[p].Label = 0 := by simpa using h1
    have hcz := countZero_setLabel hc label
    rw [if_pos hz, if_neg hl] at hcz
    have hle := countZero_le_length st.1
    have hq := rangeQuery_length_le st.1 st.1[p] eps
    obtain ⟨out, hout⟩ := seedLoop_isSome minPts eps hl
      ((setLabel st.1 p label).length * (setLabel st.1 p label).length)
      (setLabel st.1 p label) (rangeQuery st.1 st.1[p] eps)
      (fun q hq => by rw [length_setLabel]; exact lt_of_mem_rangeQuery hq)
      (by
        rw [length_setLabel]
        have e : countZero (setLabel st.1 p label) + 1 ≤ st.1.length := by omega
        calc (rangeQuery st.1 st.1[p] eps).length
              + countZero (setLabel st.1 p label) * st.1.length
            ≤ st.1.length + countZero (setLabel st.1 p label) * st.1.length :=
              Nat.add_le_add_right hq _
          _ = (countZero (setLabel st.1 p label) + 1) * st.1.length := by ring
          _ ≤ st.1.length * st.1.length := Nat.mul_le_mul_right _ e)
    rw [hout]
    exact ⟨_, rfl⟩

/-- One iteration of the outer scan has a result and keeps the scan invariant. -/
theorem Sound.of_scanStep {coords0 : List LabelledGPScoord} {minPts : Int} {eps : ℚ}
    {offset : Int} {p : Nat} {st : List LabelledGPScoord × Int}
    (h : Sound coords0 minPts eps offset p st.1 st.2) (hp : p < coords0.length) :
    ∃ st', scanStep minPts eps offset st p = some st' ∧
      Sound coords0 minPts eps offset (p + 1) st'.1 st'.2 := by
  have hnn := h.count_nonneg
  have hnp := h.count_le
  have hlen := h.len_le
  have hw : wrapInt (st.2 + 1) = st.2 + 1 :=
    wrapInt_of_range (by unfold minInt; omega) (by omega)
  obtain ⟨st', hs⟩ := scanStep_isSome minPts eps offset st (by rw [h.length_eq]; exact hp)
    (by
      rw [hw]
      exact (wrapInt_label_clustered (by omega) (by omega) h.off_nonneg h.off_le).1)
  refine ⟨st', hs, ?_⟩
  obtain ⟨c, hc, hcase⟩ := scanStep_spec hs
  rcases hcase with ⟨hz, rfl⟩ | ⟨hz, hn, rfl⟩ | ⟨hz, hn, out, hout, rfl⟩
  · exact h.skip hc hz
  · exact h.noise hc hz hn
  · rw [hw] at hout ⊢
    exact (h.start hc hz hn).2.of_seedLoop (by omega) hout

/-- Every run of `DBscan` with an offset in `[0, maxInt]` on a slice of at most `maxInt` entries
returns, and its result satisfies the scan invariant at the end of the slice. -/
theorem DBscan_sound (coords : List LabelledGPScoord) (minPts : Int) (eps : ℚ) {offset : Int}
    (hoff : 0 ≤ offset) (hmax : offset ≤ maxInt) (hlen : (coords.length : Int) ≤ maxInt) :
    ∃ out n, DBscan coords minPts eps offset = some (out, n) ∧
      Sound coords minPts eps offset coords.length out n := by
  obtain ⟨⟨out, n⟩, h1, h2⟩ := foldlM_range_rule (scanStep minPts eps offset)
    (fun p st => Sound coords minPts eps offset p st.1 st.2) coords.length (coords, 0)
    (Sound.init coords minPts eps offset hoff hmax hlen)
    (fun p st hp hI => Sound.of_scanStep hI hp)
  exact ⟨out, n, h1, h2⟩

/-- At the end of a run no entry is unclassified. -/
theorem Sound.label_ne_zero {coords0 : List LabelledGPScoord} {minPts : Int} {eps : ℚ}
    {offset : Int} {out : List LabelledGPScoord} {n : Int}
    (h : Sound coords0 minPts eps offset coords0.length out n) {c : LabelledGPScoord}
    (hc : c ∈ out) : c.Label ≠ 0 := by
  obtain ⟨i, hi, rfl⟩ := List.getElem_of_mem hc
  exact h.visited i _ (by rw [← h.length_eq]; exact hi) (List.getElem?_eq_getElem hi)

/-! ## Cluster count and label range (C1) -/

theorem Sound.mem_initial {coords0 : List LabelledGPScoord} {minPts : Int} {eps : ℚ}
    {offset : Int} {p : Nat} {cs : List LabelledGPScoord} {n : Int}
    (h : Sound coords0 minPts eps offset p cs n) {c : LabelledGPScoord} (hc : c ∈ cs) :
    ∃ (i : Nat) (c0 : LabelledGPScoord),
      coords0[i]? = some c0 ∧ cs[i]? = some c ∧ c0 ∈ coords0 := by
  obtain ⟨i, hi, rfl⟩ := List.getElem_of_mem hc
  have hci : cs[i]? = some cs[i] := List.getElem?_eq_getElem hi
  obtain ⟨c0, h0, _, _⟩ := h.initial hci
  exact ⟨i, c0, h0, hci, List.getElem?_mem h0⟩

/-- From an all-unclassified slice, a final label is `-1` or the label of one of the cluster
numbers `1 .. n`. -/
theorem Sound.final_label {coords0 : List LabelledGPScoord} {minPts : Int} {eps : ℚ}
    {offset : Int} {out : List LabelledGPScoord} {n : Int}
    (h : Sound coords0 minPts eps offset coords0.length out n)
    (hall : ∀ c ∈ coords0, c.Label = 0) {c : LabelledGPScoord} (hc : c ∈ out) :
    c.Label = -1 ∨ ∃ k : Int, 1 ≤ k ∧ k ≤ n ∧ c.Label = wrapInt (k + offset) := by
  have hne := h.label_ne_zero hc
  obtain ⟨i, c0, h0, hci, hm⟩ := h.mem_initial hc
  rcases h.trans i c0 c h0 hci with h1 | ⟨_, h2, _, _⟩ | ⟨_, h2⟩
  · rw [h1, hall c0 hm] at hne
    exact absurd rfl hne
  · exact Or.inl h2
  · exact Or.inr h2

/-- The label of cluster number `k` is `k + offset` when `offset + len` does not exceed
`maxInt`. -/
theorem Sound.label_eq_add {coords0 : List LabelledGPScoord} {minPts : Int} {eps : ℚ}
    {offset : Int} {p : Nat} {cs : List LabelledGPScoord} {n : Int}
    (h : Sound coords0 minPts eps offset p cs n)
    (hsum : offset + (coords0.length : Int) ≤ maxInt) {k : Int} (h1 : 1 ≤ k) (hk : k ≤ n) :
    wrapInt (k + offset) = k + offset := by
  have h2 := h.count_le
  have h3 := h.index_le
  have h4 := h.off_nonneg
  exact wrapInt_of_range (by unfold minInt; omega) (by omega)

/-- The distinct cluster labels of a list of labels number `n` when they are the images of
`1 .. n` under an injective labelling. -/
theorem dedup_length_eq_of_image (ls : List Int) (n : Int) (hn : 0 ≤ n) (f : Int → Int)
    (hinj : ∀ k k' : Int, 1 ≤ k → k ≤ n → 1 ≤ k' → k' ≤ n → f k = f k' → k = k')
    (hiff : ∀ l : Int, l ∈ ls ↔ ∃ k : Int, 1 ≤ k ∧ k ≤ n ∧ l = f k) :
    (ls.dedup.length : Int) = n := by
  have hfin : ls.dedup.toFinset = (Finset.Icc (1 : Int) n).image f := by
    ext l
    simp only [List.mem_toFinset, List.mem_dedup, Finset.mem_image, Finset.mem_Icc]
    rw [hiff l]
    constructor
    · rintro ⟨k, h1, h2, rfl⟩
      exact ⟨k, ⟨h1, h2⟩, rfl⟩
    · rintro ⟨k, ⟨h1, h2⟩, rfl⟩
      exact ⟨k, h1, h2, rfl⟩
  have hcard := List.toFinset_card_of_nodup (List.nodup_dedup ls)
  rw [hfin, Finset.card_image_of_injOn, Int.card_Icc] at hcard
  · rw [← hcard]
    have : n + 1 - 1 = n := by ring
    rw [this]
    exact Int.toNat_of_nonneg hn
  · intro k hk k' hk' e
    simp only [Finset.coe_Icc, Set.mem_Icc] at hk hk'
    exact hinj k k' hk.1 hk.2 hk'.1 hk'.2 e

/-- Claim C1, as amended.  On a slice whose points are all unclassified, with `labelOffset`
in `[0, maxInt]`, `DBscan` returns a slice with the same points and a count `n` with
`0 ≤ n ≤ len`; the cluster labels (labels other than `0` and `-1`) present afterwards are
exactly the `int` values of `k + labelOffset` for `k = 1 .. n`, and they are `n` distinct
labels.  When `labelOffset + len ≤ maxInt` no addition wraps: the labels `> 0` present are
exactly `labelOffset + 1, ..., labelOffset + n` and their number is `n`. -/
theorem DBscan_count_eq_distinct_labels (coords : List LabelledGPScoord) (minPts : Int)
    (eps : ℚ) (offset : Int) (hoff : 0 ≤ offset) (hmax : offset ≤ maxInt)
    (hlen : (coords.length : Int) ≤ maxInt) (hall : ∀ c ∈ coords, c.Label = 0) :
    ∃ out n, DBscan coords minPts eps offset = some (out, n) ∧
      out.map frame = coords.map frame ∧ 0 ≤ n ∧ n ≤ (coords.length : Int) ∧
      (∀ l : Int, (Clustered l ∧ l ∈ out.map (fun c => c.Label)) ↔
        ∃ k : Int, 1 ≤ k ∧ k ≤ n ∧ l = wrapInt (k + offset)) ∧
      ((((out.map (fun c => c.Label)).filter (fun l => decide (Clustered l))).dedup.length : Int)
        = n) ∧
      (offset + (coords.length : Int) ≤ maxInt →
        (∀ l : Int, (0 < l ∧ l ∈ out.map (fun c => c.Label)) ↔
          (offset + 1 ≤ l ∧ l ≤ offset + n)) ∧
        ((((out.map (fun c => c.Label)).filter (fun l => decide (0 < l))).dedup.length : Int)
          = n)) := by
  obtain ⟨out, n, hrun, hs⟩ := DBscan_sound coords minPts eps hoff hmax hlen
  have hiff : ∀ l : Int, (Clustered l ∧ l ∈ out.map (fun c => c.Label)) ↔
      ∃ k : Int, 1 ≤ k ∧ k ≤ n ∧ l = wrapInt (k + offset) := by
    intro l
    constructor
    · rintro ⟨hl, hmem⟩
      obtain ⟨c, hc, rfl⟩ := List.mem_map.mp hmem
      rcases hs.final_label hall hc with h1 | h1
      · exact absurd h1 hl.2
      · exact h1
    · rintro ⟨k, h1, h2, rfl⟩
      obtain ⟨i, c0, c, _, _, _, hc, hl⟩ := hs.seeds k h1 h2
      exact ⟨hs.clustered_label h1 h2, List.mem_map.mpr ⟨c, List.getElem?_mem hc, hl⟩⟩
  have hnmax := hs.count_le_maxInt
  refine ⟨out, n, hrun, hs.frame_eq, hs.count_nonneg, hs.count_le, hiff, ?_, ?_⟩
  · refine dedup_length_eq_of_image _ n hs.count_nonneg (fun k => wrapInt (k + offset))
      (fun k k' h1 h2 h1' h2' e =>
        wrapInt_label_inj h1 (le_trans h2 hnmax) h1' (le_trans h2' hnmax) e) ?_
    intro l
    simp only [List.mem_filter, decide_eq_true_eq]
    rw [and_comm]
    exact hiff l
  · intro hsum
    have hpos : ∀ l : Int, (0 < l ∧ l ∈ out.map (fun c => c.Label)) ↔
        (offset + 1 ≤ l ∧ l ≤ offset + n) := by
      intro l
      constructor
      · rintro ⟨hl, hmem⟩
        obtain ⟨k, h1, h2, e⟩ := (hiff l).mp ⟨⟨by omega, by omega⟩, hmem⟩
        rw [hs.label_eq_add hsum h1 h2] at e
        omega
      · rintro ⟨h1, h2⟩
        have e := hs.label_eq_add hsum (show 1 ≤ l - offset by omega) (by omega)
        have hm := ((hiff l).mpr ⟨l - offset, by omega, by omega, by rw [e]; ring⟩).2
        exact ⟨by omega, hm⟩
    refine ⟨hpos, ?_⟩
    refine dedup_length_eq_of_image _ n hs.count_nonneg (fun k => k + offset)
      (fun k k' _ _ _ _ e => by simpa using e) ?_
    intro l
    simp only [List.mem_filter, decide_eq_true_eq]
    rw [and_comm, hpos l]
    constructor
    · rintro ⟨h1, h2⟩
      exact ⟨l - offset, by omega, by omega, by ring⟩
    · rintro ⟨k, h1, h2, rfl⟩
      constructor <;> omega

/-- Claim C1, as amended, at a slice of three points, two of them neighbours, with
`minPts = 2` and offset `7`. -/
theorem DBscan_count_eq_distinct_labels_witness :
    ((0 : Int) ≤ 7 ∧ (7 : Int) ≤ maxInt ∧
      (([mkPt 0 0 1, mkPt 0 1 2, mkPt 5 5 3].length : Nat) : Int) ≤ maxInt ∧
      ∀ c ∈ [mkPt 0 0 1, mkPt 0 1 2, mkPt 5 5 3], c.Label = 0) ∧
    ∃ out n, DBscan [mkPt 0 0 1, mkPt 0 1 2, mkPt 5 5 3] 2 1 7 = some (out, n) ∧
      out.map frame = [mkPt 0 0 1, mkPt 0 1 2, mkPt 5 5 3].map frame ∧ 0 ≤ n ∧
      n ≤ (([mkPt 0 0 1, mkPt 0 1 2, mkPt 5 5 3].length : Nat) : Int) ∧
      (∀ l : Int, (Clustered l ∧ l ∈ out.map (fun c => c.Label)) ↔
        ∃ k : Int, 1 ≤ k ∧ k ≤ n ∧ l = wrapInt (k + 7)) ∧
      ((((out.map (fun c => c.Label)).filter (fun l => decide (Clustered l))).dedup.length : Int)
        = n) ∧
      (7 + (([mkPt 0 0 1, mkPt 0 1 2, mkPt 5 5 3].length : Nat) : Int) ≤ maxInt →
        (∀ l : Int, (0 < l ∧ l ∈ out.map (fun c => c.Label)) ↔ (7 + 1 ≤ l ∧ l ≤ 7 + n)) ∧
        ((((out.map (fun c => c.Label)).filter (fun l => decide (0 < l))).dedup.length : Int)
          = n)) :=
  ⟨⟨by decide, by decide, by decide, by decide⟩,
    DBscan_count_eq_distinct_labels [mkPt 0 0 1, mkPt 0 1 2, mkPt 5 5 3] 2 1 7
      (by decide) (by decide) (by decide) (by decide)⟩

/-- Claim C1 fails as stated.  With `labelOffset = math.MaxInt64`, one unclassified point,
`minPts = 1` and `eps = 0`, the run returns the count `1` and labels the point
`1 + labelOffset`, which in `int` arithmetic is `math.MinInt64`: no label `> 0` is present
afterwards, so the number of distinct labels `> 0` is `0`, not the returned `1`, and the
integer `labelOffset + 1` is not among the labels. -/
theorem DBscan_count_ne_labels_at_maxInt :
    (0 : Int) ≤ maxInt ∧ (∀ c ∈ [mkPt 0 0 1], c.Label = 0) ∧
    DBscan [mkPt 0 0 1] 1 0 maxInt = some ([{ mkPt 0 0 1 with Label := minInt }], 1) ∧
    ((((([{ mkPt 0 0 1 with Label := minInt }] : List LabelledGPScoord).map
      (fun c => c.Label)).filter (fun l => decide (0 < l))).dedup.length : Nat) : Int) ≠ 1 ∧
    maxInt + 1 ∉ ([{ mkPt 0 0 1 with Label := minInt }] : List LabelledGPScoord).map
      (fun c => c.Label) := by
  decide!

/-! ## The label state machine (C10) -/

theorem LabelTrans.same (a : Int) : LabelTrans a a := Or.inl rfl

theorem LabelTrans.comp {a b c : Int} (h1 : LabelTrans a b) (h2 : LabelTrans b c) :
    LabelTrans a c := by
  unfold LabelTrans Clustered at *
  omega

theorem Evolves.self (a : List LabelledGPScoord) : Evolves a a := by
  refine ⟨rfl, ?_⟩
  intro i c c' h h'
  rw [h] at h'
  cases h'
  exact LabelTrans.same _

theorem Evolves.andThen {a b c : List LabelledGPScoord} (h1 : Evolves a b) (h2 : Evolves b c) :
    Evolves a c := by
  refine ⟨h1.1.trans h2.1, ?_⟩
  intro i x z hx hz
  have hf := frame_getElem? h1.1 i
  rw [hx] at hf
  cases hy : b[i]? with
  | none => rw [hy] at hf; simp at hf
  | some y => exact (h1.2 i x y hx hy).comp (h2.2 i y z hy hz)

/-- A single label write that follows the state machine. -/
theorem Evolves.one_write {cs : List LabelledGPScoord} {q : Nat} {c : LabelledGPScoord}
    (hc : cs[q]? = some c) {l : Int} (hl : LabelTrans c.Label l) :
    Evolves cs (setLabel cs q l) := by
  refine ⟨(map_frame_setLabel _ _ _).symm, ?_⟩
  intro i x x' hx hx'
  by_cases hi : i = q
  · subst hi
    rw [getElem?_setLabel_self hc] at hx'
    rw [hc] at hx
    cases hx; cases hx'
    exact hl
  · rw [getElem?_setLabel_ne _ hi, hx] at hx'
    cases hx'
    exact LabelTrans.same _

/-- One `seedSet` iteration with a cluster label follows the state machine. -/
theorem Evolves.by_seedStep {minPts : Int} {eps : ℚ} {label : Int} (hl : Clustered label)
    {cs cs' : List LabelledGPScoord} {q : Nat} {rest rest' : List Nat}
    (h : seedStep minPts eps label cs q rest = some (cs', rest')) : Evolves cs cs' := by
  obtain ⟨c, hc, hcase⟩ := seedStep_spec h
  rcases hcase with ⟨_, _, rfl, _⟩ | ⟨hm, _, rfl, _⟩ | ⟨hz, rfl, _⟩
  · exact Evolves.self _
  · exact Evolves.one_write hc (Or.inr (Or.inr ⟨Or.inr hm, hl⟩))
  · refine Evolves.one_write hc (Or.inr (Or.inr ⟨?_, hl⟩))
    rcases hz with hz | ⟨hz, _⟩
    · exact Or.inl hz
    · exact Or.inr hz

/-- One iteration of the outer scan, from a counter in `[0, maxInt)`, follows the state
machine. -/
theorem Evolves.by_scanStep {minPts : Int} {eps : ℚ} {offset : Int} (hoff : 0 ≤ offset)
    (hmax : offset ≤ maxInt) {st st' : List LabelledGPScoord × Int} {p : Nat} (hn : 0 ≤ st.2)
    (hn' : st.2 < maxInt) (h : scanStep minPts eps offset st p = some st') :
    Evolves st.1 st'.1 := by
  obtain ⟨c, hc, hcase⟩ := scanStep_spec h
  rcases hcase with ⟨_, rfl⟩ | ⟨hz, _, rfl⟩ | ⟨hz, _, out, hout, rfl⟩
  · exact Evolves.self _
  · exact Evolves.one_write hc (Or.inr (Or.inl ⟨hz, rfl⟩))
  · have hw : wrapInt (st.2 + 1) = st.2 + 1 :=
      wrapInt_of_range (by unfold minInt; omega) (by omega)
    have hl : Clustered (wrapInt (wrapInt (st.2 + 1) + offset)) := by
      rw [hw]
      exact wrapInt_label_clustered (by omega) (by omega) hoff hmax
    have h1 : Evolves st.1 (setLabel st.1 p (wrapInt (wrapInt (st.2 + 1) + offset))) :=
      Evolves.one_write hc (Or.inr (Or.inr ⟨Or.inl hz, hl⟩))
    exact seedLoop_inv (fun cs _ => Evolves st.1 cs)
      (fun _ _ _ _ _ hI hstep => hI.andThen (Evolves.by_seedStep hl hstep)) _ _ _ _ h1 hout

theorem Sound.evolves {coords0 : List LabelledGPScoord} {minPts : Int} {eps : ℚ}
    {offset : Int} {p : Nat} {cs : List LabelledGPScoord} {n : Int}
    (h : Sound coords0 minPts eps offset p cs n) : Evolves coords0 cs := by
  refine ⟨h.frame_eq.symm, ?_⟩
  intro i c0 c h0 hc
  rcases h.trans i c0 c h0 hc with h1 | ⟨h1, h2, _, _⟩ | ⟨h1, k, hk1, hk2, h2⟩
  · exact Or.inl h1
  · exact Or.inr (Or.inl ⟨h1, h2⟩)
  · exact Or.inr (Or.inr ⟨h1, by rw [h2]; exact h.clustered_label hk1 hk2⟩)

/-- Claim C10, as amended.  With arbitrary initial labels and `labelOffset` in `[0, maxInt]`:
every iteration of the `seedSet` loop and every iteration of the outer scan changes labels
only by `0 → -1`, `0 → cluster` or `-1 → cluster`, a cluster label being a label other than `0`
and `-1` (never a cluster label, never back to `0`), and so does the whole run, which returns;
a point clustered on entry has the same label on exit.  When `labelOffset + len ≤ maxInt` the
cluster labels that the run writes are `> 0`. -/
theorem DBscan_label_state_machine (coords : List LabelledGPScoord) (minPts : Int) (eps : ℚ)
    (offset : Int) (hoff : 0 ≤ offset) (hmax : offset ≤ maxInt)
    (hlen : (coords.length : Int) ≤ maxInt) :
    (∀ (label : Int) (cs cs' : List LabelledGPScoord) (q : Nat) (rest rest' : List Nat),
      Clustered label →
      seedStep minPts eps label cs q rest = some (cs', rest') → Evolves cs cs') ∧
    (∀ (st st' : List LabelledGPScoord × Int) (p : Nat), 0 ≤ st.2 → st.2 < maxInt →
      scanStep minPts eps offset st p = some st' → Evolves st.1 st'.1) ∧
    (∃ out n, DBscan coords minPts eps offset = some (out, n) ∧ Evolves coords out ∧
      (∀ (i : Nat) (c : LabelledGPScoord), coords[i]? = some c → Clustered c.Label →
        ∃ c', out[i]? = some c' ∧ c'.Label = c.Label) ∧
      (offset + (coords.length : Int) ≤ maxInt →
        ∀ (i : Nat) (c c' : LabelledGPScoord), coords[i]? = some c → out[i]? = some c' →
          LabelTransPos c.Label c'.Label)) := by
  refine ⟨?_, ?_, ?_⟩
  · intro label cs cs' q rest rest' hl h
    exact Evolves.by_seedStep hl h
  · intro st st' p hn hn' h
    exact Evolves.by_scanStep hoff hmax hn hn' h
  · obtain ⟨out, n, hrun, hs⟩ := DBscan_sound coords minPts eps hoff hmax hlen
    have hev := hs.evolves
    refine ⟨out, n, hrun, hev, ?_, ?_⟩
    · intro i c hc hpos
      have hf := frame_getElem? hev.1 i
      rw [hc] at hf
      cases ho : out[i]? with
      | none => rw [ho] at hf; simp at hf
      | some c' =>
        refine ⟨c', rfl, ?_⟩
        have := hev.2 i c c' hc ho
        unfold LabelTrans at this
        unfold Clustered at hpos
        omega
    · intro hsum i c c' hc ho
      rcases hs.trans i c c' hc ho with h1 | ⟨h1, h2, _, _⟩ | ⟨h1, k, hk1, hk2, h2⟩
      · exact Or.inl h1
      · exact Or.inr (Or.inl ⟨h1, h2⟩)
      · refine Or.inr (Or.inr ⟨h1, ?_⟩)
        rw [h2, hs.label_eq_add hsum hk1 hk2]
        omega

/-- Claim C10, as amended, at a slice with one point clustered on entry, one noise and one
unclassified. -/
theorem DBscan_label_state_machine_witness :
    ((0 : Int) ≤ 3 ∧ (3 : Int) ≤ maxInt ∧
      (([{ mkPt 0 0 1 with Label := 9 }, { mkPt 0 1 2 with Label := -1 },
        mkPt 0 2 3].length : Nat) : Int) ≤ maxInt) ∧
    ∃ out n, DBscan [{ mkPt 0 0 1 with Label := 9 }, { mkPt 0 1 2 with Label := -1 },
        mkPt 0 2 3] 2 1 3 = some (out, n) ∧
      Evolves [{ mkPt 0 0 1 with Label := 9 }, { mkPt 0 1 2 with Label := -1 }, mkPt 0 2 3] out ∧
      (∀ (i : Nat) (c : LabelledGPScoord),
        [{ mkPt 0 0 1 with Label := 9 }, { mkPt 0 1 2 with Label := -1 }, mkPt 0 2 3][i]? = some c →
        Clustered c.Label → ∃ c', out[i]? = some c' ∧ c'.Label = c.Label) ∧
      (3 + (([{ mkPt 0 0 1 with Label := 9 }, { mkPt 0 1 2 with Label := -1 },
          mkPt 0 2 3].length : Nat) : Int) ≤ maxInt →
        ∀ (i : Nat) (c c' : LabelledGPScoord),
          [{ mkPt 0 0 1 with Label := 9 }, { mkPt 0 1 2 with Label := -1 },
            mkPt 0 2 3][i]? = some c → out[i]? = some c' →
          LabelTransPos c.Label c'.Label) :=
  ⟨⟨by decide, by decide, by decide⟩, (DBscan_label_state_machine
    [{ mkPt 0 0 1 with Label := 9 }, { mkPt 0 1 2 with Label := -1 }, mkPt 0 2 3] 2 1 3
    (by decide) (by decide) (by decide)).2.2⟩

/-- Claim C10 fails as stated.  With `labelOffset = math.MaxInt64`, one unclassified point,
`minPts = 1` and `eps = 0`, the run changes the label of the point from `0` to
`1 + labelOffset`, which in `int` arithmetic is `math.MinInt64`: a change from `0` to a label
that is neither `-1` nor `> 0`. -/
theorem DBscan_label_change_not_positive :
    (0 : Int) ≤ maxInt ∧
    DBscan [mkPt 0 0 1] 1 0 maxInt = some ([{ mkPt 0 0 1 with Label := minInt }], 1) ∧
    ¬ LabelTransPos (mkPt 0 0 1).Label minInt :=
  ⟨by decide, by decide!, by unfold LabelTransPos mkPt minInt; simp⟩

/-! ## Running `DBscan` on a labelled slice (C5) -/

/-- On a slice without unclassified entries the scan skips every entry and counts nothing. -/
theorem DBscan_of_labelled (cs : List LabelledGPScoord) (minPts : Int) (eps : ℚ) (offset : Int)
    (h : ∀ c ∈ cs, c.Label ≠ 0) : DBscan cs minPts eps offset = some (cs, 0) := by
  obtain ⟨out, h1, h2⟩ := foldlM_range_rule (scanStep minPts eps offset)
    (fun _ st => st = (cs, 0)) cs.length (cs, 0) rfl
    (by
      intro p st hp hst
      subst hst
      refine ⟨(cs, 0), ?_, rfl⟩
      have hc : cs[p]? = some cs[p] := List.getElem?_eq_getElem hp
      have hne : cs[p].Label ≠ 0 := h _ (List.getElem_mem hp)
      simp [scanStep, hc, hne])
  have h3 : out = (cs, 0) := h2
  rw [h3] at h1
  exact h1

/-- Claim C5, as amended.  For `labelOffset ≥ 0` (an `int`, so at most `maxInt`, on a slice,
whose length is at most `maxInt`), if `DBscan` on `P` yields the slice `P'` and the count `n`,
then `P'` has no unclassified entry, and `DBscan` on `P'` with the same parameters changes no
label and returns the count `0` (the clusters created by that call). -/
theorem DBscan_rerun (P P' : List LabelledGPScoord) (minPts : Int) (eps : ℚ) (offset n : Int)
    (hoff : 0 ≤ offset) (hmax : offset ≤ maxInt) (hlen : (P.length : Int) ≤ maxInt)
    (hrun : DBscan P minPts eps offset = some (P', n)) :
    (∀ c ∈ P', c.Label ≠ 0) ∧ DBscan P' minPts eps offset = some (P', 0) := by
  obtain ⟨out, m, hrun', hs⟩ := DBscan_sound P minPts eps hoff hmax hlen
  rw [hrun] at hrun'
  simp only [Option.some.injEq, Prod.mk.injEq] at hrun'
  obtain ⟨rfl, rfl⟩ := hrun'
  have hne : ∀ c ∈ P', c.Label ≠ 0 := fun c hc => hs.label_ne_zero hc
  exact ⟨hne, DBscan_of_labelled P' minPts eps offset hne⟩

/-- Claim C5, as amended, at a slice of three points, two of them neighbours. -/
theorem DBscan_rerun_witness :
    ((0 : Int) ≤ 0 ∧ (0 : Int) ≤ maxInt ∧
      (([mkPt 0 0 1, mkPt 0 1 2, mkPt 5 5 3].length : Nat) : Int) ≤ maxInt ∧
      DBscan [mkPt 0 0 1, mkPt 0 1 2, mkPt 5 5 3] 2 1 0
        = some ([{ mkPt 0 0 1 with Label := 1 }, { mkPt 0 1 2 with Label := 1 },
            { mkPt 5 5 3 with Label := -1 }], 1)) ∧
    (∀ c ∈ [{ mkPt 0 0 1 with Label := 1 }, { mkPt 0 1 2 with Label := 1 },
        { mkPt 5 5 3 with Label := -1 }], c.Label ≠ 0) ∧
    DBscan [{ mkPt 0 0 1 with Label := 1 }, { mkPt 0 1 2 with Label := 1 },
        { mkPt 5 5 3 with Label := -1 }] 2 1 0
      = some ([{ mkPt 0 0 1 with Label := 1 }, { mkPt 0 1 2 with Label := 1 },
          { mkPt 5 5 3 with Label := -1 }], 0) :=
  ⟨⟨by decide, by decide, by decide, by decide!⟩,
    DBscan_rerun [mkPt 0 0 1, mkPt 0 1 2, mkPt 5 5 3] _ 2 1 0 1 (by decide) (by decide)
      (by decide) (by decide!)⟩

/-- Claim C5 fails as stated.  A single unclassified point with `minPts = 1`: the first run
creates one cluster and returns `1`; the second run, on the labelled slice, returns `0`, not
`1`.  And with the negative offset `-2` (and `eps = -1`, `minPts = 0`) the first run leaves
a point with label `0`, which the second run relabels `-1`. -/
theorem rerun_count_differs :
    (DBscan [mkPt 0 0 1] 1 0 0 = some ([{ mkPt 0 0 1 with Label := 1 }], 1) ∧
      DBscan [{ mkPt 0 0 1 with Label := 1 }] 1 0 0
        = some ([{ mkPt 0 0 1 with Label := 1 }], 0) ∧
      DBscan [{ mkPt 0 0 1 with Label := 1 }] 1 0 0
        ≠ some ([{ mkPt 0 0 1 with Label := 1 }], 1)) ∧
    (DBscan [mkPt 0 0 1, mkPt 0 0 2] 0 (-1) (-2)
        = some ([{ mkPt 0 0 1 with Label := -1 }, { mkPt 0 0 2 with Label := 0 }], 2) ∧
      DBscan [{ mkPt 0 0 1 with Label := -1 }, { mkPt 0 0 2 with Label := 0 }] 0 (-1) (-2)
        = some ([{ mkPt 0 0 1 with Label := -1 }, { mkPt 0 0 2 with Label := -1 }], 1)) := by
  decide!

/-! ## Scenario B: no two points within `eps` (C3) -/

theorem frame_initial {a b : List LabelledGPScoord} (h : a.map frame = b.map frame) {i : Nat}
    {c : LabelledGPScoord} (hc : a[i]? = some c) :
    ∃ c0, b[i]? = some c0 ∧ c0.toGPScoord = c.toGPScoord ∧ c0.ID = c.ID := by
  have hf := frame_getElem? h i
  rw [hc] at hf
  cases h0 : b[i]? with
  | none => rw [h0] at hf; simp at hf
  | some c0 =>
    rw [h0] at hf
    simp only [Option.map_some', Option.some.injEq, frame, Prod.mk.injEq] at hf
    exact ⟨c0, rfl, hf.1.symm, hf.2.symm⟩

theorem length_le_one_of_nodup_of_forall_eq {l : List Nat} {a : Nat} (hnd : l.Nodup)
    (h : ∀ x ∈ l, x = a) : l.length ≤ 1 := by
  match l, hnd, h with
  | [], _, _ => simp
  | [_], _, _ => simp
  | x :: y :: t, hnd, h =>
    have hx : x = a := h x (by simp)
    have hy : y = a := h y (by simp)
    subst hx; subst hy
    simp at hnd

/-- Entries that are pairwise farther than `eps` apart, by index. -/
theorem far_of_pairwise {coords : List LabelledGPScoord} {eps : ℚ}
    (hfar : coords.Pairwise fun a b => withinEps a b eps = false) {i j : Nat}
    {ci cj : LabelledGPScoord} (hij : i ≠ j) (hi : coords[i]? = some ci)
    (hj : coords[j]? = some cj) : withinEps ci cj eps = false := by
  rw [List.pairwise_iff_getElem] at hfar
  obtain ⟨hil, rfl⟩ := List.getElem?_eq_some_iff.mp hi
  obtain ⟨hjl, rfl⟩ := List.getElem?_eq_some_iff.mp hj
  rcases Nat.lt_or_gt_of_ne hij with h | h
  · exact hfar i j hil hjl h
  · rw [withinEps_comm]; exact hfar j i hjl hil h

/-- Among entries pairwise farther than `eps` apart, a range query finds at most the point
itself. -/
theorem rangeQuery_length_le_one {coords cs : List LabelledGPScoord} {eps : ℚ}
    (hfar : coords.Pairwise fun a b => withinEps a b eps = false)
    (hf : cs.map frame = coords.map frame) {p : Nat} {c : LabelledGPScoord}
    (hc : cs[p]? = some c) : (rangeQuery cs c eps).length ≤ 1 := by
  apply length_le_one_of_nodup_of_forall_eq (a := p) (rangeQuery_nodup _ _ _)
  intro i hi
  obtain ⟨ci, hci, hw⟩ := mem_rangeQuery.mp hi
  by_contra hne
  obtain ⟨c0, h0, hg, _⟩ := frame_initial hf hc
  obtain ⟨c0i, h0i, hgi, _⟩ := frame_initial hf hci
  have := far_of_pairwise hfar (Ne.symm hne) h0 h0i
  rw [withinEps_congr eps hg hgi, hw] at this
  exact Bool.noConfusion this

/-- Claim C3 (Scenario B).  On a slice of unclassified points in which every two distinct
entries are farther than `eps` apart, `DBscan` with `minPts = 2` labels every point `-1`
and returns the cluster count `0`. -/
theorem DBscan_all_noise_of_pairwise_far (coords : List LabelledGPScoord) (eps : ℚ)
    (offset : Int) (hall : ∀ c ∈ coords, c.Label = 0)
    (hfar : coords.Pairwise fun a b => withinEps a b eps = false) :
    ∃ out, DBscan coords 2 eps offset = some (out, 0) ∧ (∀ c ∈ out, c.Label = -1) ∧
      out.map frame = coords.map frame := by
  obtain ⟨⟨out, n⟩, hrun, hn, hf, hl⟩ := foldlM_range_rule (scanStep 2 eps offset)
    (fun p st => st.2 = 0 ∧ st.1.map frame = coords.map frame ∧
      ∀ (i : Nat) (c : LabelledGPScoord), st.1[i]? = some c →
        c.Label = if i < p then -1 else 0)
    coords.length (coords, 0)
    ⟨rfl, rfl, fun i c hc => by simpa using hall c (List.getElem?_mem hc)⟩
    (by
      rintro p ⟨cs, n⟩ hp ⟨hn, hf, hl⟩
      simp only at hn hf hl
      subst hn
      have hplt : p < cs.length := by rw [length_eq_of_frame hf]; exact hp
      have hc : cs[p]? = some cs[p] := List.getElem?_eq_getElem hplt
      have hz : cs[p].Label = 0 := by simpa using hl p _ hc
      have hlen := rangeQuery_length_le_one hfar hf hc
      have hlt : ((rangeQuery cs cs[p] eps).length : Int) < 2 := by omega
      refine ⟨(setLabel cs p (-1), 0), ?_, rfl, ?_, ?_⟩
      · simp [scanStep, hc, hz, hlt]
      · simp only [map_frame_setLabel]; exact hf
      · intro i c hi
        simp only at hi
        by_cases hip : i = p
        · subst hip
          rw [getElem?_setLabel_self hc] at hi
          cases hi
          simp
        · rw [getElem?_setLabel_ne _ hip] at hi
          rw [hl i c hi]
          have : i < p + 1 ↔ i < p := by omega
          simp only [this])
  simp only at hn hf hl
  subst hn
  refine ⟨out, hrun, ?_, hf⟩
  intro c hc
  obtain ⟨i, hi, rfl⟩ := List.getElem_of_mem hc
  rw [hl i _ (List.getElem?_eq_getElem hi), if_pos (by rw [← length_eq_of_frame hf]; exact hi)]

/-- Claim C3 at three points that are pairwise more than `eps = 1` apart. -/
theorem DBscan_all_noise_of_pairwise_far_witness :
    ((∀ c ∈ [mkPt 0 0 1, mkPt 0 5 2, mkPt 5 5 3], c.Label = 0) ∧
      [mkPt 0 0 1, mkPt 0 5 2, mkPt 5 5 3].Pairwise fun a b => withinEps a b 1 = false) ∧
    ∃ out, DBscan [mkPt 0 0 1, mkPt 0 5 2, mkPt 5 5 3] 2 1 4 = some (out, 0) ∧
      (∀ c ∈ out, c.Label = -1) ∧
      out.map frame = [mkPt 0 0 1, mkPt 0 5 2, mkPt 5 5 3].map frame :=
  ⟨⟨by decide, by decide!⟩,
    DBscan_all_noise_of_pairwise_far [mkPt 0 0 1, mkPt 0 5 2, mkPt 5 5 3] 1 4
      (by decide) (by decide!)⟩

/-! ## Scenario C: `minPts = 1` (C4) -/

/-- An entry that passes the distance test against itself is found by its own range query. -/
theorem self_mem_rangeQuery {db : List LabelledGPScoord} {eps : ℚ} {i : Nat}
    {c : LabelledGPScoord} (hself : withinEps c c eps = true) (hc : db[i]? = some c) :
    i ∈ rangeQuery db c eps :=
  mem_rangeQuery.mpr ⟨c, hc, hself⟩

/-- With `minPts ≤ 1` an entry that passes the distance test against itself is a core point. -/
theorem isCore_of_minPts_le_one {db : List LabelledGPScoord} {minPts : Int} {eps : ℚ}
    (hm : minPts ≤ 1) {i : Nat} {c : LabelledGPScoord} (hself : withinEps c c eps = true)
    (hc : db[i]? = some c) : isCore db minPts eps c := by
  have hpos : 0 < (rangeQuery db c eps).length :=
    List.length_pos_of_mem (self_mem_rangeQuery hself hc)
  unfold isCore
  omega

/-- A core point of an all-unclassified slice ends with the label of one of the cluster
numbers `1 .. n`. -/
theorem Sound.core_label {coords0 : List LabelledGPScoord} {minPts : Int} {eps : ℚ}
    {offset : Int} {out : List LabelledGPScoord} {n : Int}
    (h : Sound coords0 minPts eps offset coords0.length out n) {i : Nat}
    {c0 c : LabelledGPScoord} (h0 : coords0[i]? = some c0) (hz : c0.Label = 0)
    (hcore : isCore coords0 minPts eps c0) (hc : out[i]? = some c) :
    ∃ k : Int, 1 ≤ k ∧ k ≤ n ∧ c.Label = wrapInt (k + offset) := by
  have hne := h.label_ne_zero (List.getElem?_mem hc)
  rcases h.trans i c0 c h0 hc with h1 | ⟨_, _, h3, _⟩ | ⟨_, h2⟩
  · rw [h1, hz] at hne
    exact absurd rfl hne
  · exact absurd hcore h3
  · exact h2

/-- Claim C4 (Scenario C), as amended.  On a slice of unclassified points each of which passes
the distance test of `rangeQuery` against itself, with `labelOffset` in `[0, maxInt]`, `DBscan`
with `minPts = 1` finds every point among its own neighbours, returns a slice with the same
points and labels no point noise: every point ends with a cluster label, the `int` value of
`k + labelOffset` for a cluster number `k` in `1 .. n`, which is neither `0` nor `-1`; when
`labelOffset + len ≤ maxInt` it is one of `labelOffset + 1 .. labelOffset + n`. -/
theorem DBscan_minPts_one_no_noise (coords : List LabelledGPScoord) (eps : ℚ) (offset : Int)
    (hoff : 0 ≤ offset) (hmax : offset ≤ maxInt) (hlen : (coords.length : Int) ≤ maxInt)
    (hall : ∀ c ∈ coords, c.Label = 0) (hself : ∀ c ∈ coords, withinEps c c eps = true) :
    (∀ (i : Nat) (c : LabelledGPScoord), coords[i]? = some c → i ∈ rangeQuery coords c eps) ∧
    ∃ out n, DBscan coords 1 eps offset = some (out, n) ∧ out.map frame = coords.map frame ∧
      ∀ c ∈ out, Clustered c.Label ∧
        (∃ k : Int, 1 ≤ k ∧ k ≤ n ∧ c.Label = wrapInt (k + offset)) ∧
        (offset + (coords.length : Int) ≤ maxInt →
          offset < c.Label ∧ c.Label ≤ offset + n) := by
  refine ⟨fun i c hc => self_mem_rangeQuery (hself c (List.getElem?_mem hc)) hc, ?_⟩
  obtain ⟨out, n, hrun, hs⟩ := DBscan_sound coords 1 eps hoff hmax hlen
  refine ⟨out, n, hrun, hs.frame_eq, ?_⟩
  intro c hc
  obtain ⟨i, c0, h0, hci, hm⟩ := hs.mem_initial hc
  obtain ⟨k, hk1, hk2, hk⟩ := hs.core_label h0 (hall c0 hm)
    (isCore_of_minPts_le_one (le_refl 1) (hself c0 hm) h0) hci
  refine ⟨by rw [hk]; exact hs.clustered_label hk1 hk2, ⟨k, hk1, hk2, hk⟩, ?_⟩
  intro hsum
  rw [hk, hs.label_eq_add hsum hk1 hk2]
  constructor <;> omega

/-- Claim C4, as amended, at three points of which two are neighbours, with `eps = 1`. -/
theorem DBscan_minPts_one_no_noise_witness :
    ((0 : Int) ≤ 0 ∧ (0 : Int) ≤ maxInt ∧
      (([mkPt 0 0 1, mkPt 0 1 2, mkPt 5 5 3].length : Nat) : Int) ≤ maxInt ∧
      (∀ c ∈ [mkPt 0 0 1, mkPt 0 1 2, mkPt 5 5 3], c.Label = 0) ∧
      ∀ c ∈ [mkPt 0 0 1, mkPt 0 1 2, mkPt 5 5 3], withinEps c c 1 = true) ∧
    ∃ out n, DBscan [mkPt 0 0 1, mkPt 0 1 2, mkPt 5 5 3] 1 1 0 = some (out, n) ∧
      out.map frame = [mkPt 0 0 1, mkPt 0 1 2, mkPt 5 5 3].map frame ∧
      ∀ c ∈ out, Clustered c.Label ∧
        (∃ k : Int, 1 ≤ k ∧ k ≤ n ∧ c.Label = wrapInt (k + 0)) ∧
        (0 + (([mkPt 0 0 1, mkPt 0 1 2, mkPt 5 5 3].length : Nat) : Int) ≤ maxInt →
          0 < c.Label ∧ c.Label ≤ 0 + n) :=
  ⟨⟨by decide, by decide, by decide, by decide, by decide!⟩,
    (DBscan_minPts_one_no_noise [mkPt 0 0 1, mkPt 0 1 2, mkPt 5 5 3] 1 0
      (by decide) (by decide) (by decide) (by decide) (by decide!)).2⟩

/-- Claim C4 fails as stated.  With the negative radius `eps = -1` no point is its own
neighbour, and `minPts = 1` labels the point noise; with `eps = 0` and the negative offset
`-2` the first cluster label is `1 + (-2) = -1`, the noise label. -/
theorem DBscan_minPts_one_noise :
    DBscan [mkPt 0 0 1] 1 (-1) 0 = some ([{ mkPt 0 0 1 with Label := -1 }], 0) ∧
    rangeQuery [mkPt 0 0 1] (mkPt 0 0 1) (-1) = [] ∧
    DBscan [mkPt 0 0 1] 1 0 (-2) = some ([{ mkPt 0 0 1 with Label := -1 }], 1) := by
  decide!

/-! ## The partition loop -/

/-- The innermost partition loop appends to cell `(i, j)` the points that pass the test, in
input order, and counts them. -/
theorem foldl_partitionPoint (minPt maxPt : GPScoord) (eps : ℚ) (n i j : Nat)
    (gps : List LabelledGPScoord) (st : Partition) :
    (∀ a b, (gps.foldl (partitionPoint minPt maxPt eps n i j) st).grid a b =
      if a = i ∧ b = j then
        st.grid i j ++ gps.filter (fun pt => insideExpanded minPt maxPt eps n i j pt)
      else st.grid a b) ∧
    (gps.foldl (partitionPoint minPt maxPt eps n i j) st).partitionSize =
      st.partitionSize + (gps.filter (fun pt => insideExpanded minPt maxPt eps n i j pt)).length := by
  induction gps generalizing st with
  | nil =>
    refine ⟨?_, by simp⟩
    intro a b
    by_cases h : a = i ∧ b = j
    · rw [if_pos h, h.1, h.2]; simp
    · rw [if_neg h]; rfl
  | cons pt gps ih =>
    simp only [List.foldl_cons]
    obtain ⟨ihg, ihs⟩ := ih (partitionPoint minPt maxPt eps n i j st pt)
    by_cases hin : insideExpanded minPt maxPt eps n i j pt = true
    · refine ⟨?_, ?_⟩
      · intro a b
        rw [ihg a b]
        by_cases h : a = i ∧ b = j
        · simp [h, partitionPoint, hin, List.filter_cons]
        · simp [h, partitionPoint, hin]
      · rw [ihs]
        simp [partitionPoint, hin, List.filter_cons]
        omega
    · refine ⟨?_, ?_⟩
      · intro a b
        rw [ihg a b]
        simp [partitionPoint, hin, List.filter_cons]
      · rw [ihs]
        simp [partitionPoint, hin, List.filter_cons]

/-- The loop over `i` of the partition, for row `j`, run for `i < m`. -/
theorem foldl_partition_row (minPt maxPt : GPScoord) (eps : ℚ) (n j : Nat)
    (gps : List LabelledGPScoord) (st : Partition) (m : Nat) :
    (∀ a b, ((List.range m).foldl
        (fun st i => gps.foldl (partitionPoint minPt maxPt eps n i j) st) st).grid a b =
      if a < m ∧ b = j then
        st.grid a b ++ gps.filter (fun pt => insideExpanded minPt maxPt eps n a b pt)
      else st.grid a b) ∧
    ((List.range m).foldl
        (fun st i => gps.foldl (partitionPoint minPt maxPt eps n i j) st) st).partitionSize =
      st.partitionSize + ∑ i in Finset.range m,
        (gps.filter (fun pt => insideExpanded minPt maxPt eps n i j pt)).length := by
  induction m with
  | zero => simp
  | succ m ih =>
    rw [List.range_succ, List.foldl_append]
    simp only [List.foldl_cons, List.foldl_nil]
    obtain ⟨ihg, ihs⟩ := ih
    obtain ⟨hg, hs⟩ := foldl_partitionPoint minPt maxPt eps n m j gps
      ((List.range m).foldl (fun st i => gps.foldl (partitionPoint minPt maxPt eps n i j) st) st)
    refine ⟨?_, ?_⟩
    · intro a b
      rw [hg a b]
      by_cases h : a = m ∧ b = j
      · obtain ⟨rfl, rfl⟩ := h
        rw [if_pos ⟨rfl, rfl⟩, ihg a b, if_neg (by omega), if_pos ⟨by omega, rfl⟩]
      · rw [if_neg h, ihg a b]
        by_cases h2 : a < m ∧ b = j
        · rw [if_pos h2, if_pos ⟨by omega, h2.2⟩]
        · rw [if_neg h2, if_neg (by omega)]
    · rw [hs, ihs, Finset.sum_range_succ]
      omega

/-- The loop over `j` of the partition, run for `j < m`. -/
theorem foldl_partition_rows (minPt maxPt : GPScoord) (eps : ℚ) (n : Nat)
    (gps : List LabelledGPScoord) (st : Partition) (m : Nat) :
    (∀ a b, ((List.range m).foldl
        (fun st j => (List.range n).foldl
          (fun st i => gps.foldl (partitionPoint minPt maxPt eps n i j) st) st) st).grid a b =
      if a < n ∧ b < m then
        st.grid a b ++ gps.filter (fun pt => insideExpanded minPt maxPt eps n a b pt)
      else st.grid a b) ∧
    ((List.range m).foldl
        (fun st j => (List.range n).foldl
          (fun st i => gps.foldl (partitionPoint minPt maxPt eps n i j) st) st) st).partitionSize =
      st.partitionSize + ∑ j in Finset.range m, ∑ i in Finset.range n,
        (gps.filter (fun pt => insideExpanded minPt maxPt eps n i j pt)).length := by
  induction m with
  | zero => simp
  | succ m ih =>
    rw [List.range_succ, List.foldl_append]
    simp only [List.foldl_cons, List.foldl_nil]
    obtain ⟨ihg, ihs⟩ := ih
    obtain ⟨hg, hs⟩ := foldl_partition_row minPt maxPt eps n m gps
      ((List.range m).foldl (fun st j => (List.range n).foldl
          (fun st i => gps.foldl (partitionPoint minPt maxPt eps n i j) st) st) st) n
    refine ⟨?_, ?_⟩
    · intro a b
      rw [hg a b]
      by_cases h : a < n ∧ b = m
      · obtain ⟨h1, rfl⟩ := h
        rw [if_pos ⟨h1, rfl⟩, ihg a b, if_neg (by omega), if_pos ⟨h1, by omega⟩]
      · rw [if_neg h, ihg a b]
        by_cases h2 : a < n ∧ b < m
        · rw [if_pos h2, if_pos ⟨h2.1, by omega⟩]
        · rw [if_neg h2, if_neg (by omega)]
    · rw [hs, ihs, Finset.sum_range_succ]
      omega

/-- The grid built by the partition loop: cell `(i, j)` holds the input points that pass the
expanded-bound test, in input order. -/
theorem partition_grid (gps : List LabelledGPScoord) (minPt maxPt : GPScoord) (eps : ℚ)
    (n i j : Nat) (hi : i < n) (hj : j < n) :
    (partition gps minPt maxPt eps n).grid i j =
      gps.filter (fun pt => insideExpanded minPt maxPt eps n i j pt) := by
  unfold partition
  rw [(foldl_partition_rows minPt maxPt eps n gps _ n).1 i j, if_pos ⟨hi, hj⟩]
  rfl

/-- The counter of the partition loop is the total length of the cells. -/
theorem partition_partitionSize (gps : List LabelledGPScoord) (minPt maxPt : GPScoord)
    (eps : ℚ) (n : Nat) :
    (partition gps minPt maxPt eps n).partitionSize =
      ∑ j in Finset.range n, ∑ i in Finset.range n,
        ((partition gps minPt maxPt eps n).grid i j).length := by
  have h : (partition gps minPt maxPt eps n).partitionSize =
      ∑ j in Finset.range n, ∑ i in Finset.range n,
        (gps.filter (fun pt => insideExpanded minPt maxPt eps n i j pt)).length := by
    unfold partition
    rw [(foldl_partition_rows minPt maxPt eps n gps _ n).2]
    simp
  rw [h]
  apply Finset.sum_congr rfl
  intro j hj
  apply Finset.sum_congr rfl
  intro i hi
  rw [partition_grid gps minPt maxPt eps n i j (Finset.mem_range.mp hi) (Finset.mem_range.mp hj)]

/-! ## The halo of a cell and the pointers of `rangeQuery`, in exact arithmetic -/

/-- Two points that pass the exact distance test differ by at most `eps` in each coordinate. -/
theorem coord_le_of_withinEps {p q : LabelledGPScoord} {eps : ℚ}
    (h : withinEps p q eps = true) :
    (-eps ≤ p.lat - q.lat ∧ p.lat - q.lat ≤ eps) ∧
      (-eps ≤ p.long - q.long ∧ p.long - q.long ≤ eps) := by
  simp only [withinEps, calculateDistanceSq, decide_eq_true_eq] at h
  obtain ⟨heps, hd⟩ := h
  have h1 : (p.lat - q.lat) ^ 2 ≤ eps ^ 2 := by nlinarith [sq_nonneg (p.long - q.long)]
  have h2 : (p.long - q.long) ^ 2 ≤ eps ^ 2 := by nlinarith [sq_nonneg (p.lat - q.lat)]
  exact ⟨abs_le_of_sq_le_sq' h1 heps, abs_le_of_sq_le_sq' h2 heps⟩

/-- With exact bounds and distances, a point within `eps` of a point of the unexpanded cell
lies in the expanded cell. -/
theorem insideExpanded_of_withinEps {minPt maxPt : GPScoord} {eps : ℚ} {n i j : Nat}
    {p q : LabelledGPScoord} (hp : insideExpanded minPt maxPt 0 n i j p = true)
    (hpq : withinEps p q eps = true) : insideExpanded minPt maxPt eps n i j q = true := by
  obtain ⟨⟨h1, h2⟩, ⟨h3, h4⟩⟩ := coord_le_of_withinEps hpq
  simp only [insideExpanded, Bool.and_eq_true, decide_eq_true_eq, sub_zero, add_zero] at hp ⊢
  obtain ⟨⟨⟨a1, a2⟩, a3⟩, a4⟩ := hp
  refine ⟨⟨⟨?_, ?_⟩, ?_⟩, ?_⟩ <;> linarith

/-- The entries that `rangeQuery` points to are the entries of `db` within `eps` of `p`, in
the order of `db`. -/
theorem deref_rangeQuery (db : List LabelledGPScoord) (p : LabelledGPScoord) (eps : ℚ) :
    deref db (rangeQuery db p eps) = db.filter (fun c => withinEps p c eps) := by
  induction db using List.reverseRecOn with
  | nil => rfl
  | append_singleton db x ih =>
    have hpre : ∀ i ∈ List.range db.length, (db ++ [x])[i]? = db[i]? := by
      intro i hi
      exact List.getElem?_append_left (List.mem_range.mp hi)
    have hlast : (db ++ [x])[db.length]? = some x := by simp
    unfold deref rangeQuery at ih ⊢
    rw [List.length_append, List.length_singleton, List.range_succ, List.filter_append,
      List.filterMap_append, List.filter_append]
    congr 1
    · rw [← ih]
      have e1 : List.filter (fun i => match (db ++ [x])[i]? with
            | some c => withinEps p c eps
            | none => false) (List.range db.length)
          = List.filter (fun i => match db[i]? with
            | some c => withinEps p c eps
            | none => false) (List.range db.length) := by
        apply List.filter_congr
        intro i hi
        rw [hpre i hi]
      rw [e1]
      apply List.filterMap_congr
      intro i hi
      exact hpre i (List.mem_filter.mp hi).1
    · by_cases hx : withinEps p x eps = true
      · simp [List.filter_cons, hx]
      · simp [List.filter_cons, hx]

/-! ## Duplication in the partition (C8) -/

/-- The number of cells holding `pt`, as a double sum over the grid. -/
theorem cellCount_eq_sum (minPt maxPt : GPScoord) (eps : ℚ) (n : Nat) (pt : LabelledGPScoord) :
    cellCount minPt maxPt eps n pt =
      ∑ j in Finset.range n, ∑ i in Finset.range n,
        if insideExpanded minPt maxPt eps n i j pt = true then 1 else 0 := by
  unfold cellCount
  rw [Finset.card_filter, Finset.sum_product_right]

/-- Summing the cell lengths counts every input point once per cell that holds it. -/
theorem sum_filter_length_eq (minPt maxPt : GPScoord) (eps : ℚ) (n : Nat)
    (gps : List LabelledGPScoord) :
    (∑ j in Finset.range n, ∑ i in Finset.range n,
        (gps.filter (fun pt => insideExpanded minPt maxPt eps n i j pt)).length)
      = (gps.map (cellCount minPt maxPt eps n)).sum := by
  induction gps with
  | nil => simp
  | cons pt gps ih =>
    rw [List.map_cons, List.sum_cons, ← ih, cellCount_eq_sum, ← Finset.sum_add_distrib]
    apply Finset.sum_congr rfl
    intro j _
    rw [← Finset.sum_add_distrib]
    apply Finset.sum_congr rfl
    intro i _
    by_cases h : insideExpanded minPt maxPt eps n i j pt = true
    · simp [List.filter_cons, h]; omega
    · simp [List.filter_cons, h]

theorem partitionSize_eq_sum_cellCount (gps : List LabelledGPScoord) (minPt maxPt : GPScoord)
    (eps : ℚ) (n : Nat) :
    (partition gps minPt maxPt eps n).partitionSize
      = (gps.map (cellCount minPt maxPt eps n)).sum := by
  rw [← sum_filter_length_eq]
  unfold partition
  rw [(foldl_partition_rows minPt maxPt eps n gps _ n).2]
  simp

theorem length_le_sum_of_one_le (f : LabelledGPScoord → Nat) (gps : List LabelledGPScoord)
    (h : ∀ pt ∈ gps, 1 ≤ f pt) :
    gps.length ≤ (gps.map f).sum ∧ ((gps.map f).sum = gps.length ↔ ∀ pt ∈ gps, f pt = 1) := by
  induction gps with
  | nil => simp
  | cons pt gps ih =>
    have h1 := h pt (List.mem_cons_self _ _)
    obtain ⟨ih1, ih2⟩ := ih fun x hx => h x (List.mem_cons_of_mem _ hx)
    simp only [List.map_cons, List.sum_cons, List.length_cons, List.mem_cons, forall_eq_or_imp]
    refine ⟨by omega, ?_⟩
    constructor
    · intro hs
      have hpt : f pt = 1 := by omega
      exact ⟨hpt, ih2.mp (by omega)⟩
    · rintro ⟨hpt, hrest⟩
      have := ih2.mpr hrest
      omega

theorem one_le_cellCount_iff (minPt maxPt : GPScoord) (eps : ℚ) (n : Nat)
    (pt : LabelledGPScoord) :
    1 ≤ cellCount minPt maxPt eps n pt ↔
      ∃ i j, i < n ∧ j < n ∧ insideExpanded minPt maxPt eps n i j pt = true := by
  unfold cellCount
  rw [Nat.succ_le_iff, Finset.card_pos]
  constructor
  · rintro ⟨⟨i, j⟩, hc⟩
    simp only [Finset.mem_filter, Finset.mem_product, Finset.mem_range] at hc
    exact ⟨i, j, hc.1.1, hc.1.2, hc.2⟩
  · rintro ⟨i, j, hi, hj, h⟩
    exact ⟨(i, j), by simp [hi, hj, h]⟩

theorem cellCount_le_one_iff (minPt maxPt : GPScoord) (eps : ℚ) (n : Nat)
    (pt : LabelledGPScoord) :
    cellCount minPt maxPt eps n pt ≤ 1 ↔
      ∀ i j i' j', i < n → j < n → i' < n → j' < n →
        insideExpanded minPt maxPt eps n i j pt = true →
        insideExpanded minPt maxPt eps n i' j' pt = true → i = i' ∧ j = j' := by
  unfold cellCount
  rw [Finset.card_le_one]
  constructor
  · intro h i j i' j' hi hj hi' hj' h1 h2
    have := h (i, j) (by simp [hi, hj, h1]) (i', j') (by simp [hi', hj', h2])
    simpa using this
  · intro h a ha b hb
    simp only [Finset.mem_filter, Finset.mem_product, Finset.mem_range] at ha hb
    obtain ⟨h1, h2⟩ := h a.1 a.2 b.1 b.2 ha.1.1 ha.1.2 hb.1.1 hb.1.2 ha.2 hb.2
    exact Prod.ext h1 h2

/-- Claim C8, as amended.  The counter `partitionSize` is the sum of `len(grid[i][j])` over the
cells.  When every input point lies in the expanded bound of at least one cell, that sum is
at least the number of input points, with equality if and only if no input point lies in the
expanded bound of two cells. -/
theorem partition_size_ge_of_covered (gps : List LabelledGPScoord) (minPt maxPt : GPScoord)
    (eps : ℚ) (n : Nat)
    (hcover : ∀ pt ∈ gps, ∃ i j, i < n ∧ j < n ∧
      insideExpanded minPt maxPt eps n i j pt = true) :
    (partition gps minPt maxPt eps n).partitionSize =
        ∑ j in Finset.range n, ∑ i in Finset.range n,
          ((partition gps minPt maxPt eps n).grid i j).length ∧
    gps.length ≤ (partition gps minPt maxPt eps n).partitionSize ∧
    ((partition gps minPt maxPt eps n).partitionSize = gps.length ↔
      ∀ pt ∈ gps, ∀ i j i' j', i < n → j < n → i' < n → j' < n →
        insideExpanded minPt maxPt eps n i j pt = true →
        insideExpanded minPt maxPt eps n i' j' pt = true → i = i' ∧ j = j') := by
  have hone : ∀ pt ∈ gps, 1 ≤ cellCount minPt maxPt eps n pt :=
    fun pt hpt => (one_le_cellCount_iff minPt maxPt eps n pt).mpr (hcover pt hpt)
  obtain ⟨h1, h2⟩ := length_le_sum_of_one_le (cellCount minPt maxPt eps n) gps hone
  refine ⟨partition_partitionSize gps minPt maxPt eps n, ?_, ?_⟩
  · rw [partitionSize_eq_sum_cellCount]; exact h1
  · rw [partitionSize_eq_sum_cellCount, h2]
    constructor
    · intro h pt hpt
      exact (cellCount_le_one_iff minPt maxPt eps n pt).mp (le_of_eq (h pt hpt))
    · intro h pt hpt
      exact le_antisymm ((cellCount_le_one_iff minPt maxPt eps n pt).mpr (h pt hpt))
        (hone pt hpt)

/-- Claim C8, as amended, at two points of the box `(0, 0) .. (4, 4)` with `eps = 1`. -/
theorem partition_size_ge_of_covered_witness :
    (∀ pt ∈ [mkPt (1 / 2) (1 / 2) 1, mkPt (1 / 2) (3 / 2) 2], ∃ i j, i < 4 ∧ j < 4 ∧
      insideExpanded ⟨0, 0⟩ ⟨4, 4⟩ 1 4 i j pt = true) ∧
    [mkPt (1 / 2) (1 / 2) 1, mkPt (1 / 2) (3 / 2) 2].length ≤
      (partition [mkPt (1 / 2) (1 / 2) 1, mkPt (1 / 2) (3 / 2) 2] ⟨0, 0⟩ ⟨4, 4⟩ 1 4).partitionSize :=
  ⟨fun _ _ => ⟨0, 0, by decide, by decide, by
      rename_i pt hpt
      simp only [List.mem_cons, List.mem_singleton, List.not_mem_nil, or_false] at hpt
      rcases hpt with rfl | rfl <;> decide!⟩,
    (partition_size_ge_of_covered [mkPt (1 / 2) (1 / 2) 1, mkPt (1 / 2) (3 / 2) 2]
      ⟨0, 0⟩ ⟨4, 4⟩ 1 4 (fun _ _ => ⟨0, 0, by decide, by decide, by
        rename_i pt hpt
        simp only [List.mem_cons, List.mem_singleton, List.not_mem_nil, or_false] at hpt
        rcases hpt with rfl | rfl <;> decide!⟩)).2.1⟩

/-- Claim C8 fails as stated.  With the box, `eps` and `N` of `main`, an input point at
`(0, 0)` is in the expanded bound of no cell: the cells hold `0` points in total, fewer than
the `1` input point. -/
theorem partition_size_lt_input :
    (partition [mkPt 0 0 1] mainMinPt mainMaxPt epsConst N).partitionSize = 0 ∧
    (∀ i < N, ∀ j < N,
      (partition [mkPt 0 0 1] mainMinPt mainMaxPt epsConst N).grid i j = []) ∧
    [mkPt 0 0 1].length = 1 := by
  decide!

/-! ## What the `seedSet` loop reaches -/

/-- The outcomes of one `seedSet` iteration when the cluster label is not `0`. -/
theorem seedStep_cases {minPts : Int} {eps : ℚ} {label : Int} (hl : label ≠ 0)
    {cs cs' : List LabelledGPScoord} {q : Nat} {rest rest' : List Nat}
    (h : seedStep minPts eps label cs q rest = some (cs', rest')) :
    ∃ c, cs[q]? = some c ∧
      ((c.Label ≠ 0 ∧ c.Label ≠ -1 ∧ cs' = cs ∧ rest' = rest) ∨
       ((c.Label = 0 ∨ c.Label = -1) ∧ cs' = setLabel cs q label ∧
          (rest' = rest ∨ rest' = rest ++ rangeQuery cs c eps))) := by
  obtain ⟨c, hc, hcase⟩ := seedStep_spec h
  refine ⟨c, hc, ?_⟩
  rcases hcase with h1 | ⟨hm, _, h2, h3⟩ | ⟨hz, h2, h3⟩
  · exact Or.inl h1
  · exact Or.inr ⟨Or.inr hm, h2, Or.inl h3⟩
  · refine Or.inr ⟨?_, h2, ?_⟩
    · rcases hz with hz | ⟨_, hz⟩
      · exact Or.inl hz
      · exact absurd hz hl
    · split_ifs at h3
      · exact Or.inr h3
      · exact Or.inl h3

/-- The `seedSet` loop stays inside a set of indices `S` that holds the work list and is
closed under `rangeQuery`: entries outside `S` are untouched, an entry changes only from
`0` or `-1` to the cluster label, and every entry of the initial work list ends labelled
with neither `0` nor `-1`. -/
theorem seedLoop_post (minPts : Int) (eps : ℚ) (label : Int) (hl0 : label ≠ 0)
    (hl1 : label ≠ -1) (S : Nat → Prop) (cs0 : List LabelledGPScoord)
    (hclosed : ∀ (i : Nat) (c : LabelledGPScoord), S i → cs0[i]? = some c →
      ∀ j ∈ rangeQuery cs0 c eps, S j)
    {fuel : Nat} {queue : List Nat} {out : List LabelledGPScoord} (hq : ∀ i ∈ queue, S i)
    (h : seedLoop minPts eps label fuel cs0 queue = some out) :
    out.map frame = cs0.map frame ∧ (∀ i, ¬ S i → out[i]? = cs0[i]?) ∧
    (∀ (i : Nat) (c c' : LabelledGPScoord), cs0[i]? = some c → out[i]? = some c' →
      c'.Label = c.Label ∨ ((c.Label = 0 ∨ c.Label = -1) ∧ c'.Label = label)) ∧
    (∀ i ∈ queue, ∀ c' : LabelledGPScoord, out[i]? = some c' →
      c'.Label ≠ 0 ∧ c'.Label ≠ -1) := by
  have key := seedLoop_inv
    (fun cs queue' => cs.map frame = cs0.map frame ∧ (∀ i ∈ queue', S i) ∧
      (∀ i, ¬ S i → cs[i]? = cs0[i]?) ∧
      (∀ (i : Nat) (c c' : LabelledGPScoord), cs0[i]? = some c → cs[i]? = some c' →
        c'.Label = c.Label ∨ ((c.Label = 0 ∨ c.Label = -1) ∧ c'.Label = label)) ∧
      (∀ i ∈ queue, i ∈ queue' ∨ ∀ c' : LabelledGPScoord, cs[i]? = some c' →
        c'.Label ≠ 0 ∧ c'.Label ≠ -1))
    (by
      intro cs q rest cs' rest' ⟨hf, hS, hout, hpt, hdone⟩ hstep
      obtain ⟨c, hc, hcase⟩ := seedStep_cases hl0 hstep
      have hSq : S q := hS q (List.mem_cons_self _ _)
      rcases hcase with ⟨hz, hm, rfl, rfl⟩ | ⟨hzm, rfl, hrest⟩
      · refine ⟨hf, fun i hi => hS i (List.mem_cons_of_mem _ hi), hout, hpt, ?_⟩
        intro i hi
        rcases hdone i hi with hmem | hlab
        · rcases List.mem_cons.mp hmem with rfl | hmem
          · right
            intro c' hc'
            rw [hc] at hc'; cases hc'
            exact ⟨hz, hm⟩
          · exact Or.inl hmem
        · exact Or.inr hlab
      · have hrestS : ∀ i ∈ rest', S i := by
          intro i hi
          rcases hrest with rfl | rfl
          · exact hS i (List.mem_cons_of_mem _ hi)
          · rcases List.mem_append.mp hi with hi | hi
            · exact hS i (List.mem_cons_of_mem _ hi)
            · obtain ⟨c0, h0, hg, _⟩ := frame_initial hf hc
              rw [rangeQuery_congr eps hf hg.symm] at hi
              exact hclosed q c0 hSq h0 i hi
        have hsub : ∀ i ∈ rest, i ∈ rest' := by
          intro i hi
          rcases hrest with rfl | rfl
          · exact hi
          · exact List.mem_append_left _ hi
        refine ⟨by rw [map_frame_setLabel]; exact hf, hrestS, ?_, ?_, ?_⟩
        · intro i hi
          have hiq : i ≠ q := fun e => hi (e ▸ hSq)
          rw [getElem?_setLabel_ne _ hiq]
          exact hout i hi
        · intro i c0 c' h0 hc'
          by_cases hiq : i = q
          · subst hiq
            rw [getElem?_setLabel_self hc] at hc'
            cases hc'
            right
            refine ⟨?_, rfl⟩
            rcases hpt i c0 c h0 hc with h1 | ⟨h1, _⟩
            · rw [← h1]; exact hzm
            · exact h1
          · rw [getElem?_setLabel_ne _ hiq] at hc'
            exact hpt i c0 c' h0 hc'
        · intro i hi
          by_cases hiq : i = q
          · subst hiq
            right
            intro c' hc'
            rw [getElem?_setLabel_self hc] at hc'
            cases hc'
            exact ⟨hl0, hl1⟩
          · rcases hdone i hi with hmem | hlab
            · rcases List.mem_cons.mp hmem with rfl | hmem
              · exact absurd rfl hiq
              · exact Or.inl (hsub i hmem)
            · right
              intro c' hc'
              rw [getElem?_setLabel_ne _ hiq] at hc'
              exact hlab c' hc')
    fuel cs0 queue out
    ⟨rfl, hq, fun _ _ => rfl, fun i c c' hc hc' => by
      rw [hc] at hc'; cases hc'; exact Or.inl rfl, fun i hi => Or.inl hi⟩ h
  obtain ⟨k1, _, k3, k4, k5⟩ := key
  refine ⟨k1, k3, k4, ?_⟩
  intro i hi c' hc'
  rcases k5 i hi with hmem | hlab
  · exact absurd hmem (List.not_mem_nil _)
  · exact hlab c' hc'

/-! ## The order of the pointers of `rangeQuery` -/

theorem rangeQuery_sorted (db : List LabelledGPScoord) (p : LabelledGPScoord) (eps : ℚ) :
    (rangeQuery db p eps).Pairwise (fun a b => a < b) :=
  List.Pairwise.filter _ (List.pairwise_lt_range _)

/-! ## Termination (C13) -/

/-- More fuel does not change the result of the `seedSet` loop. -/
theorem seedLoop_fuel_mono (minPts : Int) (eps : ℚ) (label : Int) :
    ∀ (fuel : Nat) (cs : List LabelledGPScoord) (queue : List Nat) (out : List LabelledGPScoord)
      (k : Nat), seedLoop minPts eps label fuel cs queue = some out →
      seedLoop minPts eps label (fuel + k) cs queue = some out := by
  intro fuel
  induction fuel with
  | zero =>
    intro cs queue out k h
    cases queue with
    | nil =>
      cases k <;> simpa [seedLoop] using h
    | cons q rest => simp [seedLoop] at h
  | succ fuel ih =>
    intro cs queue out k h
    cases queue with
    | nil => simpa [seedLoop] using h
    | cons q rest =>
      rw [Nat.add_right_comm]
      simp only [seedLoop] at h ⊢
      cases hr : seedStep minPts eps label cs q rest with
      | none => rw [hr] at h; simp at h
      | some r =>
        obtain ⟨cs', rest'⟩ := r
        rw [hr] at h
        exact ih cs' rest' out k h

/-- One `seedSet` iteration either leaves the number of unclassified entries and drops the
visited entry, or labels an unclassified entry and appends at most `len(*coords)` pointers. -/
theorem seedStep_measure {minPts : Int} {eps : ℚ} {label : Int} (hl : label ≠ 0)
    {cs cs' : List LabelledGPScoord} {q : Nat} {rest rest' : List Nat}
    (h : seedStep minPts eps label cs q rest = some (cs', rest')) :
    (countZero cs' = countZero cs ∧ rest' = rest) ∨
    (countZero cs' + 1 = countZero cs ∧ rest'.length ≤ rest.length + cs.length) := by
  obtain ⟨c, hc, hcase⟩ := seedStep_spec h
  rcases hcase with ⟨_, _, rfl, rfl⟩ | ⟨hm1, _, rfl, rfl⟩ | ⟨hz, rfl, rfl⟩
  · exact Or.inl ⟨rfl, rfl⟩
  · have hcz := countZero_setLabel hc label
    rw [if_neg (by omega), if_neg hl] at hcz
    exact Or.inl ⟨by omega, rfl⟩
  · have hz0 : c.Label = 0 := by
      rcases hz with h0 | ⟨_, h0⟩
      · exact h0
      · exact absurd h0 hl
    have hcz := countZero_setLabel hc label
    rw [if_pos hz0, if_neg hl] at hcz
    right
    refine ⟨by omega, ?_⟩
    have hlen := rangeQuery_length_le cs c eps
    split_ifs
    · rw [List.length_append]; omega
    · omega

/-- Claim C13.  With `labelOffset ≥ 0` (an `int`, so at most `maxInt`, on a slice, whose length
is at most `maxInt`), `DBscan` terminates on every finite partition: the run returns; the
`seedSet` loop, with any cluster label other than `0` and from any work list of valid
pointers, is exhausted within `len(seedSet) + unclassified * len(partition)` iterations and
more fuel gives the same result; and an iteration appends to `seedSet` only when it labels a
previously unclassified point. -/
theorem DBscan_terminates (coords : List LabelledGPScoord) (minPts : Int) (eps : ℚ)
    (offset : Int) (hoff : 0 ≤ offset) (hmax : offset ≤ maxInt)
    (hlen : (coords.length : Int) ≤ maxInt) :
    (∃ out n, DBscan coords minPts eps offset = some (out, n)) ∧
    (∀ (label : Int) (cs : List LabelledGPScoord) (queue : List Nat) (fuel : Nat), label ≠ 0 →
      (∀ q ∈ queue, q < cs.length) → queue.length + countZero cs * cs.length ≤ fuel →
      ∃ out, seedLoop minPts eps label fuel cs queue = some out ∧
        ∀ k, seedLoop minPts eps label (fuel + k) cs queue = some out) ∧
    (∀ (label : Int) (cs cs' : List LabelledGPScoord) (q : Nat) (rest rest' : List Nat),
      label ≠ 0 →
      seedStep minPts eps label cs q rest = some (cs', rest') →
      (countZero cs' = countZero cs ∧ rest' = rest) ∨
      (countZero cs' + 1 = countZero cs ∧ rest'.length ≤ rest.length + cs.length)) := by
  refine ⟨?_, ?_, ?_⟩
  · obtain ⟨out, n, h, _⟩ := DBscan_sound coords minPts eps hoff hmax hlen
    exact ⟨out, n, h⟩
  · intro label cs queue fuel hl hv hm
    obtain ⟨out, hout⟩ := @seedLoop_isSome minPts eps label hl fuel cs queue hv hm
    exact ⟨out, hout, fun k => seedLoop_fuel_mono minPts eps _ fuel cs queue out k hout⟩
  · intro label cs cs' q rest rest' hl h
    exact seedStep_measure hl h

/-- Claim C13 at a slice of three points, two of them neighbours. -/
theorem DBscan_terminates_witness :
    ((0 : Int) ≤ 0 ∧ (0 : Int) ≤ maxInt ∧
      (([mkPt 0 0 1, mkPt 0 1 2, mkPt 5 5 3].length : Nat) : Int) ≤ maxInt) ∧
    ∃ out n, DBscan [mkPt 0 0 1, mkPt 0 1 2, mkPt 5 5 3] 2 1 0 = some (out, n) :=
  ⟨⟨by decide, by decide, by decide⟩,
    (DBscan_terminates [mkPt 0 0 1, mkPt 0 1 2, mkPt 5 5 3] 2 1 0 (by decide) (by decide)
      (by decide)).1⟩

/-! ## No point is left unclassified (C15) -/

/-- Claim C15, as amended.  After `DBscan` on any partition with `labelOffset` in
`[0, maxInt]` no point is left unclassified: the run returns a slice with the same points, no
label is `0`, and a point that had label `0` on entry has on exit label `-1` or a cluster
label, the `int` value of `k + labelOffset` for a cluster number `k` in `1 .. n`, which is
neither `0` nor `-1`; when `labelOffset + len ≤ maxInt` that cluster label is `> 0`. -/
theorem DBscan_no_unclassified (coords : List LabelledGPScoord) (minPts : Int) (eps : ℚ)
    (offset : Int) (hoff : 0 ≤ offset) (hmax : offset ≤ maxInt)
    (hlen : (coords.length : Int) ≤ maxInt) :
    ∃ out n, DBscan coords minPts eps offset = some (out, n) ∧ out.length = coords.length ∧
      out.map frame = coords.map frame ∧ (∀ c ∈ out, c.Label ≠ 0) ∧
      ∀ (i : Nat) (c0 c : LabelledGPScoord), coords[i]? = some c0 → c0.Label = 0 →
        out[i]? = some c →
        (c.Label = -1 ∨
          (Clustered c.Label ∧ ∃ k : Int, 1 ≤ k ∧ k ≤ n ∧ c.Label = wrapInt (k + offset))) ∧
        (offset + (coords.length : Int) ≤ maxInt → c.Label = -1 ∨ 0 < c.Label) := by
  obtain ⟨out, n, hrun, hs⟩ := DBscan_sound coords minPts eps hoff hmax hlen
  refine ⟨out, n, hrun, hs.length_eq, hs.frame_eq, fun c hc => hs.label_ne_zero hc, ?_⟩
  intro i c0 c h0 hz hc
  have hne := hs.label_ne_zero (List.getElem?_mem hc)
  rcases hs.trans i c0 c h0 hc with h1 | ⟨_, h2, _, _⟩ | ⟨_, k, hk1, hk2, h2⟩
  · rw [h1, hz] at hne
    exact absurd rfl hne
  · exact ⟨Or.inl h2, fun _ => Or.inl h2⟩
  · refine ⟨Or.inr ⟨by rw [h2]; exact hs.clustered_label hk1 hk2, k, hk1, hk2, h2⟩, ?_⟩
    intro hsum
    right
    rw [h2, hs.label_eq_add hsum hk1 hk2]
    omega

/-- Claim C15, as amended, at a slice with one clustered, one noise and one unclassified
point. -/
theorem DBscan_no_unclassified_witness :
    ((0 : Int) ≤ 3 ∧ (3 : Int) ≤ maxInt ∧
      (([{ mkPt 0 0 1 with Label := 9 }, { mkPt 0 1 2 with Label := -1 },
        mkPt 0 2 3].length : Nat) : Int) ≤ maxInt) ∧
    ∃ out n, DBscan [{ mkPt 0 0 1 with Label := 9 }, { mkPt 0 1 2 with Label := -1 },
        mkPt 0 2 3] 2 1 3 = some (out, n) ∧
      out.length = [{ mkPt 0 0 1 with Label := 9 }, { mkPt 0 1 2 with Label := -1 },
        mkPt 0 2 3].length ∧
      out.map frame = [{ mkPt 0 0 1 with Label := 9 }, { mkPt 0 1 2 with Label := -1 },
        mkPt 0 2 3].map frame ∧
      (∀ c ∈ out, c.Label ≠ 0) ∧
      ∀ (i : Nat) (c0 c : LabelledGPScoord),
        [{ mkPt 0 0 1 with Label := 9 }, { mkPt 0 1 2 with Label := -1 }, mkPt 0 2 3][i]?
          = some c0 → c0.Label = 0 → out[i]? = some c →
        (c.Label = -1 ∨
          (Clustered c.Label ∧ ∃ k : Int, 1 ≤ k ∧ k ≤ n ∧ c.Label = wrapInt (k + 3))) ∧
        (3 + (([{ mkPt 0 0 1 with Label := 9 }, { mkPt 0 1 2 with Label := -1 },
          mkPt 0 2 3].length : Nat) : Int) ≤ maxInt → c.Label = -1 ∨ 0 < c.Label) :=
  ⟨⟨by decide, by decide, by decide⟩, DBscan_no_unclassified
    [{ mkPt 0 0 1 with Label := 9 }, { mkPt 0 1 2 with Label := -1 }, mkPt 0 2 3] 2 1 3
    (by decide) (by decide) (by decide)⟩

/-- Claim C15 fails as stated.  With `labelOffset = math.MaxInt64`, one unclassified point,
`minPts = 1` and `eps = 0`, the point ends with the label `1 + labelOffset`, which in `int`
arithmetic is `math.MinInt64`: neither `-1` nor `> 0`. -/
theorem DBscan_exit_label_negative :
    (0 : Int) ≤ maxInt ∧ (mkPt 0 0 1).Label = 0 ∧
    ∃ c : LabelledGPScoord, DBscan [mkPt 0 0 1] 1 0 maxInt = some ([c], 1) ∧
      ¬ (c.Label = -1 ∨ 0 < c.Label) :=
  ⟨by decide, rfl, { mkPt 0 0 1 with Label := minInt }, by decide!, by decide⟩


/-! ## Labels by index, neighbours by index -/

theorem labelAt_eq {cs : List LabelledGPScoord} {i : Nat} {c : LabelledGPScoord}
    (h : cs[i]? = some c) : labelAt cs i = c.Label := by
  simp [labelAt, h]

theorem labelAt_setLabel {cs : List LabelledGPScoord} {q : Nat} {c : LabelledGPScoord}
    (hc : cs[q]? = some c) (l : Int) (i : Nat) :
    labelAt (setLabel cs q l) i = if i = q then l else labelAt cs i := by
  by_cases hi : i = q
  · subst hi
    rw [if_pos rfl, labelAt_eq (getElem?_setLabel_self hc l)]
  · rw [if_neg hi]
    unfold labelAt
    rw [getElem?_setLabel_ne _ hi]

theorem adj_symm {coords0 : List LabelledGPScoord} {eps : ℚ} {i j : Nat}
    (h : Adj coords0 eps i j) : Adj coords0 eps j i := by
  obtain ⟨ci, cj, hi, hj, hw⟩ := h
  exact ⟨cj, ci, hj, hi, by rw [withinEps_comm]; exact hw⟩

theorem coreAdj_symm {coords0 : List LabelledGPScoord} {minPts : Int} {eps : ℚ} {i j : Nat}
    (h : CoreAdj coords0 minPts eps i j) : CoreAdj coords0 minPts eps j i :=
  ⟨h.2.1, h.1, adj_symm h.2.2⟩

/-- In a slice with the coordinates of `coords0`, the range query of the entry at index `q`
holds the indices adjacent to `q`. -/
theorem mem_rangeQuery_iff_adj {coords0 cs : List LabelledGPScoord} {eps : ℚ}
    (hf : cs.map frame = coords0.map frame) {q : Nat} {c : LabelledGPScoord}
    (hc : cs[q]? = some c) (j : Nat) : j ∈ rangeQuery cs c eps ↔ Adj coords0 eps q j := by
  obtain ⟨c0, h0, hg, _⟩ := frame_initial hf hc
  rw [mem_rangeQuery]
  constructor
  · rintro ⟨cj, hcj, hw⟩
    obtain ⟨c0j, h0j, hgj, _⟩ := frame_initial hf hcj
    exact ⟨c0, c0j, h0, h0j, by rw [withinEps_congr eps hg hgj]; exact hw⟩
  · rintro ⟨ci, cj, hi, hj, hw⟩
    rw [h0] at hi; cases hi
    obtain ⟨cj', hcj', hgj, _⟩ := frame_initial hf.symm hj
    exact ⟨cj', hcj', by rw [withinEps_congr eps hg.symm hgj]; exact hw⟩

/-- In a slice with the coordinates of `coords0`, the core test of `DBscan` at index `q` is
the core test in `coords0`. -/
theorem core_test_iff {coords0 cs : List LabelledGPScoord} {minPts : Int} {eps : ℚ}
    (hf : cs.map frame = coords0.map frame) {q : Nat} {c : LabelledGPScoord}
    (hc : cs[q]? = some c) :
    minPts ≤ ((rangeQuery cs c eps).length : Int) ↔ CoreIdx coords0 minPts eps q := by
  obtain ⟨c0, h0, hg, _⟩ := frame_initial hf hc
  have hq : rangeQuery cs c eps = rangeQuery coords0 c0 eps := rangeQuery_congr eps hf hg.symm
  rw [hq]
  constructor
  · intro h
    exact ⟨c0, h0, h⟩
  · rintro ⟨ci, hi, h⟩
    rw [h0] at hi; cases hi
    exact h

/-! ## The density invariant -/

theorem dense_init (coords0 : List LabelledGPScoord) (minPts : Int) (eps : ℚ)
    (hall : ∀ c ∈ coords0, c.Label = 0) : Dense coords0 minPts eps coords0 := by
  have hz : ∀ i, labelAt coords0 i = 0 := by
    intro i
    unfold labelAt
    cases h : coords0[i]? with
    | none => rfl
    | some c => exact hall c (List.getElem?_mem h)
  refine ⟨rfl, ?_, ?_, ?_, ?_⟩
  · intro i h; rw [hz i] at h; omega
  · intro q j _ h; rw [hz q] at h; exact absurd rfl h.1
  · intro i h; rw [hz i] at h; exact absurd rfl h.1
  · intro i j _ _ h; rw [hz i] at h; exact absurd rfl h.1

/-- The scan labels an unclassified non-core point noise. -/
theorem dense_noise {coords0 cs : List LabelledGPScoord} {minPts : Int} {eps : ℚ}
    (h : Dense coords0 minPts eps cs) {p : Nat} {c : LabelledGPScoord}
    (hc : cs[p]? = some c) (hz : c.Label = 0) (hnc : ¬ CoreIdx coords0 minPts eps p) :
    Dense coords0 minPts eps (setLabel cs p (-1)) := by
  have hlp : labelAt cs p = 0 := by rw [labelAt_eq hc]; exact hz
  have hl : ∀ i, labelAt (setLabel cs p (-1)) i = if i = p then -1 else labelAt cs i :=
    labelAt_setLabel hc (-1)
  have hcl : ∀ i, Clustered (labelAt (setLabel cs p (-1)) i) →
      i ≠ p ∧ labelAt (setLabel cs p (-1)) i = labelAt cs i := by
    intro i hi
    rw [hl i] at hi ⊢
    by_cases hip : i = p
    · rw [if_pos hip] at hi; exact absurd rfl hi.2
    · rw [if_neg hip]; exact ⟨hip, rfl⟩
  refine ⟨by rw [map_frame_setLabel]; exact h.frame_eq, ?_, ?_, ?_, ?_⟩
  · intro i hi
    rw [hl i] at hi
    by_cases hip : i = p
    · rw [hip]; exact hnc
    · rw [if_neg hip] at hi; exact h.noise_noncore i hi
  · intro q j hq hcq hadj
    obtain ⟨_, hq'⟩ := hcl q hcq
    rw [hq'] at hcq ⊢
    obtain ⟨h1, h2⟩ := h.closed q j hq hcq hadj
    have hjp : j ≠ p := by
      rintro rfl
      rw [hlp] at h1; exact h1.1 rfl
    rw [hl j, if_neg hjp]
    exact ⟨h1, h2⟩
  · intro i hi
    obtain ⟨_, hi'⟩ := hcl i hi
    rw [hi'] at hi ⊢
    rcases h.sound i hi with h1 | ⟨q, hq, hadj, hlq⟩
    · exact Or.inl h1
    · refine Or.inr ⟨q, hq, hadj, ?_⟩
      have hqp : q ≠ p := by
        rintro rfl
        rw [hlp] at hlq; rw [← hlq] at hi; exact hi.1 rfl
      rw [hl q, if_neg hqp]; exact hlq
  · intro i j hi hj hci hij
    obtain ⟨_, hi'⟩ := hcl i hci
    have hcj : Clustered (labelAt (setLabel cs p (-1)) j) := by rw [← hij]; exact hci
    obtain ⟨_, hj'⟩ := hcl j hcj
    rw [hi'] at hci hij
    rw [hj'] at hij
    exact h.connected i j hi hj hci hij

/-- When the work list is empty the loop invariant is the scan invariant. -/
theorem denseSeed_finish {coords0 cs : List LabelledGPScoord} {minPts : Int} {eps : ℚ}
    {L : Int} (h : DenseSeed coords0 minPts eps L cs []) : Dense coords0 minPts eps cs := by
  refine ⟨h.frame_eq, h.noise_noncore, ?_, h.sound, h.connected⟩
  intro q j hq hcq hadj
  rcases h.closed q j hq hcq hadj with h1 | ⟨_, h2, _⟩
  · exact h1
  · exact absurd h2 (List.not_mem_nil _)

/-- The scan starts the cluster with the fresh label `L` at an unclassified core point `p`;
the work list is the range query of `p`. -/
theorem denseSeed_start {coords0 cs : List LabelledGPScoord} {minPts : Int} {eps : ℚ}
    (h : Dense coords0 minPts eps cs) {p : Nat} {c : LabelledGPScoord}
    (hc : cs[p]? = some c) (hz : c.Label = 0) (hcore : CoreIdx coords0 minPts eps p)
    {L : Int} (hL1 : L ≠ -1) (hfresh : ∀ i, labelAt cs i ≠ L) :
    DenseSeed coords0 minPts eps L (setLabel cs p L) (rangeQuery cs c eps) := by
  have hlp : labelAt cs p = 0 := by rw [labelAt_eq hc]; exact hz
  have hl : ∀ i, labelAt (setLabel cs p L) i = if i = p then L else labelAt cs i :=
    labelAt_setLabel hc L
  have hlp' : labelAt (setLabel cs p L) p = L := by rw [hl p, if_pos rfl]
  have hne : ∀ i, i ≠ p → labelAt (setLabel cs p L) i = labelAt cs i := by
    intro i hi; rw [hl i, if_neg hi]
  have hmem : ∀ j, j ∈ rangeQuery cs c eps ↔ Adj coords0 eps p j :=
    mem_rangeQuery_iff_adj h.frame_eq hc
  refine ⟨by rw [map_frame_setLabel]; exact h.frame_eq, ?_, ?_, ?_, ?_, ?_⟩
  · intro i hi
    by_cases hip : i = p
    · rw [hip, hlp'] at hi; exact absurd hi hL1
    · rw [hne i hip] at hi; exact h.noise_noncore i hi
  · intro q j hq hcq hadj
    by_cases hqp : q = p
    · subst hqp
      right
      refine ⟨hlp', (hmem j).mpr hadj, ?_⟩
      intro hj
      by_cases hjp : j = q
      · rw [hjp, hlp']; exact Or.inr rfl
      · rw [hne j hjp]
        by_contra hcon
        push_neg at hcon
        have hcj : Clustered (labelAt cs j) :=
          ⟨hcon.1, fun e => h.noise_noncore j e hj⟩
        have := (h.closed j q hj hcj (adj_symm hadj)).1
        rw [hlp] at this
        exact this.1 rfl
    · rw [hne q hqp] at hcq ⊢
      obtain ⟨h1, h2⟩ := h.closed q j hq hcq hadj
      have hjp : j ≠ p := by
        rintro rfl
        rw [hlp] at h1; exact h1.1 rfl
      rw [hne j hjp]
      exact Or.inl ⟨h1, h2⟩
  · intro i hi
    by_cases hip : i = p
    · rw [hip]; exact Or.inl hcore
    · rw [hne i hip] at hi ⊢
      rcases h.sound i hi with h1 | ⟨q, hq, hadj, hlq⟩
      · exact Or.inl h1
      · refine Or.inr ⟨q, hq, hadj, ?_⟩
        have hqp : q ≠ p := by
          rintro rfl
          rw [hlp] at hlq; rw [← hlq] at hi; exact hi.1 rfl
        rw [hne q hqp]; exact hlq
  · intro i j hi hj hci hij
    by_cases hip : i = p
    · by_cases hjp : j = p
      · rw [hip, hjp]
      · rw [hip, hlp', hne j hjp] at hij
        exact absurd hij.symm (hfresh j)
    · by_cases hjp : j = p
      · rw [hjp, hlp', hne i hip] at hij
        exact absurd hij (hfresh i)
      · rw [hne i hip] at hci hij
        rw [hne j hjp] at hij
        exact h.connected i j hi hj hci hij
  · intro j hj
    exact ⟨p, hcore, (hmem j).mp hj, hlp'⟩

/-- The `seedSet` loop writes the cluster label `L` over the unclassified or noise entry at
the head `q` of the work list; the new work list keeps the rest and, when `q` is a core
point, holds its neighbours. -/
theorem denseSeed_write {coords0 cs : List LabelledGPScoord} {minPts : Int} {eps : ℚ}
    {L : Int} (hL0 : L ≠ 0) (hL1 : L ≠ -1) {q : Nat} {rest rest' : List Nat}
    (h : DenseSeed coords0 minPts eps L cs (q :: rest)) {c : LabelledGPScoord}
    (hc : cs[q]? = some c) (hz : c.Label = 0 ∨ c.Label = -1)
    (hsub : ∀ j ∈ rest, j ∈ rest')
    (hnb : CoreIdx coords0 minPts eps q → ∀ j, Adj coords0 eps q j → j ∈ rest')
    (hnew : ∀ j ∈ rest', j ∈ rest ∨ (CoreIdx coords0 minPts eps q ∧ Adj coords0 eps q j)) :
    DenseSeed coords0 minPts eps L (setLabel cs q L) rest' := by
  have hlq : labelAt cs q = 0 ∨ labelAt cs q = -1 := by rw [labelAt_eq hc]; exact hz
  have hnc : ¬ Clustered (labelAt cs q) := by
    intro hcl
    rcases hlq with e | e
    · exact hcl.1 e
    · exact hcl.2 e
  have hl : ∀ i, labelAt (setLabel cs q L) i = if i = q then L else labelAt cs i :=
    labelAt_setLabel hc L
  have hlq' : labelAt (setLabel cs q L) q = L := by rw [hl q, if_pos rfl]
  have hne : ∀ i, i ≠ q → labelAt (setLabel cs q L) i = labelAt cs i := by
    intro i hi; rw [hl i, if_neg hi]
  have hcoreq : CoreIdx coords0 minPts eps q → labelAt cs q = 0 := by
    intro hq
    rcases hlq with e | e
    · exact e
    · exact absurd hq (h.noise_noncore q e)
  obtain ⟨q0, hq0, hadj0, hlq0⟩ := h.reached q (List.mem_cons_self _ _)
  have hq0ne : q0 ≠ q := by
    rintro rfl
    rcases hlq with e | e
    · rw [e] at hlq0; exact hL0 hlq0.symm
    · rw [e] at hlq0; exact hL1 hlq0.symm
  refine ⟨by rw [map_frame_setLabel]; exact h.frame_eq, ?_, ?_, ?_, ?_, ?_⟩
  · intro i hi
    by_cases hiq : i = q
    · rw [hiq, hlq'] at hi; exact absurd hi hL1
    · rw [hne i hiq] at hi; exact h.noise_noncore i hi
  · intro a j ha hca hadj
    by_cases haq : a = q
    · subst haq
      right
      refine ⟨hlq', hnb ha j hadj, ?_⟩
      intro hj
      by_cases hja : j = a
      · rw [hja, hlq']; exact Or.inr rfl
      · rw [hne j hja]
        by_contra hcon
        push_neg at hcon
        have hcj : Clustered (labelAt cs j) :=
          ⟨hcon.1, fun e => h.noise_noncore j e hj⟩
        rcases h.closed j a hj hcj (adj_symm hadj) with ⟨h1, _⟩ | ⟨h1, _, _⟩
        · exact hnc h1
        · exact hcon.2 h1
    · rw [hne a haq] at hca ⊢
      rcases h.closed a j ha hca hadj with ⟨h1, h2⟩ | ⟨h1, h2, h3⟩
      · have hjq : j ≠ q := by
          rintro rfl
          exact hnc h1
        rw [hne j hjq]
        exact Or.inl ⟨h1, h2⟩
      · by_cases hjq : j = q
        · left
          rw [hjq, hlq']
          exact ⟨⟨hL0, hL1⟩, fun _ => h1.symm⟩
        · right
          rw [hne j hjq]
          rcases List.mem_cons.mp h2 with e | e
          · exact absurd e hjq
          · exact ⟨h1, hsub j e, h3⟩
  · intro i hi
    by_cases hiq : i = q
    · right
      rw [hiq, hlq']
      exact ⟨q0, hq0, hadj0, by rw [hne q0 hq0ne]; exact hlq0⟩
    · rw [hne i hiq] at hi ⊢
      rcases h.sound i hi with h1 | ⟨a, ha, hadj, hla⟩
      · exact Or.inl h1
      · refine Or.inr ⟨a, ha, hadj, ?_⟩
        have haq : a ≠ q := by
          rintro rfl
          rw [← hla] at hi; exact hnc hi
        rw [hne a haq]; exact hla
  · intro i j hi hj hci hij
    have hq0c : Clustered (labelAt cs q0) := by rw [hlq0]; exact ⟨hL0, hL1⟩
    by_cases hiq : i = q
    · by_cases hjq : j = q
      · rw [hiq, hjq]
      · rw [hiq, hlq', hne j hjq] at hij
        have h1 := h.connected q0 j hq0 hj hq0c (by rw [hlq0]; exact hij)
        rw [hiq]
        exact Relation.ReflTransGen.head ⟨hiq ▸ hi, hq0, adj_symm hadj0⟩ h1
    · by_cases hjq : j = q
      · rw [hjq, hlq', hne i hiq] at hij
        rw [hne i hiq] at hci
        have h1 := h.connected i q0 hi hq0 hci (by rw [hlq0]; exact hij)
        rw [hjq]
        exact Relation.ReflTransGen.tail h1 ⟨hq0, hjq ▸ hj, hadj0⟩
      · rw [hne i hiq] at hci hij
        rw [hne j hjq] at hij
        exact h.connected i j hi hj hci hij
  · intro j hj
    rcases hnew j hj with e | ⟨hq, hadj⟩
    · obtain ⟨a, ha, hadj, hla⟩ := h.reached j (List.mem_cons_of_mem _ e)
      refine ⟨a, ha, hadj, ?_⟩
      by_cases haq : a = q
      · rw [haq, hlq']
      · rw [hne a haq]; exact hla
    · exact ⟨q, hq, hadj, hlq'⟩

/-- One `seedSet` iteration keeps the loop invariant. -/
theorem denseSeed_step {coords0 cs cs' : List LabelledGPScoord} {minPts : Int} {eps : ℚ}
    {L : Int} (hL0 : L ≠ 0) (hL1 : L ≠ -1) {q : Nat} {rest rest' : List Nat}
    (h : DenseSeed coords0 minPts eps L cs (q :: rest))
    (hs : seedStep minPts eps L cs q rest = some (cs', rest')) :
    DenseSeed coords0 minPts eps L cs' rest' := by
  obtain ⟨c, hc, hcase⟩ := seedStep_spec hs
  rcases hcase with ⟨hz, hm, rfl, rfl⟩ | ⟨hm1, _, rfl, rfl⟩ | ⟨hz, rfl, rfl⟩
  · -- an entry already in a cluster is skipped
    have hlq : Clustered (labelAt cs' q) := by rw [labelAt_eq hc]; exact ⟨hz, hm⟩
    refine ⟨h.frame_eq, h.noise_noncore, ?_, h.sound, h.connected, ?_⟩
    · intro a j ha hca hadj
      rcases h.closed a j ha hca hadj with h1 | ⟨h1, h2, h3⟩
      · exact Or.inl h1
      · rcases List.mem_cons.mp h2 with e | e
        · left
          rw [e]
          refine ⟨hlq, fun hq => ?_⟩
          rcases h3 (e ▸ hq) with e0 | eL
          · rw [e] at e0; exact absurd e0 hlq.1
          · rw [e] at eL; rw [eL, h1]
        · exact Or.inr ⟨h1, e, h3⟩
    · intro j hj
      exact h.reached j (List.mem_cons_of_mem _ hj)
  · -- a noise entry is relabelled; it is not a core point
    have hnc : ¬ CoreIdx coords0 minPts eps q :=
      h.noise_noncore q (by rw [labelAt_eq hc]; exact hm1)
    exact denseSeed_write hL0 hL1 h hc (Or.inr hm1) (fun j hj => hj)
      (fun hq => absurd hq hnc) (fun j hj => Or.inl hj)
  · -- an unclassified entry is labelled; its neighbours are appended when it is a core point
    have hz0 : c.Label = 0 := by
      rcases hz with h0 | ⟨_, h0⟩
      · exact h0
      · exact absurd h0 hL0
    have hmem : ∀ j, j ∈ rangeQuery cs c eps ↔ Adj coords0 eps q j :=
      mem_rangeQuery_iff_adj h.frame_eq hc
    have hcore : minPts ≤ ((rangeQuery cs c eps).length : Int) ↔ CoreIdx coords0 minPts eps q :=
      core_test_iff h.frame_eq hc
    by_cases hq : CoreIdx coords0 minPts eps q
    · rw [if_pos (hcore.mpr hq)]
      exact denseSeed_write hL0 hL1 h hc (Or.inl hz0)
        (fun j hj => List.mem_append_left _ hj)
        (fun _ j hadj => List.mem_append_right _ ((hmem j).mpr hadj))
        (fun j hj => by
          rcases List.mem_append.mp hj with e | e
          · exact Or.inl e
          · exact Or.inr ⟨hq, (hmem j).mp e⟩)
    · rw [if_neg (fun e => hq (hcore.mp e))]
      exact denseSeed_write hL0 hL1 h hc (Or.inl hz0) (fun j hj => hj)
        (fun hq' => absurd hq' hq) (fun j hj => Or.inl hj)

/-- The `seedSet` loop takes the loop invariant to the scan invariant. -/
theorem dense_of_seedLoop {coords0 cs out : List LabelledGPScoord} {minPts : Int} {eps : ℚ}
    {L : Int} (hL0 : L ≠ 0) (hL1 : L ≠ -1) {fuel : Nat} {queue : List Nat}
    (h : DenseSeed coords0 minPts eps L cs queue)
    (hs : seedLoop minPts eps L fuel cs queue = some out) : Dense coords0 minPts eps out :=
  denseSeed_finish (seedLoop_inv (fun cs queue => DenseSeed coords0 minPts eps L cs queue)
    (fun _ _ _ _ _ hI hstep => denseSeed_step hL0 hL1 hI hstep) fuel cs queue out h hs)

/-- In a run from an all-unclassified slice every label is `0`, `-1` or the label of one of
the cluster numbers `1 .. n`. -/
theorem Sound.labelAt_cases {coords0 : List LabelledGPScoord} {minPts : Int} {eps : ℚ}
    {offset : Int} {p : Nat} {cs : List LabelledGPScoord} {n : Int}
    (h : Sound coords0 minPts eps offset p cs n) (hall : ∀ c ∈ coords0, c.Label = 0)
    (i : Nat) : labelAt cs i = 0 ∨ labelAt cs i = -1 ∨
      ∃ k : Int, 1 ≤ k ∧ k ≤ n ∧ labelAt cs i = wrapInt (k + offset) := by
  unfold labelAt
  cases hc : cs[i]? with
  | none => exact Or.inl rfl
  | some c =>
    simp only
    obtain ⟨c0, h0, _, _⟩ := h.initial hc
    have hz := hall c0 (List.getElem?_mem h0)
    rcases h.trans i c0 c h0 hc with h1 | ⟨_, h2, _, _⟩ | ⟨_, h2⟩
    · exact Or.inl (by rw [h1, hz])
    · exact Or.inr (Or.inl h2)
    · exact Or.inr (Or.inr h2)

/-- One iteration of the outer scan keeps the density invariant. -/
theorem dense_scanStep {coords0 : List LabelledGPScoord} {minPts : Int} {eps : ℚ}
    {offset : Int} (hall : ∀ c ∈ coords0, c.Label = 0) {p : Nat}
    {st st' : List LabelledGPScoord × Int}
    (hs : Sound coords0 minPts eps offset p st.1 st.2) (h : Dense coords0 minPts eps st.1)
    (hstep : scanStep minPts eps offset st p = some st') :
    Dense coords0 minPts eps st'.1 := by
  obtain ⟨c, hc, hcase⟩ := scanStep_spec hstep
  have hcore : minPts ≤ ((rangeQuery st.1 c eps).length : Int) ↔
      CoreIdx coords0 minPts eps p := core_test_iff h.frame_eq hc
  have hnn := hs.count_nonneg
  rcases hcase with ⟨_, rfl⟩ | ⟨hz, hn, rfl⟩ | ⟨hz, hn, out, hout, rfl⟩
  · exact h
  · exact dense_noise h hc hz (fun e => by have := hcore.mpr e; omega)
  · have hplt := hs.index_lt hc
    have hnp := hs.count_le
    have hlen := hs.len_le
    have hn1 : st.2 + 1 ≤ maxInt := by omega
    have hw : wrapInt (st.2 + 1) = st.2 + 1 :=
      wrapInt_of_range (by unfold minInt; omega) hn1
    rw [hw] at hout
    have hL : Clustered (wrapInt (st.2 + 1 + offset)) :=
      wrapInt_label_clustered (by omega) hn1 hs.off_nonneg hs.off_le
    have hfresh : ∀ i, labelAt st.1 i ≠ wrapInt (st.2 + 1 + offset) := by
      intro i e
      rcases hs.labelAt_cases hall i with h0 | h1 | ⟨k, hk1, hk2, hk⟩
      · exact hL.1 (by rw [← e, h0])
      · exact hL.2 (by rw [← e, h1])
      · have := wrapInt_label_inj hk1 (by omega) (show 1 ≤ st.2 + 1 by omega) hn1
          (by rw [← hk, e])
        omega
    exact dense_of_seedLoop hL.1 hL.2
      (denseSeed_start h hc hz (hcore.mp hn) hL.2 hfresh) hout

/-- Every run of `DBscan` from an all-unclassified slice with an offset in `[0, maxInt]`
returns, and its result satisfies the scan invariant and the density invariant. -/
theorem DBscan_dense (coords : List LabelledGPScoord) (minPts : Int) (eps : ℚ) {offset : Int}
    (hoff : 0 ≤ offset) (hmax : offset ≤ maxInt) (hlen : (coords.length : Int) ≤ maxInt)
    (hall : ∀ c ∈ coords, c.Label = 0) :
    ∃ out n, DBscan coords minPts eps offset = some (out, n) ∧
      Sound coords minPts eps offset coords.length out n ∧ Dense coords minPts eps out := by
  obtain ⟨⟨out, n⟩, h1, h2, h3⟩ := foldlM_range_rule (scanStep minPts eps offset)
    (fun p st => Sound coords minPts eps offset p st.1 st.2 ∧ Dense coords minPts eps st.1)
    coords.length (coords, 0)
    ⟨Sound.init coords minPts eps offset hoff hmax hlen, dense_init coords minPts eps hall⟩
    (fun p st hp hI => by
      obtain ⟨st', hst', hS⟩ := Sound.of_scanStep hI.1 hp
      exact ⟨st', hst', hS, dense_scanStep hall hI.1 hI.2 hst'⟩)
  exact ⟨out, n, h1, h2, h3⟩

/-! ## Noise, core points and clusters (C14, C17, C18) -/

/-- A core point of an all-unclassified slice has a cluster label at the end of the run. -/
theorem Sound.core_clustered {coords0 : List LabelledGPScoord} {minPts : Int} {eps : ℚ}
    {offset : Int} {out : List LabelledGPScoord} {n : Int}
    (h : Sound coords0 minPts eps offset coords0.length out n)
    (hall : ∀ c ∈ coords0, c.Label = 0) {i : Nat} (hi : CoreIdx coords0 minPts eps i) :
    Clustered (labelAt out i) := by
  obtain ⟨c0, h0, hcore⟩ := hi
  obtain ⟨c, hc, _, _⟩ := frame_initial h.frame_eq.symm h0
  obtain ⟨k, hk1, hk2, hk⟩ := h.core_label h0 (hall c0 (List.getElem?_mem h0)) hcore hc
  rw [labelAt_eq hc, hk]
  exact h.clustered_label hk1 hk2

/-- At the end of a run from an all-unclassified slice, the points labelled `-1` are the
non-core points that are not within `eps` of a core point. -/
theorem noise_iff_of_dense {coords out : List LabelledGPScoord} {minPts : Int} {eps : ℚ}
    {offset : Int} {n : Int} (hall : ∀ c ∈ coords, c.Label = 0)
    (hs : Sound coords minPts eps offset coords.length out n)
    (hd : Dense coords minPts eps out) {i : Nat} {c0 c : LabelledGPScoord}
    (h0 : coords[i]? = some c0) (hc : out[i]? = some c) :
    c.Label = -1 ↔
      (((rangeQuery coords c0 eps).length : Int) < minPts ∧
        ∀ q ∈ coords, isCore coords minPts eps q → withinEps c0 q eps = false) := by
  have hlab := labelAt_eq hc
  constructor
  · intro hm1
    have hnc := hd.noise_noncore i (by rw [hlab]; exact hm1)
    refine ⟨?_, ?_⟩
    · by_contra hcon
      exact hnc ⟨c0, h0, by unfold isCore; omega⟩
    · intro q hq hqcore
      by_contra hw
      have hw' : withinEps c0 q eps = true := by simpa using hw
      obtain ⟨j, hj⟩ := List.mem_iff_getElem?.mp hq
      have hjcore : CoreIdx coords minPts eps j := ⟨q, hj, hqcore⟩
      have hadj : Adj coords eps j i := ⟨q, c0, hj, h0, by rw [withinEps_comm]; exact hw'⟩
      have hcl := (hd.closed j i hjcore (hs.core_clustered hall hjcore) hadj).1
      rw [hlab] at hcl
      exact hcl.2 hm1
  · rintro ⟨hlen, hfar⟩
    have hne := hs.label_ne_zero (List.getElem?_mem hc)
    by_contra hm1
    have hcl : Clustered (labelAt out i) := by rw [hlab]; exact ⟨hne, hm1⟩
    rcases hd.sound i hcl with ⟨ci, hi, hcore⟩ | ⟨j, ⟨q, hj, hqcore⟩, ⟨q', ci, hj', hi, hw⟩, _⟩
    · rw [h0] at hi; cases hi
      unfold isCore at hcore
      omega
    · rw [hj] at hj'; cases hj'
      rw [h0] at hi; cases hi
      have := hfar q (List.getElem?_mem hj) hqcore
      rw [withinEps_comm, hw] at this
      exact Bool.noConfusion this

/-- Claim C14.  On a partition of unclassified points with `labelOffset ≥ 0` (an `int`, so at
most `maxInt`, on a slice, whose length is at most `maxInt`), `DBscan` returns a slice with
the same points, and each point ends with label `-1` if and only if its own
`eps`-neighbourhood in the partition has fewer than `minPts` entries and it is not within
`eps` of any core point of the partition. -/
theorem DBscan_noise_iff (coords : List LabelledGPScoord) (minPts : Int) (eps : ℚ)
    (offset : Int) (hoff : 0 ≤ offset) (hmax : offset ≤ maxInt)
    (hlen : (coords.length : Int) ≤ maxInt) (hall : ∀ c ∈ coords, c.Label = 0) :
    ∃ out n, DBscan coords minPts eps offset = some (out, n) ∧
      out.map frame = coords.map frame ∧
      ∀ (i : Nat) (c0 : LabelledGPScoord), coords[i]? = some c0 →
        ∃ c, out[i]? = some c ∧ c.toGPScoord = c0.toGPScoord ∧ c.ID = c0.ID ∧
          (c.Label = -1 ↔
            (((rangeQuery coords c0 eps).length : Int) < minPts ∧
              ∀ q ∈ coords, isCore coords minPts eps q → withinEps c0 q eps = false)) := by
  obtain ⟨out, n, hrun, hs, hd⟩ := DBscan_dense coords minPts eps hoff hmax hlen hall
  refine ⟨out, n, hrun, hs.frame_eq, ?_⟩
  intro i c0 h0
  obtain ⟨c, hc, hg, hid⟩ := frame_initial hs.frame_eq.symm h0
  exact ⟨c, hc, hg, hid, noise_iff_of_dense hall hs hd h0 hc⟩

/-- Claim C14 at three points with `minPts = 2`, `eps = 1`: two neighbours and a noise point. -/
theorem DBscan_noise_iff_witness :
    ((0 : Int) ≤ 0 ∧ (0 : Int) ≤ maxInt ∧
      (([mkPt 0 0 1, mkPt 0 1 2, mkPt 5 5 3].length : Nat) : Int) ≤ maxInt ∧
      ∀ c ∈ [mkPt 0 0 1, mkPt 0 1 2, mkPt 5 5 3], c.Label = 0) ∧
    ∃ out n, DBscan [mkPt 0 0 1, mkPt 0 1 2, mkPt 5 5 3] 2 1 0 = some (out, n) ∧
      out.map frame = [mkPt 0 0 1, mkPt 0 1 2, mkPt 5 5 3].map frame ∧
      ∀ (i : Nat) (c0 : LabelledGPScoord),
        [mkPt 0 0 1, mkPt 0 1 2, mkPt 5 5 3][i]? = some c0 →
        ∃ c, out[i]? = some c ∧ c.toGPScoord = c0.toGPScoord ∧ c.ID = c0.ID ∧
          (c.Label = -1 ↔
            (((rangeQuery [mkPt 0 0 1, mkPt 0 1 2, mkPt 5 5 3] c0 1).length : Int) < 2 ∧
              ∀ q ∈ [mkPt 0 0 1, mkPt 0 1 2, mkPt 5 5 3],
                isCore [mkPt 0 0 1, mkPt 0 1 2, mkPt 5 5 3] 2 1 q →
                withinEps c0 q 1 = false)) :=
  ⟨⟨by decide, by decide, by decide, by decide⟩,
    DBscan_noise_iff [mkPt 0 0 1, mkPt 0 1 2, mkPt 5 5 3] 2 1 0 (by decide) (by decide)
      (by decide) (by decide)⟩

/-- Claim C17.  On a partition of unclassified points with `labelOffset ≥ 0` (an `int`, so at
most `maxInt`, on a slice, whose length is at most `maxInt`), `DBscan` returns a slice with
the same points in which two core points that lie within `eps` of each other have the same
cluster label: the `int` value of `k + labelOffset` for a cluster number `k` in `1 .. n`, which
is neither `0` nor `-1`, and is one of `labelOffset + 1 .. labelOffset + n` when
`labelOffset + len ≤ maxInt`. -/
theorem DBscan_core_neighbours_share_label (coords : List LabelledGPScoord) (minPts : Int)
    (eps : ℚ) (offset : Int) (hoff : 0 ≤ offset) (hmax : offset ≤ maxInt)
    (hlen : (coords.length : Int) ≤ maxInt) (hall : ∀ c ∈ coords, c.Label = 0) :
    ∃ out n, DBscan coords minPts eps offset = some (out, n) ∧
      out.map frame = coords.map frame ∧
      ∀ (i j : Nat) (ci cj : LabelledGPScoord), coords[i]? = some ci →
        coords[j]? = some cj → isCore coords minPts eps ci → isCore coords minPts eps cj →
        withinEps ci cj eps = true →
        ∃ c c', out[i]? = some c ∧ out[j]? = some c' ∧
          c.Label = c'.Label ∧ Clustered c.Label ∧
          (∃ k : Int, 1 ≤ k ∧ k ≤ n ∧ c.Label = wrapInt (k + offset)) ∧
          (offset + (coords.length : Int) ≤ maxInt →
            offset < c.Label ∧ c.Label ≤ offset + n) := by
  obtain ⟨out, n, hrun, hs, hd⟩ := DBscan_dense coords minPts eps hoff hmax hlen hall
  refine ⟨out, n, hrun, hs.frame_eq, ?_⟩
  intro i j ci cj hi hj hci hcj hw
  obtain ⟨c, hc, _, _⟩ := frame_initial hs.frame_eq.symm hi
  obtain ⟨c', hc', _, _⟩ := frame_initial hs.frame_eq.symm hj
  have hicore : CoreIdx coords minPts eps i := ⟨ci, hi, hci⟩
  have hjcore : CoreIdx coords minPts eps j := ⟨cj, hj, hcj⟩
  have h1 := (hd.closed i j hicore (hs.core_clustered hall hicore)
    ⟨ci, cj, hi, hj, hw⟩).2 hjcore
  rw [labelAt_eq hc, labelAt_eq hc'] at h1
  obtain ⟨k, hk1, hk2, hk⟩ := hs.core_label hi (hall ci (List.getElem?_mem hi)) hci hc
  refine ⟨c, c', hc, hc', h1.symm, by rw [hk]; exact hs.clustered_label hk1 hk2,
    ⟨k, hk1, hk2, hk⟩, ?_⟩
  intro hsum
  rw [hk, hs.label_eq_add hsum hk1 hk2]
  constructor <;> omega

/-- Claim C17 at three points with `minPts = 2`, `eps = 1`. -/
theorem DBscan_core_neighbours_share_label_witness :
    ((0 : Int) ≤ 0 ∧ (0 : Int) ≤ maxInt ∧
      (([mkPt 0 0 1, mkPt 0 1 2, mkPt 5 5 3].length : Nat) : Int) ≤ maxInt ∧
      ∀ c ∈ [mkPt 0 0 1, mkPt 0 1 2, mkPt 5 5 3], c.Label = 0) ∧
    ∃ out n, DBscan [mkPt 0 0 1, mkPt 0 1 2, mkPt 5 5 3] 2 1 0 = some (out, n) ∧
      out.map frame = [mkPt 0 0 1, mkPt 0 1 2, mkPt 5 5 3].map frame ∧
      ∀ (i j : Nat) (ci cj : LabelledGPScoord),
        [mkPt 0 0 1, mkPt 0 1 2, mkPt 5 5 3][i]? = some ci →
        [mkPt 0 0 1, mkPt 0 1 2, mkPt 5 5 3][j]? = some cj →
        isCore [mkPt 0 0 1, mkPt 0 1 2, mkPt 5 5 3] 2 1 ci →
        isCore [mkPt 0 0 1, mkPt 0 1 2, mkPt 5 5 3] 2 1 cj →
        withinEps ci cj 1 = true →
        ∃ c c', out[i]? = some c ∧ out[j]? = some c' ∧
          c.Label = c'.Label ∧ Clustered c.Label ∧
          (∃ k : Int, 1 ≤ k ∧ k ≤ n ∧ c.Label = wrapInt (k + 0)) ∧
          (0 + (([mkPt 0 0 1, mkPt 0 1 2, mkPt 5 5 3].length : Nat) : Int) ≤ maxInt →
            0 < c.Label ∧ c.Label ≤ 0 + n) :=
  ⟨⟨by decide, by decide, by decide, by decide⟩,
    DBscan_core_neighbours_share_label [mkPt 0 0 1, mkPt 0 1 2, mkPt 5 5 3] 2 1 0
      (by decide) (by decide) (by decide) (by decide)⟩

/-- Claim C18.  On a partition of unclassified points with `labelOffset ≥ 0` (an `int`, so at
most `maxInt`, on a slice, whose length is at most `maxInt`), `DBscan` returns a slice with
the same points in which every point with a cluster label `k` (a label other than `0` and
`-1`, in particular every label `> 0`) is itself a core point or lies within `eps` of a core
point whose final label is also `k`; and every cluster, the one of number `k` in `1 .. n`
carrying the `int` value of `k + labelOffset`, contains a core point.  When
`labelOffset + len ≤ maxInt` these are the clusters `labelOffset + 1 .. labelOffset + n`. -/
theorem DBscan_cluster_membership_sound (coords : List LabelledGPScoord) (minPts : Int)
    (eps : ℚ) (offset : Int) (hoff : 0 ≤ offset) (hmax : offset ≤ maxInt)
    (hlen : (coords.length : Int) ≤ maxInt) (hall : ∀ c ∈ coords, c.Label = 0) :
    ∃ out n, DBscan coords minPts eps offset = some (out, n) ∧
      out.map frame = coords.map frame ∧
      (∀ (i : Nat) (c0 c : LabelledGPScoord), coords[i]? = some c0 → out[i]? = some c →
        Clustered c.Label →
        isCore coords minPts eps c0 ∨
        ∃ (j : Nat) (q q' : LabelledGPScoord), coords[j]? = some q ∧
          isCore coords minPts eps q ∧ withinEps q c0 eps = true ∧
          out[j]? = some q' ∧ q'.Label = c.Label) ∧
      (∀ k : Int, 1 ≤ k → k ≤ n →
        ∃ (j : Nat) (q q' : LabelledGPScoord), coords[j]? = some q ∧
          isCore coords minPts eps q ∧ out[j]? = some q' ∧ q'.Label = wrapInt (k + offset)) ∧
      (offset + (coords.length : Int) ≤ maxInt →
        ∀ k : Int, offset + 1 ≤ k → k ≤ offset + n →
          ∃ (j : Nat) (q q' : LabelledGPScoord), coords[j]? = some q ∧
            isCore coords minPts eps q ∧ out[j]? = some q' ∧ q'.Label = k) := by
  obtain ⟨out, n, hrun, hs, hd⟩ := DBscan_dense coords minPts eps hoff hmax hlen hall
  refine ⟨out, n, hrun, hs.frame_eq, ?_, ?_, ?_⟩
  · intro i c0 c h0 hc hpos
    have hcl : Clustered (labelAt out i) := by
      rw [labelAt_eq hc]; exact hpos
    rcases hd.sound i hcl with ⟨ci, hi, hcore⟩ | ⟨j, ⟨q, hj, hqcore⟩, ⟨q1, ci, hj', hi, hw⟩, hl⟩
    · rw [h0] at hi; cases hi
      exact Or.inl hcore
    · rw [hj] at hj'; cases hj'
      rw [h0] at hi; cases hi
      obtain ⟨q', hq', _, _⟩ := frame_initial hd.frame_eq.symm hj
      rw [labelAt_eq hq', labelAt_eq hc] at hl
      exact Or.inr ⟨j, q, q', hj, hqcore, hw, hq', hl⟩
  · intro k h1 h2
    obtain ⟨j, q, q', hj, _, hcore, hq', hl⟩ := hs.seeds k h1 h2
    exact ⟨j, q, q', hj, hcore, hq', hl⟩
  · intro hsum k h1 h2
    obtain ⟨j, q, q', hj, _, hcore, hq', hl⟩ := hs.seeds (k - offset) (by omega) (by omega)
    refine ⟨j, q, q', hj, hcore, hq', ?_⟩
    rw [hl, hs.label_eq_add hsum (by omega) (by omega)]
    ring

/-- Claim C18 at three points with `minPts = 2`, `eps = 1`. -/
theorem DBscan_cluster_membership_sound_witness :
    ((0 : Int) ≤ 0 ∧ (0 : Int) ≤ maxInt ∧
      (([mkPt 0 0 1, mkPt 0 1 2, mkPt 5 5 3].length : Nat) : Int) ≤ maxInt ∧
      ∀ c ∈ [mkPt 0 0 1, mkPt 0 1 2, mkPt 5 5 3], c.Label = 0) ∧
    ∃ out n, DBscan [mkPt 0 0 1, mkPt 0 1 2, mkPt 5 5 3] 2 1 0 = some (out, n) ∧
      (∀ k : Int, 1 ≤ k → k ≤ n →
        ∃ (j : Nat) (q q' : LabelledGPScoord),
          [mkPt 0 0 1, mkPt 0 1 2, mkPt 5 5 3][j]? = some q ∧
          isCore [mkPt 0 0 1, mkPt 0 1 2, mkPt 5 5 3] 2 1 q ∧ out[j]? = some q' ∧
          q'.Label = wrapInt (k + 0)) := by
  refine ⟨⟨by decide, by decide, by decide, by decide⟩, ?_⟩
  obtain ⟨out, n, h, _, _, h2, _⟩ := DBscan_cluster_membership_sound
    [mkPt 0 0 1, mkPt 0 1 2, mkPt 5 5 3] 2 1 0 (by decide) (by decide) (by decide) (by decide)
  exact ⟨out, n, h, h2⟩

/-! ## Partition-local and whole-set clustering (C7) -/

theorem length_rangeQuery (db : List LabelledGPScoord) (p : LabelledGPScoord) (eps : ℚ) :
    (rangeQuery db p eps).length = (db.filter (fun c => withinEps p c eps)).length := by
  rw [← deref_rangeQuery]
  unfold deref
  have h : ∀ l : List Nat, (∀ i ∈ l, i < db.length) →
      (l.filterMap fun i => db[i]?).length = l.length := by
    intro l
    induction l with
    | nil => intro _; rfl
    | cons i l ih =>
      intro hl
      have hi : i < db.length := hl i (List.mem_cons_self _ _)
      rw [List.filterMap_cons, List.getElem?_eq_getElem hi]
      simp only [List.length_cons]
      rw [ih fun x hx => hl x (List.mem_cons_of_mem _ hx)]
  exact (h _ fun i hi => lt_of_mem_rangeQuery hi).symm

/-- A point whose neighbours in the whole set all lie in the expanded cell has the same
neighbours in the cell. -/
theorem filter_cell_eq_of_neighbours_inside (gps : List LabelledGPScoord)
    (minPt maxPt : GPScoord) (eps : ℚ) (n i j : Nat) (p : LabelledGPScoord)
    (hnb : ∀ q ∈ gps, withinEps p q eps = true → insideExpanded minPt maxPt eps n i j q = true) :
    (gps.filter (fun pt => insideExpanded minPt maxPt eps n i j pt)).filter
        (fun c => withinEps p c eps)
      = gps.filter (fun c => withinEps p c eps) := by
  rw [List.filter_filter]
  apply List.filter_congr
  intro q hq
  by_cases hpq : withinEps p q eps = true
  · simp [hpq, hnb q hq hpq]
  · simp [hpq]

/-- A core point of a filtered slice is a core point of the whole slice. -/
theorem isCore_of_isCore_filter (gps : List LabelledGPScoord) (f : LabelledGPScoord → Bool)
    (minPts : Int) (eps : ℚ) (q : LabelledGPScoord) (h : isCore (gps.filter f) minPts eps q) :
    isCore gps minPts eps q := by
  unfold isCore at h ⊢
  rw [length_rangeQuery] at h ⊢
  have hle : ((gps.filter f).filter (fun c => withinEps q c eps)).length
      ≤ (gps.filter (fun c => withinEps q c eps)).length :=
    ((List.filter_sublist gps).filter _).length_le
  omega

/-- Claim C7, as amended.  For a point `p` whose `eps`-neighbourhood in the whole
(unclassified) point set lies inside the expanded bound of cell `(i, j)`: `rangeQuery` finds
the same points for `p` in `grid[i][j]` as in the whole set, so `p` is a core point of the one
exactly when it is a core point of the other; `DBscan` on `grid[i][j]` and `DBscan` on the
whole set return slices with the points they were given; when `p` is a core point both runs
give it a cluster label (a label other than `0` and `-1`), never noise; and when the run on
the whole set labels `p` noise, so does the run on `grid[i][j]`.  The converse of the last
part and the equality of the cluster numbers are not claimed. -/
theorem partition_local_core_agrees (gps : List LabelledGPScoord) (minPt maxPt : GPScoord)
    (eps : ℚ) (n i j : Nat) (minPts offL offF : Int) (p : LabelledGPScoord)
    (hi : i < n) (hj : j < n) (hoffL : 0 ≤ offL) (hmaxL : offL ≤ maxInt) (hoffF : 0 ≤ offF)
    (hmaxF : offF ≤ maxInt) (hlen : (gps.length : Int) ≤ maxInt)
    (hall : ∀ c ∈ gps, c.Label = 0)
    (hnb : ∀ q ∈ gps, withinEps p q eps = true → insideExpanded minPt maxPt eps n i j q = true) :
    deref ((partition gps minPt maxPt eps n).grid i j)
        (rangeQuery ((partition gps minPt maxPt eps n).grid i j) p eps)
      = deref gps (rangeQuery gps p eps) ∧
    (isCore ((partition gps minPt maxPt eps n).grid i j) minPts eps p ↔
      isCore gps minPts eps p) ∧
    ∃ outL nL outF nF,
      DBscan ((partition gps minPt maxPt eps n).grid i j) minPts eps offL = some (outL, nL) ∧
      DBscan gps minPts eps offF = some (outF, nF) ∧
      outL.map frame = ((partition gps minPt maxPt eps n).grid i j).map frame ∧
      outF.map frame = gps.map frame ∧
      (isCore gps minPts eps p →
        (∀ a : Nat, ((partition gps minPt maxPt eps n).grid i j)[a]? = some p →
          ∃ c, outL[a]? = some c ∧ Clustered c.Label ∧
            ∃ k : Int, 1 ≤ k ∧ k ≤ nL ∧ c.Label = wrapInt (k + offL)) ∧
        (∀ a : Nat, gps[a]? = some p →
          ∃ c, outF[a]? = some c ∧ Clustered c.Label ∧
            ∃ k : Int, 1 ≤ k ∧ k ≤ nF ∧ c.Label = wrapInt (k + offF))) ∧
      (∀ (a b : Nat) (cF : LabelledGPScoord), gps[a]? = some p → outF[a]? = some cF →
        cF.Label = -1 → ((partition gps minPt maxPt eps n).grid i j)[b]? = some p →
        ∃ cL, outL[b]? = some cL ∧ cL.Label = -1) := by
  have hgrid := partition_grid gps minPt maxPt eps n i j hi hj
  have hfil := filter_cell_eq_of_neighbours_inside gps minPt maxPt eps n i j p hnb
  have hcore : isCore ((partition gps minPt maxPt eps n).grid i j) minPts eps p ↔
      isCore gps minPts eps p := by
    unfold isCore
    rw [length_rangeQuery, length_rangeQuery, hgrid, hfil]
  have hallL : ∀ c ∈ (partition gps minPt maxPt eps n).grid i j, c.Label = 0 := by
    intro c hc
    rw [hgrid] at hc
    exact hall c (List.mem_filter.mp hc).1
  have hlenL : (((partition gps minPt maxPt eps n).grid i j).length : Int) ≤ maxInt := by
    have : ((partition gps minPt maxPt eps n).grid i j).length ≤ gps.length := by
      rw [hgrid]; exact List.length_filter_le _ _
    omega
  refine ⟨?_, hcore, ?_⟩
  · rw [deref_rangeQuery, deref_rangeQuery, hgrid, hfil]
  · obtain ⟨outL, nL, hrunL, hsL, hdL⟩ :=
      DBscan_dense ((partition gps minPt maxPt eps n).grid i j) minPts eps hoffL hmaxL hlenL
        hallL
    obtain ⟨outF, nF, hrunF, hsF, hdF⟩ := DBscan_dense gps minPts eps hoffF hmaxF hlen hall
    refine ⟨outL, nL, outF, nF, hrunL, hrunF, hsL.frame_eq, hsF.frame_eq, ?_, ?_⟩
    · intro hc
      refine ⟨?_, ?_⟩
      · intro a ha
        have hz : p.Label = 0 := hallL p (List.getElem?_mem ha)
        obtain ⟨c, hco, _, _⟩ := frame_initial hsL.frame_eq.symm ha
        obtain ⟨k, hk1, hk2, hk⟩ := hsL.core_label ha hz (hcore.mpr hc) hco
        exact ⟨c, hco, by rw [hk]; exact hsL.clustered_label hk1 hk2, k, hk1, hk2, hk⟩
      · intro a ha
        have hz : p.Label = 0 := hall p (List.getElem?_mem ha)
        obtain ⟨c, hco, _, _⟩ := frame_initial hsF.frame_eq.symm ha
        obtain ⟨k, hk1, hk2, hk⟩ := hsF.core_label ha hz hc hco
        exact ⟨c, hco, by rw [hk]; exact hsF.clustered_label hk1 hk2, k, hk1, hk2, hk⟩
    · intro a b cF ha hcF hnoise hb
      obtain ⟨cL, hcL, _, _⟩ := frame_initial hsL.frame_eq.symm hb
      refine ⟨cL, hcL, ?_⟩
      obtain ⟨hsparse, hfar⟩ := (noise_iff_of_dense hall hsF hdF ha hcF).mp hnoise
      refine (noise_iff_of_dense hallL hsL hdL hb hcL).mpr ⟨?_, ?_⟩
      · have hcore' := hcore
        unfold isCore at hcore'
        omega
      · intro q hq hqcore
        have hqg : q ∈ gps := by
          rw [hgrid] at hq
          exact (List.mem_filter.mp hq).1
        refine hfar q hqg ?_
        rw [hgrid] at hqcore
        exact isCore_of_isCore_filter gps _ minPts eps q hqcore

/-- Claim C7, as amended, at three collinear points, cell `(0, 0)` of the `4 × 4` grid over
`(0, 0) .. (4, 4)`, `eps = 1`, `minPts = 2` and the point `p = (1/2, 1/2)`. -/
theorem partition_local_core_agrees_witness :
    ((0 : Nat) < 4 ∧ (0 : Nat) < 4 ∧ (0 : Int) ≤ jobOffset 0 0 ∧ jobOffset 0 0 ≤ maxInt ∧
      (0 : Int) ≤ 0 ∧ (0 : Int) ≤ maxInt ∧
      (([mkPt (1 / 2) (1 / 2) 1, mkPt (1 / 2) (3 / 2) 2,
        mkPt (1 / 2) (5 / 2) 3].length : Nat) : Int) ≤ maxInt ∧
      (∀ c ∈ [mkPt (1 / 2) (1 / 2) 1, mkPt (1 / 2) (3 / 2) 2, mkPt (1 / 2) (5 / 2) 3],
        c.Label = 0) ∧
      (∀ q ∈ [mkPt (1 / 2) (1 / 2) 1, mkPt (1 / 2) (3 / 2) 2, mkPt (1 / 2) (5 / 2) 3],
        withinEps (mkPt (1 / 2) (1 / 2) 1) q 1 = true →
        insideExpanded ⟨0, 0⟩ ⟨4, 4⟩ 1 4 0 0 q = true)) ∧
    (isCore ((partition [mkPt (1 / 2) (1 / 2) 1, mkPt (1 / 2) (3 / 2) 2, mkPt (1 / 2) (5 / 2) 3]
        ⟨0, 0⟩ ⟨4, 4⟩ 1 4).grid 0 0) 2 1 (mkPt (1 / 2) (1 / 2) 1) ↔
      isCore [mkPt (1 / 2) (1 / 2) 1, mkPt (1 / 2) (3 / 2) 2, mkPt (1 / 2) (5 / 2) 3] 2 1
        (mkPt (1 / 2) (1 / 2) 1)) :=
  ⟨⟨by decide, by decide, by decide, by decide, by decide, by decide, by decide, by decide,
      by decide!⟩,
    (partition_local_core_agrees
      [mkPt (1 / 2) (1 / 2) 1, mkPt (1 / 2) (3 / 2) 2, mkPt (1 / 2) (5 / 2) 3]
      ⟨0, 0⟩ ⟨4, 4⟩ 1 4 0 0 2 (jobOffset 0 0) 0 (mkPt (1 / 2) (1 / 2) 1)
      (by decide) (by decide) (by decide) (by decide) (by decide) (by decide) (by decide)
      (by decide) (by decide!)).2.1⟩

/-- Claim C7 fails as stated, on the `4 × 4` grid over `(0, 0) .. (4, 4)` with `eps = 1`.
First, `minPts = 3` and the points `p, q, r` at longitudes `1/2, 3/2, 5/2`: cell `(0, 0)` holds
`p` and `q` but not `r`, the neighbours of `p` (`p` and `q`) are inside its expanded bound,
the run on the cell labels `p` noise, and the run on the whole set puts `p` in cluster `1`,
because `q` is a core point only with `r`.  Second, `minPts = 1` and the points `u` (far away)
and `v`: the run on cell `(0, 0)` labels the core point `v` with `1`, the run on the whole set
with `2`. -/
theorem partition_local_label_differs :
    ((partition [mkPt (1 / 2) (1 / 2) 1, mkPt (1 / 2) (3 / 2) 2, mkPt (1 / 2) (5 / 2) 3]
        ⟨0, 0⟩ ⟨4, 4⟩ 1 4).grid 0 0 = [mkPt (1 / 2) (1 / 2) 1, mkPt (1 / 2) (3 / 2) 2] ∧
      (∀ q ∈ [mkPt (1 / 2) (1 / 2) 1, mkPt (1 / 2) (3 / 2) 2, mkPt (1 / 2) (5 / 2) 3],
        withinEps (mkPt (1 / 2) (1 / 2) 1) q 1 = true →
        insideExpanded ⟨0, 0⟩ ⟨4, 4⟩ 1 4 0 0 q = true) ∧
      DBscan [mkPt (1 / 2) (1 / 2) 1, mkPt (1 / 2) (3 / 2) 2] 3 1 (jobOffset 0 0)
        = some ([{ mkPt (1 / 2) (1 / 2) 1 with Label := -1 },
            { mkPt (1 / 2) (3 / 2) 2 with Label := -1 }], 0) ∧
      DBscan [mkPt (1 / 2) (1 / 2) 1, mkPt (1 / 2) (3 / 2) 2, mkPt (1 / 2) (5 / 2) 3] 3 1 0
        = some ([{ mkPt (1 / 2) (1 / 2) 1 with Label := 1 },
            { mkPt (1 / 2) (3 / 2) 2 with Label := 1 },
            { mkPt (1 / 2) (5 / 2) 3 with Label := 1 }], 1)) ∧
    ((partition [mkPt (7 / 2) (7 / 2) 1, mkPt (1 / 2) (1 / 2) 2] ⟨0, 0⟩ ⟨4, 4⟩ 1 4).grid 0 0
        = [mkPt (1 / 2) (1 / 2) 2] ∧
      (∀ q ∈ [mkPt (7 / 2) (7 / 2) 1, mkPt (1 / 2) (1 / 2) 2],
        withinEps (mkPt (1 / 2) (1 / 2) 2) q 1 = true →
        insideExpanded ⟨0, 0⟩ ⟨4, 4⟩ 1 4 0 0 q = true) ∧
      DBscan [mkPt (1 / 2) (1 / 2) 2] 1 1 (jobOffset 0 0)
        = some ([{ mkPt (1 / 2) (1 / 2) 2 with Label := 1 }], 1) ∧
      DBscan [mkPt (7 / 2) (7 / 2) 1, mkPt (1 / 2) (1 / 2) 2] 1 1 0
        = some ([{ mkPt (7 / 2) (7 / 2) 1 with Label := 1 },
            { mkPt (1 / 2) (1 / 2) 2 with Label := 2 }], 2)) := by
  decide!

/-! ## Scenario A: five mutual neighbours and one outlier (C2) -/

/-- A range query that finds `m` distinct indices has at least `m` entries. -/
theorem le_length_rangeQuery_of_subset (db : List LabelledGPScoord) (p : LabelledGPScoord)
    (eps : ℚ) (s : Finset Nat) (h : ∀ i ∈ s, i ∈ rangeQuery db p eps) :
    s.card ≤ (rangeQuery db p eps).length := by
  rw [← List.toFinset_card_of_nodup (rangeQuery_nodup db p eps)]
  apply Finset.card_le_card
  intro i hi
  exact List.mem_toFinset.mpr (h i hi)

/-- The geometry of Scenario A, by index, in any slice with the coordinates of `coords`. -/
theorem scenarioA_geometry {coords cs : List LabelledGPScoord} {k : Nat}
    {ck : LabelledGPScoord} {eps : ℚ} (hk : coords[k]? = some ck)
    (hnear : ∀ a ∈ coords.eraseIdx k, ∀ b ∈ coords.eraseIdx k, withinEps a b eps = true)
    (hfar : ∀ a ∈ coords.eraseIdx k, withinEps a ck eps = false)
    (hf : cs.map frame = coords.map frame) {i j : Nat} {ci cj : LabelledGPScoord}
    (hi : cs[i]? = some ci) (hj : cs[j]? = some cj) :
    withinEps ci cj eps = decide ((i = k ∧ j = k ∧ withinEps ck ck eps = true) ∨
      (i ≠ k ∧ j ≠ k)) := by
  obtain ⟨c0i, h0i, hgi, _⟩ := frame_initial hf hi
  obtain ⟨c0j, h0j, hgj, _⟩ := frame_initial hf hj
  rw [← withinEps_congr eps hgi hgj]
  by_cases hik : i = k
  · by_cases hjk : j = k
    · subst hik; subst hjk
      rw [hk] at h0i h0j
      cases h0i; cases h0j
      by_cases hs : withinEps ck ck eps = true
      · simp [hs]
      · simp [hs]
    · subst hik
      rw [hk] at h0i; cases h0i
      have := hfar c0j (List.mem_eraseIdx_iff_getElem?.mpr ⟨j, hjk, h0j⟩)
      rw [withinEps_comm, this]
      simp [hjk]
  · by_cases hjk : j = k
    · subst hjk
      rw [hk] at h0j; cases h0j
      have := hfar c0i (List.mem_eraseIdx_iff_getElem?.mpr ⟨i, hik, h0i⟩)
      rw [this]
      simp [hik]
    · have := hnear c0i (List.mem_eraseIdx_iff_getElem?.mpr ⟨i, hik, h0i⟩)
        c0j (List.mem_eraseIdx_iff_getElem?.mpr ⟨j, hjk, h0j⟩)
      rw [this]
      simp [hik, hjk]

/-- Claim C2 (Scenario A).  On a slice of six unclassified points, in any order, in which the
five points other than the one at index `k` are pairwise within `eps` and each is farther than
`eps` from the point at index `k`, with `labelOffset ≥ 0` (an `int`, so at most `maxInt`) and
`minPts = 5`, `DBscan` creates one cluster, gives the five points the label `1 + labelOffset`
of `int` arithmetic and the sixth the label `-1`; below `maxInt` that label is the integer
`1 + labelOffset`. -/
theorem DBscan_scenario_A (coords : List LabelledGPScoord) (k : Nat) (ck : LabelledGPScoord)
    (eps : ℚ) (offset : Int) (hlen : coords.length = 6) (hk : coords[k]? = some ck)
    (hall : ∀ c ∈ coords, c.Label = 0)
    (hnear : ∀ a ∈ coords.eraseIdx k, ∀ b ∈ coords.eraseIdx k, withinEps a b eps = true)
    (hfar : ∀ a ∈ coords.eraseIdx k, withinEps a ck eps = false)
    (hoff : 0 ≤ offset) (hmax : offset ≤ maxInt) :
    ∃ out, DBscan coords 5 eps offset = some (out, 1) ∧ out.map frame = coords.map frame ∧
      (∀ (i : Nat) (c : LabelledGPScoord), out[i]? = some c →
        c.Label = if i = k then -1 else wrapInt (1 + offset)) ∧
      (offset < maxInt → ∀ (i : Nat) (c : LabelledGPScoord), out[i]? = some c →
        c.Label = if i = k then -1 else 1 + offset) := by
  have hk6 : k < 6 := by
    rw [← hlen]; exact (List.getElem?_eq_some_iff.mp hk).1
  have hw1 : wrapInt ((0 : Int) + 1) = 1 := by decide
  have hLc : Clustered (wrapInt (1 + offset)) :=
    wrapInt_label_clustered (le_refl 1) (by decide) hoff hmax
  obtain ⟨L, hLdef⟩ : ∃ L : Int, L = wrapInt (1 + offset) := ⟨_, rfl⟩
  have hL0 : L ≠ 0 := by rw [hLdef]; exact hLc.1
  have hL1 : L ≠ -1 := by rw [hLdef]; exact hLc.2
  obtain ⟨⟨out, n⟩, hrun, hf, hn, hl⟩ := foldlM_range_rule (scanStep 5 eps offset)
    (fun p st => st.1.map frame = coords.map frame ∧
      st.2 = (if 2 ≤ p ∨ (p = 1 ∧ k ≠ 0) then 1 else 0) ∧
      ∀ (i : Nat) (c : LabelledGPScoord), st.1[i]? = some c →
        c.Label = if i = k then (if k < p then -1 else 0)
          else (if 2 ≤ p ∨ (p = 1 ∧ k ≠ 0) then L else 0))
    coords.length (coords, 0)
    ⟨rfl, by simp, fun i c hc => by
      have := hall c (List.getElem?_mem hc)
      simp [this]⟩
    (by
      rintro p ⟨cs, n⟩ hp ⟨hf, hn, hl⟩
      simp only at hf hn hl
      rw [hlen] at hp
      have hcslen : cs.length = 6 := by rw [length_eq_of_frame hf, hlen]
      have hplt : p < cs.length := by omega
      have hc : cs[p]? = some cs[p] := List.getElem?_eq_getElem hplt
      have hgeo := fun {i j : Nat} {ci cj : LabelledGPScoord} (hi : cs[i]? = some ci)
        (hj : cs[j]? = some cj) => scenarioA_geometry hk hnear hfar hf hi hj
      by_cases hpk : p = k
      · -- the outlier: at most itself within `eps`
        have hz : cs[p].Label = 0 := by
          rw [hl p _ hc, if_pos hpk, if_neg (by omega)]
        have hlen1 : (rangeQuery cs cs[p] eps).length ≤ 1 := by
          apply length_le_one_of_nodup_of_forall_eq (a := p) (rangeQuery_nodup _ _ _)
          intro i hi
          obtain ⟨ci, hci, hw⟩ := mem_rangeQuery.mp hi
          rw [hgeo hc hci, decide_eq_true_eq] at hw
          rcases hw with ⟨_, h2, _⟩ | ⟨h1, _⟩
          · omega
          · exact absurd hpk h1
        have hlt : ((rangeQuery cs cs[p] eps).length : Int) < 5 := by omega
        refine ⟨(setLabel cs p (-1), n), ?_, ?_, ?_, ?_⟩
        · simp [scanStep, hc, hz, hlt]
        · simp only [map_frame_setLabel]; exact hf
        · simp only
          rw [hn]
          have : (2 ≤ p + 1 ∨ (p + 1 = 1 ∧ k ≠ 0)) ↔ (2 ≤ p ∨ (p = 1 ∧ k ≠ 0)) := by omega
          simp only [this]
        · intro i c hi
          simp only at hi
          have e : (2 ≤ p + 1 ∨ (p + 1 = 1 ∧ k ≠ 0)) ↔ (2 ≤ p ∨ (p = 1 ∧ k ≠ 0)) := by omega
          by_cases hip : i = p
          · subst hip
            rw [getElem?_setLabel_self hc] at hi
            cases hi
            rw [if_pos hpk, if_pos (by omega)]
          · rw [getElem?_setLabel_ne _ hip] at hi
            have hik : i ≠ k := by omega
            rw [hl i c hi]
            simp only [if_neg hik, e]
      · by_cases hvis : 2 ≤ p ∨ (p = 1 ∧ k ≠ 0)
        · -- a point of the cluster, already labelled
          have hnz : cs[p].Label ≠ 0 := by
            rw [hl p _ hc, if_neg hpk, if_pos hvis]; exact hL0
          refine ⟨(cs, n), ?_, hf, ?_, ?_⟩
          · simp [scanStep, hc, hnz]
          · simp only
            rw [hn, if_pos hvis, if_pos (by omega)]
          · intro i c hi
            simp only at hi
            rw [hl i c hi, if_pos hvis, if_pos (show 2 ≤ p + 1 ∨ (p + 1 = 1 ∧ k ≠ 0) by omega)]
            have : k < p + 1 ↔ k < p := by omega
            simp only [this]
        · -- the first of the five: a core point, it starts cluster 1
          have hz : cs[p].Label = 0 := by
            rw [hl p _ hc, if_neg hpk, if_neg hvis]
          have hn0 : n = 0 := by rw [hn, if_neg hvis]
          subst hn0
          have hmemq : ∀ i, i < 6 → i ≠ k → i ∈ rangeQuery cs cs[p] eps := by
            intro i hi hik
            have hci : cs[i]? = some cs[i] := List.getElem?_eq_getElem (by omega)
            refine mem_rangeQuery.mpr ⟨_, hci, ?_⟩
            rw [hgeo hc hci, decide_eq_true_eq]
            exact Or.inr ⟨hpk, hik⟩
          have hge : (5 : Int) ≤ ((rangeQuery cs cs[p] eps).length : Int) := by
            have h5 := le_length_rangeQuery_of_subset cs cs[p] eps
              ((Finset.range 6).erase k) (by
                intro i hi
                rw [Finset.mem_erase, Finset.mem_range] at hi
                exact hmemq i hi.2 hi.1)
            rw [Finset.card_erase_of_mem (Finset.mem_range.mpr hk6), Finset.card_range] at h5
            omega
          obtain ⟨st', hs⟩ := scanStep_isSome 5 eps offset (cs, 0) (p := p) hplt
            (by simp only; rw [hw1, ← hLdef]; exact hL0)
          refine ⟨st', hs, ?_⟩
          obtain ⟨c, hc', hcase⟩ := scanStep_spec hs
          simp only at hc'
          rw [hc] at hc'; cases hc'
          rcases hcase with ⟨h1, _⟩ | ⟨_, h1, _⟩ | ⟨_, _, out, hout, rfl⟩
          · exact absurd hz h1
          · simp only at h1; omega
          · simp only at hout
            rw [hw1, ← hLdef] at hout
            have hf1 : (setLabel cs p L).map frame = coords.map frame := by
              rw [map_frame_setLabel]; exact hf
            obtain ⟨q1, q2, q3, q4⟩ := seedLoop_post 5 eps L hL0 hL1 (fun i => i ≠ k ∧ i < 6)
              (setLabel cs p L)
              (by
                intro i ci hS hci j hj
                refine ⟨?_, by
                  have := lt_of_mem_rangeQuery hj
                  rw [length_setLabel] at this; omega⟩
                obtain ⟨cj, hcj, hw⟩ := mem_rangeQuery.mp hj
                rw [scenarioA_geometry hk hnear hfar hf1 hci hcj, decide_eq_true_eq] at hw
                rcases hw with ⟨h1, _⟩ | ⟨_, h2⟩
                · exact absurd h1 hS.1
                · exact h2)
              (by
                intro i hi
                refine ⟨?_, by have := lt_of_mem_rangeQuery hi; omega⟩
                obtain ⟨ci, hci, hw⟩ := mem_rangeQuery.mp hi
                rw [hgeo hc hci, decide_eq_true_eq] at hw
                rcases hw with ⟨h1, _⟩ | ⟨_, h2⟩
                · exact absurd h1 hpk
                · exact h2)
              hout
            have hv : 2 ≤ p + 1 ∨ (p + 1 = 1 ∧ k ≠ 0) := by omega
            refine ⟨q1.trans hf1, ?_, ?_⟩
            · simp only
              rw [if_pos hv, hw1]
            · intro i c' hi
              simp only at hi
              have hilt : i < 6 := by
                have := (List.getElem?_eq_some_iff.mp hi).1
                rw [length_eq_of_frame q1, length_setLabel] at this
                omega
              by_cases hik : i = k
              · subst hik
                rw [q2 i (by simp), getElem?_setLabel_ne _ (Ne.symm hpk)] at hi
                rw [hl i c' hi, if_pos rfl, if_pos rfl]
                have : i < p + 1 ↔ i < p := by omega
                simp only [this]
              · rw [if_neg hik, if_pos hv]
                have hne := q4 i (hmemq i hilt hik) c' hi
                by_cases hip : i = p
                · subst hip
                  rcases q3 i _ c' (getElem?_setLabel_self hc _) hi with h1 | ⟨_, h1⟩
                  · rw [h1]
                  · rw [h1]
                · have hci : cs[i]? = some cs[i] := List.getElem?_eq_getElem (by omega)
                  have hzi : cs[i].Label = 0 := by
                    rw [hl i _ hci, if_neg hik, if_neg hvis]
                  rcases q3 i cs[i] c' (by rw [getElem?_setLabel_ne _ hip]; exact hci) hi
                    with h1 | ⟨_, h1⟩
                  · rw [h1, hzi] at hne
                    exact absurd rfl hne.1
                  · rw [h1])
  simp only at hf hn hl
  rw [hlen] at hn hl
  have hn1 : n = 1 := by rw [hn, if_pos (by omega)]
  subst hn1
  have hfin : ∀ (i : Nat) (c : LabelledGPScoord), out[i]? = some c →
      c.Label = if i = k then -1 else wrapInt (1 + offset) := by
    intro i c hi
    rw [hl i c hi, if_pos (show 2 ≤ 6 ∨ (6 = 1 ∧ k ≠ 0) by omega), if_pos hk6, hLdef]
  refine ⟨out, hrun, hf, hfin, ?_⟩
  intro hlt i c hi
  rw [hfin i c hi, wrapInt_of_range (by unfold minInt; omega) (by omega)]

/-- Claim C2 at six points with the outlier third in the sequence, `eps = 1`, offset `3`. -/
theorem DBscan_scenario_A_witness :
    ([mkPt 0 0 1, mkPt 0 (1 / 10) 2, mkPt 9 9 3, mkPt (1 / 10) 0 4, mkPt (1 / 10) (1 / 10) 5,
        mkPt 0 (1 / 5) 6].length = 6 ∧
      [mkPt 0 0 1, mkPt 0 (1 / 10) 2, mkPt 9 9 3, mkPt (1 / 10) 0 4, mkPt (1 / 10) (1 / 10) 5,
        mkPt 0 (1 / 5) 6][2]? = some (mkPt 9 9 3) ∧
      (∀ c ∈ [mkPt 0 0 1, mkPt 0 (1 / 10) 2, mkPt 9 9 3, mkPt (1 / 10) 0 4,
        mkPt (1 / 10) (1 / 10) 5, mkPt 0 (1 / 5) 6], c.Label = 0) ∧
      (∀ a ∈ [mkPt 0 0 1, mkPt 0 (1 / 10) 2, mkPt 9 9 3, mkPt (1 / 10) 0 4,
          mkPt (1 / 10) (1 / 10) 5, mkPt 0 (1 / 5) 6].eraseIdx 2,
        ∀ b ∈ [mkPt 0 0 1, mkPt 0 (1 / 10) 2, mkPt 9 9 3, mkPt (1 / 10) 0 4,
          mkPt (1 / 10) (1 / 10) 5, mkPt 0 (1 / 5) 6].eraseIdx 2, withinEps a b 1 = true) ∧
      (∀ a ∈ [mkPt 0 0 1, mkPt 0 (1 / 10) 2, mkPt 9 9 3, mkPt (1 / 10) 0 4,
          mkPt (1 / 10) (1 / 10) 5, mkPt 0 (1 / 5) 6].eraseIdx 2,
        withinEps a (mkPt 9 9 3) 1 = false) ∧
      (0 : Int) ≤ 3 ∧ (3 : Int) ≤ maxInt) ∧
    ∃ out, DBscan [mkPt 0 0 1, mkPt 0 (1 / 10) 2, mkPt 9 9 3, mkPt (1 / 10) 0 4,
        mkPt (1 / 10) (1 / 10) 5, mkPt 0 (1 / 5) 6] 5 1 3 = some (out, 1) ∧
      out.map frame = [mkPt 0 0 1, mkPt 0 (1 / 10) 2, mkPt 9 9 3, mkPt (1 / 10) 0 4,
        mkPt (1 / 10) (1 / 10) 5, mkPt 0 (1 / 5) 6].map frame ∧
      (∀ (i : Nat) (c : LabelledGPScoord), out[i]? = some c →
        c.Label = if i = 2 then -1 else wrapInt (1 + 3)) ∧
      ((3 : Int) < maxInt → ∀ (i : Nat) (c : LabelledGPScoord), out[i]? = some c →
        c.Label = if i = 2 then -1 else 1 + 3) :=
  ⟨⟨by decide, by decide, by decide, by decide!, by decide!, by decide, by decide⟩,
    DBscan_scenario_A [mkPt 0 0 1, mkPt 0 (1 / 10) 2, mkPt 9 9 3, mkPt (1 / 10) 0 4,
        mkPt (1 / 10) (1 / 10) 5, mkPt 0 (1 / 5) 6] 2 (mkPt 9 9 3) 1 3
      (by decide) (by decide) (by decide) (by decide!) (by decide!) (by decide) (by decide)⟩

/-! ## Cluster identifiers across cells (C9) -/

theorem jobOffset_apart {i j i' j' : Nat} (hj : j < 4) (hj' : j' < 4)
    (hne : (i, j) ≠ (i', j')) :
    jobOffset i j + 1000000 ≤ jobOffset i' j' ∨ jobOffset i' j' + 1000000 ≤ jobOffset i j := by
  unfold jobOffset
  have : i ≠ i' ∨ j ≠ j' := by
    by_contra h
    push_neg at h
    exact hne (by rw [h.1, h.2])
  omega

/-- The clusters of a run are at most as many as the values of a map `sq` on the points,
when any two points with the same value of `sq` are within `eps` of each other: the core
points that start two clusters are not within `eps` of each other. -/
theorem count_le_card_of_near {P out : List LabelledGPScoord} {minPts : Int} {eps : ℚ}
    {offset n : Int} (hs : Sound P minPts eps offset P.length out n)
    (hd : Dense P minPts eps out) (hall : ∀ c ∈ P, c.Label = 0)
    (sq : LabelledGPScoord → Int × Int) (T : Finset (Int × Int)) (hT : ∀ c ∈ P, sq c ∈ T)
    (hnear : ∀ c ∈ P, ∀ c' ∈ P, sq c = sq c' → withinEps c c' eps = true) :
    n ≤ (T.card : Int) := by
  have hnmax := hs.count_le_maxInt
  have hcard := Finset.card_le_card_of_forall_subsingleton
    (fun (k : Int) (t : Int × Int) => ∃ (i : Nat) (c0 c : LabelledGPScoord),
      P[i]? = some c0 ∧ isCore P minPts eps c0 ∧ out[i]? = some c ∧
        c.Label = wrapInt (k + offset) ∧ sq c0 = t)
    (s := Finset.Icc (1 : Int) n) (t := T)
    (by
      intro k hk
      rw [Finset.mem_Icc] at hk
      obtain ⟨i, c0, c, h0, _, hcore, hc, hl⟩ := hs.seeds k hk.1 hk.2
      exact ⟨sq c0, hT c0 (List.getElem?_mem h0), i, c0, c, h0, hcore, hc, hl, rfl⟩)
    (by
      intro t _ k hk k' hk'
      simp only [Set.mem_setOf_eq, Finset.mem_Icc] at hk hk'
      obtain ⟨⟨hk1, hk2⟩, i, c0, c, h0, hcore, hc, hl, hsq⟩ := hk
      obtain ⟨⟨hk1', hk2'⟩, i', c0', c', h0', hcore', hc', hl', hsq'⟩ := hk'
      have hw := hnear c0 (List.getElem?_mem h0) c0' (List.getElem?_mem h0')
        (by rw [hsq, hsq'])
      have hci : CoreIdx P minPts eps i := ⟨c0, h0, hcore⟩
      have hci' : CoreIdx P minPts eps i' := ⟨c0', h0', hcore'⟩
      have heq := (hd.closed i i' hci (hs.core_clustered hall hci)
        ⟨c0, c0', h0, h0', hw⟩).2 hci'
      rw [labelAt_eq hc, labelAt_eq hc', hl, hl'] at heq
      exact (wrapInt_label_inj hk1' (le_trans hk2' hnmax) hk1 (le_trans hk2 hnmax) heq).symm)
  rw [Int.card_Icc] at hcard
  have hnn := hs.count_nonneg
  omega

/-- Two points in the same square of side `1/5000` pass the distance test of `main`. -/
theorem withinEps_of_unitSquare_eq (a b : ℚ) {c c' : LabelledGPScoord}
    (h : unitSquare a b c = unitSquare a b c') : withinEps c c' epsConst = true := by
  unfold unitSquare at h
  simp only [Prod.mk.injEq] at h
  have h1 := abs_lt.mp (Int.abs_sub_lt_one_of_floor_eq_floor h.1)
  have h2 := abs_lt.mp (Int.abs_sub_lt_one_of_floor_eq_floor h.2)
  simp only [withinEps, calculateDistanceSq, epsConst, decide_eq_true_eq]
  refine ⟨by norm_num, ?_⟩
  have e1 : (c.long - c'.long) * (c.long - c'.long) ≤ 1 / 25000000 := by
    nlinarith [h1.1, h1.2]
  have e2 : (c.lat - c'.lat) * (c.lat - c'.lat) ≤ 1 / 25000000 := by
    nlinarith [h2.1, h2.2]
  linarith

/-- A point of the expanded cell `(i, j)` of `main` lies in one of `128 × 91` squares of side
`1/5000`. -/
theorem unitSquare_lt_of_insideExpanded (i j : Nat) {c : LabelledGPScoord}
    (h : insideExpanded mainMinPt mainMaxPt epsConst N i j c = true) :
    (0 ≤ (unitSquare (407 / 10 + (i : ℚ) / 40 - 3 / 10000)
        (-74 + (j : ℚ) * 7 / 400 - 3 / 10000) c).1 ∧
      (unitSquare (407 / 10 + (i : ℚ) / 40 - 3 / 10000)
        (-74 + (j : ℚ) * 7 / 400 - 3 / 10000) c).1 < 128) ∧
    (0 ≤ (unitSquare (407 / 10 + (i : ℚ) / 40 - 3 / 10000)
        (-74 + (j : ℚ) * 7 / 400 - 3 / 10000) c).2 ∧
      (unitSquare (407 / 10 + (i : ℚ) / 40 - 3 / 10000)
        (-74 + (j : ℚ) * 7 / 400 - 3 / 10000) c).2 < 91) := by
  simp only [insideExpanded, Bool.and_eq_true, decide_eq_true_eq] at h
  obtain ⟨⟨⟨h1, h2⟩, h3⟩, h4⟩ := h
  simp only [mainMinPt] at h1 h2 h3 h4
  simp only [mainMaxPt] at h1 h2 h3 h4
  simp only [epsConst] at h1 h2 h3 h4
  simp only [N] at h1 h2 h3 h4
  push_cast at h1 h2 h3 h4
  unfold unitSquare
  refine ⟨⟨Int.floor_nonneg.mpr ?_, Int.floor_lt.mpr ?_⟩,
    ⟨Int.floor_nonneg.mpr ?_, Int.floor_lt.mpr ?_⟩⟩
  · linarith
  · push_cast; linarith
  · linarith
  · push_cast; linarith

set_option maxRecDepth 4000 in
/-- The run of `main` on the partition of cell `(i, j)`: it returns, creates at most `11648`
clusters, and labels them `jobOffset i j + 1 .. jobOffset i j + n`. -/
theorem DBscan_main_cell (gps : List LabelledGPScoord) (i j : Nat) (hi : i < N) (hj : j < N)
    (hlen : (gps.length : Int) ≤ maxInt) (hall : ∀ c ∈ gps, c.Label = 0) :
    ∃ out n, DBscan ((partition gps mainMinPt mainMaxPt epsConst N).grid i j) MinPts epsConst
        (jobOffset i j) = some (out, n) ∧
      out.map frame = ((partition gps mainMinPt mainMaxPt epsConst N).grid i j).map frame ∧
      0 ≤ n ∧ n ≤ 11648 ∧
      ∀ c ∈ out, Clustered c.Label →
        jobOffset i j < c.Label ∧ c.Label ≤ jobOffset i j + n := by
  have hgrid := partition_grid gps mainMinPt mainMaxPt epsConst N i j hi hj
  have hallL : ∀ c ∈ (partition gps mainMinPt mainMaxPt epsConst N).grid i j, c.Label = 0 := by
    intro c hc
    rw [hgrid] at hc
    exact hall c (List.mem_filter.mp hc).1
  have hlenL :
      (((partition gps mainMinPt mainMaxPt epsConst N).grid i j).length : Int) ≤ maxInt := by
    have : ((partition gps mainMinPt mainMaxPt epsConst N).grid i j).length ≤ gps.length := by
      rw [hgrid]; exact List.length_filter_le _ _
    omega
  unfold N at hi hj
  have hoff : 0 ≤ jobOffset i j := by unfold jobOffset; omega
  have hoff' : jobOffset i j ≤ 33000000 := by unfold jobOffset; omega
  have hmax : jobOffset i j ≤ maxInt := by unfold maxInt; omega
  obtain ⟨out, n, hrun, hs, hd⟩ :=
    DBscan_dense ((partition gps mainMinPt mainMaxPt epsConst N).grid i j) MinPts epsConst
      hoff hmax hlenL hallL
  have hn := count_le_card_of_near hs hd hallL
    (unitSquare (407 / 10 + (i : ℚ) / 40 - 3 / 10000) (-74 + (j : ℚ) * 7 / 400 - 3 / 10000))
    (Finset.Ico (0 : Int) 128 ×ˢ Finset.Ico (0 : Int) 91)
    (by
      intro c hc
      rw [hgrid] at hc
      have hin : insideExpanded mainMinPt mainMaxPt epsConst N i j c = true :=
        (List.mem_filter.mp hc).2
      have hsq := unitSquare_lt_of_insideExpanded i j hin
      exact Finset.mem_product.mpr ⟨Finset.mem_Ico.mpr hsq.1, Finset.mem_Ico.mpr hsq.2⟩)
    (fun c _ c' _ h => withinEps_of_unitSquare_eq _ _ h)
  rw [Finset.card_product, Int.card_Ico, Int.card_Ico] at hn
  have hn' : n ≤ 11648 := by
    have e : (((128 : Int) - 0).toNat * ((91 : Int) - 0).toNat : Nat) = 11648 := by decide
    rw [e] at hn
    exact_mod_cast hn
  refine ⟨out, n, hrun, hs.frame_eq, hs.count_nonneg, hn', ?_⟩
  intro c hc hcl
  rcases hs.final_label hallL hc with h1 | ⟨k, hk1, hk2, hk⟩
  · exact absurd h1 hcl.2
  · rw [hk, wrapInt_of_range (by unfold minInt; omega) (by unfold maxInt; omega)]
    constructor <;> omega

/-- Claim C9.  For every point set as `readCSVFile` builds it (all labels `0`) and every two
distinct cells `(i, j)` and `(i', j')` of the `4 × 4` grid of `main`, the runs of `DBscan` on
`grid[i][j]` and `grid[i'][j']` with the parameters and the offsets `i*10000000 + j*1000000`
of `main` return, each creates at most `11648` clusters, its cluster labels lie in
`offset + 1 .. offset + n`, and no cluster label of the one partition is a cluster label of
the other. -/
theorem jobOffset_labels_disjoint (gps : List LabelledGPScoord) (i j i' j' : Nat)
    (hi : i < N) (hj : j < N) (hi' : i' < N) (hj' : j' < N) (hne : (i, j) ≠ (i', j'))
    (hlen : (gps.length : Int) ≤ maxInt) (hall : ∀ c ∈ gps, c.Label = 0) :
    ∃ outP nP outQ nQ,
      DBscan ((partition gps mainMinPt mainMaxPt epsConst N).grid i j) MinPts epsConst
        (jobOffset i j) = some (outP, nP) ∧
      DBscan ((partition gps mainMinPt mainMaxPt epsConst N).grid i' j') MinPts epsConst
        (jobOffset i' j') = some (outQ, nQ) ∧
      outP.map frame = ((partition gps mainMinPt mainMaxPt epsConst N).grid i j).map frame ∧
      outQ.map frame = ((partition gps mainMinPt mainMaxPt epsConst N).grid i' j').map frame ∧
      nP ≤ 11648 ∧ nQ ≤ 11648 ∧
      (∀ c ∈ outP, Clustered c.Label →
        jobOffset i j < c.Label ∧ c.Label ≤ jobOffset i j + nP) ∧
      (∀ c' ∈ outQ, Clustered c'.Label →
        jobOffset i' j' < c'.Label ∧ c'.Label ≤ jobOffset i' j' + nQ) ∧
      ∀ c ∈ outP, ∀ c' ∈ outQ, Clustered c.Label → Clustered c'.Label →
        c.Label ≠ c'.Label := by
  obtain ⟨outP, nP, hrunP, hfP, _, hnP, hlP⟩ := DBscan_main_cell gps i j hi hj hlen hall
  obtain ⟨outQ, nQ, hrunQ, hfQ, _, hnQ, hlQ⟩ := DBscan_main_cell gps i' j' hi' hj' hlen hall
  refine ⟨outP, nP, outQ, nQ, hrunP, hrunQ, hfP, hfQ, hnP, hnQ, hlP, hlQ, ?_⟩
  intro c hc c' hc' hcl hcl'
  have h1 := hlP c hc hcl
  have h2 := hlQ c' hc' hcl'
  unfold N at hj hj'
  have h3 := jobOffset_apart hj hj' hne
  omega

/-- Claim C9 at the cells `(0, 0)` and `(0, 1)` and six points of the box of `main`, five of
them within `eps` of each other in cell `(0, 0)`. -/
theorem jobOffset_labels_disjoint_witness :
    ((0 : Nat) < N ∧ (0 : Nat) < N ∧ (0 : Nat) < N ∧ (1 : Nat) < N ∧
      ((0 : Nat), (0 : Nat)) ≠ (0, 1) ∧
      (([mkPt (-7399 / 100) (4071 / 100) 1, mkPt (-7399 / 100) (40711 / 1000) 2,
        mkPt (-7399 / 100) (407105 / 10000) 3, mkPt (-73991 / 1000) (4071 / 100) 4,
        mkPt (-73991 / 1000) (40711 / 1000) 5,
        mkPt (-7397 / 100) (4071 / 100) 6].length : Nat) : Int) ≤ maxInt ∧
      ∀ c ∈ [mkPt (-7399 / 100) (4071 / 100) 1, mkPt (-7399 / 100) (40711 / 1000) 2,
        mkPt (-7399 / 100) (407105 / 10000) 3, mkPt (-73991 / 1000) (4071 / 100) 4,
        mkPt (-73991 / 1000) (40711 / 1000) 5,
        mkPt (-7397 / 100) (4071 / 100) 6], c.Label = 0) ∧
    ∃ outP nP outQ nQ,
      DBscan ((partition [mkPt (-7399 / 100) (4071 / 100) 1,
          mkPt (-7399 / 100) (40711 / 1000) 2, mkPt (-7399 / 100) (407105 / 10000) 3,
          mkPt (-73991 / 1000) (4071 / 100) 4, mkPt (-73991 / 1000) (40711 / 1000) 5,
          mkPt (-7397 / 100) (4071 / 100) 6] mainMinPt mainMaxPt epsConst N).grid 0 0)
        MinPts epsConst (jobOffset 0 0) = some (outP, nP) ∧
      DBscan ((partition [mkPt (-7399 / 100) (4071 / 100) 1,
          mkPt (-7399 / 100) (40711 / 1000) 2, mkPt (-7399 / 100) (407105 / 10000) 3,
          mkPt (-73991 / 1000) (4071 / 100) 4, mkPt (-73991 / 1000) (40711 / 1000) 5,
          mkPt (-7397 / 100) (4071 / 100) 6] mainMinPt mainMaxPt epsConst N).grid 0 1)
        MinPts epsConst (jobOffset 0 1) = some (outQ, nQ) ∧
      ∀ c ∈ outP, ∀ c' ∈ outQ, Clustered c.Label → Clustered c'.Label →
        c.Label ≠ c'.Label := by
  refine ⟨⟨by decide, by decide, by decide, by decide, by decide, by decide, by decide⟩, ?_⟩
  obtain ⟨outP, nP, outQ, nQ, h1, h2, _, _, _, _, _, _, h3⟩ := jobOffset_labels_disjoint
    [mkPt (-7399 / 100) (4071 / 100) 1, mkPt (-7399 / 100) (40711 / 1000) 2,
      mkPt (-7399 / 100) (407105 / 10000) 3, mkPt (-73991 / 1000) (4071 / 100) 4,
      mkPt (-73991 / 1000) (40711 / 1000) 5, mkPt (-7397 / 100) (4071 / 100) 6]
    0 0 0 1 (by decide) (by decide) (by decide) (by decide) (by decide) (by decide)
    (by decide)
  exact ⟨outP, nP, outQ, nQ, h1, h2, h3⟩

/-! ## Order independence (C19) -/

/-- A permutation of a list is a bijection of its indices. -/
theorem perm_index_maps {α : Type} {l l' : List α} (h : l.Perm l') :
    ∃ σ τ : Nat → Nat,
      (∀ i, i < l.length → σ i < l.length ∧ τ (σ i) = i ∧ l'[σ i]? = l[i]?) ∧
      (∀ j, j < l.length → τ j < l.length ∧ σ (τ j) = j) := by
  induction h with
  | nil => exact ⟨id, id, fun i hi => by simp at hi, fun j hj => by simp at hj⟩
  | @cons x l1 l2 _ ih =>
    obtain ⟨σ, τ, h1, h2⟩ := ih
    refine ⟨fun i => match i with | 0 => 0 | i + 1 => σ i + 1,
      fun j => match j with | 0 => 0 | j + 1 => τ j + 1, ?_, ?_⟩
    · intro i hi
      cases i with
      | zero => simp
      | succ i =>
        simp only [List.length_cons, Nat.add_lt_add_iff_right] at hi
        obtain ⟨a, b, c⟩ := h1 i hi
        simp only [List.length_cons, Nat.add_lt_add_iff_right, List.getElem?_cons_succ]
        exact ⟨a, by rw [b], c⟩
    · intro j hj
      cases j with
      | zero => simp
      | succ j =>
        simp only [List.length_cons, Nat.add_lt_add_iff_right] at hj
        obtain ⟨a, b⟩ := h2 j hj
        simp only [List.length_cons, Nat.add_lt_add_iff_right]
        exact ⟨a, by rw [b]⟩
  | swap x y l =>
    refine ⟨fun i => match i with | 0 => 1 | 1 => 0 | i + 2 => i + 2,
      fun i => match i with | 0 => 1 | 1 => 0 | i + 2 => i + 2, ?_, ?_⟩
    · intro i hi
      match i with
      | 0 => simp
      | 1 => simp
      | i + 2 => simpa using hi
    · intro j hj
      match j with
      | 0 => simp
      | 1 => simp
      | j + 2 => simpa using hj
  | @trans l1 l2 l3 h12 _ ih1 ih2 =>
    obtain ⟨σ1, τ1, a1, b1⟩ := ih1
    obtain ⟨σ2, τ2, a2, b2⟩ := ih2
    have hlen : l1.length = l2.length := h12.length_eq
    refine ⟨fun i => σ2 (σ1 i), fun j => τ1 (τ2 j), ?_, ?_⟩
    · intro i hi
      obtain ⟨x1, x2, x3⟩ := a1 i hi
      obtain ⟨y1, y2, y3⟩ := a2 (σ1 i) (by rw [← hlen]; exact x1)
      refine ⟨by rw [hlen]; exact y1, ?_, ?_⟩
      · simp only; rw [y2, x2]
      · simp only; rw [y3, x3]
    · intro j hj
      obtain ⟨y1, y2⟩ := b2 j (by rw [← hlen]; exact hj)
      obtain ⟨x1, x2⟩ := b1 (τ2 j) (by rw [hlen]; exact y1)
      refine ⟨x1, ?_⟩
      simp only; rw [x2, y2]

/-- Being a core point does not depend on the order of the partition. -/
theorem isCore_perm {l l' : List LabelledGPScoord} (h : l.Perm l') (minPts : Int) (eps : ℚ)
    (c : LabelledGPScoord) : isCore l minPts eps c ↔ isCore l' minPts eps c := by
  unfold isCore
  rw [length_rangeQuery, length_rangeQuery, (h.filter _).length_eq]

/-- Core points joined by a chain of neighbouring core points have the same label at the
end of a run. -/
theorem label_eq_of_chain {coords out : List LabelledGPScoord} {minPts : Int} {eps : ℚ}
    {offset : Int} {n : Int} (hall : ∀ c ∈ coords, c.Label = 0)
    (hs : Sound coords minPts eps offset coords.length out n)
    (hd : Dense coords minPts eps out) {i j : Nat}
    (h : Relation.ReflTransGen (CoreAdj coords minPts eps) i j) :
    labelAt out i = labelAt out j := by
  induction h with
  | refl => rfl
  | tail _ hbc ih =>
    rw [ih]
    exact ((hd.closed _ _ hbc.1 (hs.core_clustered hall hbc.1) hbc.2.2).2 hbc.2.1).symm

/-- The cluster count of a run is at most the cluster count of a run on a reordering. -/
theorem count_le_of_perm {coords coords' out out' : List LabelledGPScoord} {minPts : Int}
    {eps : ℚ} {offset : Int} {n n' : Int}
    (hall : ∀ c ∈ coords, c.Label = 0) (hall' : ∀ c ∈ coords', c.Label = 0)
    (hperm : coords.Perm coords')
    (hs : Sound coords minPts eps offset coords.length out n)
    (hd : Dense coords minPts eps out)
    (hs' : Sound coords' minPts eps offset coords'.length out' n')
    (hd' : Dense coords' minPts eps out') : n ≤ n' := by
  obtain ⟨σ, τ, h1, h2⟩ := perm_index_maps hperm
  have hlen : coords.length = coords'.length := hperm.length_eq
  -- a core index of `coords` is sent to a core index of `coords'`
  have hcoreσ : ∀ i, CoreIdx coords minPts eps i → CoreIdx coords' minPts eps (σ i) := by
    rintro i ⟨c, hc, hcore⟩
    have hi := (List.getElem?_eq_some_iff.mp hc).1
    exact ⟨c, by rw [(h1 i hi).2.2]; exact hc, (isCore_perm hperm minPts eps c).mp hcore⟩
  have hvalτ : ∀ j c, coords'[j]? = some c → coords[τ j]? = some c := by
    intro j c hc
    have hj : j < coords.length := by rw [hlen]; exact (List.getElem?_eq_some_iff.mp hc).1
    obtain ⟨a, b⟩ := h2 j hj
    rw [← (h1 (τ j) a).2.2, b]; exact hc
  have hadjτ : ∀ a b, CoreAdj coords' minPts eps a b →
      CoreAdj coords minPts eps (τ a) (τ b) := by
    rintro a b ⟨⟨ca, hca, hcorea⟩, ⟨cb, hcb, hcoreb⟩, ⟨xa, xb, hxa, hxb, hw⟩⟩
    exact ⟨⟨ca, hvalτ a ca hca, (isCore_perm hperm minPts eps ca).mpr hcorea⟩,
      ⟨cb, hvalτ b cb hcb, (isCore_perm hperm minPts eps cb).mpr hcoreb⟩,
      ⟨xa, xb, hvalτ a xa hxa, hvalτ b xb hxb, hw⟩⟩
  have hnn := hs.count_nonneg
  have hnn' := hs'.count_nonneg
  have hcard := Finset.card_le_card_of_forall_subsingleton
    (fun k k' : Int => ∃ i, CoreIdx coords minPts eps i ∧
      labelAt out i = wrapInt (k + offset) ∧ labelAt out' (σ i) = wrapInt (k' + offset))
    (s := Finset.Icc 1 n) (t := Finset.Icc 1 n')
    (by
      intro k hk
      rw [Finset.mem_Icc] at hk
      obtain ⟨i, c0, c, h0, _, hcore, hc, hl⟩ := hs.seeds k hk.1 hk.2
      have hicore : CoreIdx coords minPts eps i := ⟨c0, h0, hcore⟩
      obtain ⟨c0', h0', hcore'⟩ := hcoreσ i hicore
      obtain ⟨c', hc', _, _⟩ := frame_initial hs'.frame_eq.symm h0'
      obtain ⟨k', hk1', hk2', hk'⟩ :=
        hs'.core_label h0' (hall' c0' (List.getElem?_mem h0')) hcore' hc'
      refine ⟨k', ?_, i, hicore, ?_, ?_⟩
      · rw [Finset.mem_Icc]; exact ⟨hk1', hk2'⟩
      · rw [labelAt_eq hc]; exact hl
      · rw [labelAt_eq hc']; exact hk')
    (by
      intro k' _ k1 hk1 k2 hk2
      obtain ⟨hm1, i1, hi1, hl1, hl1'⟩ := hk1
      obtain ⟨hm2, i2, hi2, hl2, hl2'⟩ := hk2
      rw [Finset.mem_Icc] at hm1 hm2
      have hcl' := hs'.core_clustered hall' (hcoreσ i1 hi1)
      have hchain' := hd'.connected (σ i1) (σ i2) (hcoreσ i1 hi1) (hcoreσ i2 hi2) hcl'
        (by rw [hl1', hl2'])
      have hchain := Relation.ReflTransGen.lift τ hadjτ hchain'
      have e1 : τ (σ i1) = i1 := by
        obtain ⟨c, hc, _⟩ := hi1
        exact (h1 i1 (List.getElem?_eq_some_iff.mp hc).1).2.1
      have e2 : τ (σ i2) = i2 := by
        obtain ⟨c, hc, _⟩ := hi2
        exact (h1 i2 (List.getElem?_eq_some_iff.mp hc).1).2.1
      rw [e1, e2] at hchain
      have := label_eq_of_chain hall hs hd hchain
      rw [hl1, hl2] at this
      have hnmax := hs.count_le_maxInt
      exact wrapInt_label_inj hm1.1 (le_trans hm1.2 hnmax) hm2.1 (le_trans hm2.2 hnmax) this)
  rw [Int.card_Icc, Int.card_Icc] at hcard
  omega

/-- Claim C19.  For a partition of unclassified points, any reordering of its sequence and
`labelOffset ≥ 0` (an `int`, so at most `maxInt`, on a slice, whose length is at most
`maxInt`), `DBscan` returns the same cluster count on the reordered partition and labels the
same points noise. -/
theorem DBscan_order_independent (coords coords' : List LabelledGPScoord) (minPts : Int)
    (eps : ℚ) (offset : Int) (hoff : 0 ≤ offset) (hmax : offset ≤ maxInt)
    (hlen : (coords.length : Int) ≤ maxInt) (hall : ∀ c ∈ coords, c.Label = 0)
    (hperm : coords.Perm coords') :
    ∃ out n out' n', DBscan coords minPts eps offset = some (out, n) ∧
      DBscan coords' minPts eps offset = some (out', n') ∧ n = n' ∧
      ∀ (i j : Nat) (c0 c c' : LabelledGPScoord), coords[i]? = some c0 →
        coords'[j]? = some c0 → out[i]? = some c → out'[j]? = some c' →
        (c.Label = -1 ↔ c'.Label = -1) := by
  have hall' : ∀ c ∈ coords', c.Label = 0 := fun c hc => hall c (hperm.mem_iff.mpr hc)
  have hlen' : (coords'.length : Int) ≤ maxInt := by rw [← hperm.length_eq]; exact hlen
  obtain ⟨out, n, hrun, hs, hd⟩ := DBscan_dense coords minPts eps hoff hmax hlen hall
  obtain ⟨out', n', hrun', hs', hd'⟩ := DBscan_dense coords' minPts eps hoff hmax hlen' hall'
  refine ⟨out, n, out', n', hrun, hrun', ?_, ?_⟩
  · exact le_antisymm (count_le_of_perm hall hall' hperm hs hd hs' hd')
      (count_le_of_perm hall' hall hperm.symm hs' hd' hs hd)
  · intro i j c0 c c' h0 h0' hc hc'
    rw [noise_iff_of_dense hall hs hd h0 hc, noise_iff_of_dense hall' hs' hd' h0' hc']
    have e1 : (rangeQuery coords c0 eps).length = (rangeQuery coords' c0 eps).length := by
      rw [length_rangeQuery, length_rangeQuery, (hperm.filter _).length_eq]
    rw [e1]
    constructor
    · rintro ⟨a, b⟩
      exact ⟨a, fun q hq hcore =>
        b q (hperm.mem_iff.mpr hq) ((isCore_perm hperm minPts eps q).mpr hcore)⟩
    · rintro ⟨a, b⟩
      exact ⟨a, fun q hq hcore =>
        b q (hperm.mem_iff.mp hq) ((isCore_perm hperm minPts eps q).mp hcore)⟩

/-- Claim C19 at three points and the sequence with the first two exchanged. -/
theorem DBscan_order_independent_witness :
    ((0 : Int) ≤ 0 ∧ (0 : Int) ≤ maxInt ∧
      (([mkPt 5 5 3, mkPt 0 0 1, mkPt 0 1 2].length : Nat) : Int) ≤ maxInt ∧
      (∀ c ∈ [mkPt 5 5 3, mkPt 0 0 1, mkPt 0 1 2], c.Label = 0) ∧
      [mkPt 5 5 3, mkPt 0 0 1, mkPt 0 1 2].Perm [mkPt 0 0 1, mkPt 5 5 3, mkPt 0 1 2]) ∧
    ∃ out n out' n', DBscan [mkPt 5 5 3, mkPt 0 0 1, mkPt 0 1 2] 2 1 0 = some (out, n) ∧
      DBscan [mkPt 0 0 1, mkPt 5 5 3, mkPt 0 1 2] 2 1 0 = some (out', n') ∧ n = n' ∧
      ∀ (i j : Nat) (c0 c c' : LabelledGPScoord),
        [mkPt 5 5 3, mkPt 0 0 1, mkPt 0 1 2][i]? = some c0 →
        [mkPt 0 0 1, mkPt 5 5 3, mkPt 0 1 2][j]? = some c0 → out[i]? = some c →
        out'[j]? = some c' → (c.Label = -1 ↔ c'.Label = -1) :=
  ⟨⟨by decide, by decide, by decide, by decide, List.Perm.swap _ _ _⟩,
    DBscan_order_independent [mkPt 5 5 3, mkPt 0 0 1, mkPt 0 1 2]
      [mkPt 0 0 1, mkPt 5 5 3, mkPt 0 1 2] 2 1 0 (by decide) (by decide) (by decide)
      (by decide) (List.Perm.swap _ _ _)⟩

end TaxiClustering
